import Mathlib

/-!
# Scoreboard of the tinyrv out-of-order core

A shallow embedding of `src/src/scoreboard.cpp` (`Scoreboard::issue`, `execute`,
`writeback`, `commit`) together with the bookkeeping structures it drives, followed by
theorems about the four pipeline stages.

Conventions of the embedding.

* C++ `int` indices are `Int`; the sentinel `-1` is kept as it is in the source.
* `std::vector` contents are `List`s.  An access that the C++ code performs outside the
  bounds of a vector (undefined behaviour for `operator[]`, `std::out_of_range` for `.at`)
  makes the embedded operation return `none`; a result `some _` is a call that ran to its
  `return` statement.
* The reorder buffer is an external collaborator: its `is_full` and `allocate` are taken as
  a parameter (`ReorderBufferOps`) over an arbitrary state type, so the theorems on the
  stages hold for every reorder buffer; its two channels `Completed` and `Committed` are
  concrete queues.  The theorems on retirement use a circular in-order buffer (`Ring`),
  whose tick retires the oldest completed instruction and releases its RAT entry.
* The functional units are owned by the core (`core_->FUs_`); they are carried in the
  scoreboard state as a list of units, each with an `Input` and an `Output` queue.
-/

namespace tinyrv

/-! ## Data model -/

/-- Modelled from the spec: `pipeline_trace_t` is declared in `types.h`, which is not among
the sources.  The record keeps the fields `scoreboard.cpp` reads (`rs1`, `rs2`, `rd`, `wb`,
`fu_type`); `id` stands for the identity of the pointed-to trace object. -/
structure pipeline_trace_t where
  id : Nat
  rs1 : Nat
  rs2 : Nat
  rd : Nat
  wb : Bool
  fu_type : Nat
deriving DecidableEq, Inhabited

/-- Modelled from the spec: the reservation-station entry (`ReservationStation::entry_t`,
declared in a header that is not among the sources): validity flag, running flag, the
producer slot it will write, the two operand waits and the instruction. -/
structure entry_t where
  valid : Bool
  running : Bool
  rob_index : Int
  rs1_index : Int
  rs2_index : Int
  trace : pipeline_trace_t
deriving DecidableEq, Inhabited

/-- Modelled from the spec: `FunctionalUnit::entry_t`, the triple
`{instruction, producer_slot_id, reservation_station_slot_id}` that `execute` builds with
`fu_entry{rs_entry.trace, rs_entry.rob_index, i}`. -/
structure fu_entry_t where
  trace : pipeline_trace_t
  rob_index : Int
  rs_index : Int
deriving DecidableEq, Inhabited

/-- Modelled from the spec: a functional unit seen through its two channels, the ingestion
queue `Input` (`send` appends at the back) and the completion queue `Output` (`front`,
`pop`, `empty`). -/
structure FunctionalUnit where
  Input : List fu_entry_t
  Output : List fu_entry_t
deriving DecidableEq, Inhabited

/-- The entry with its validity flag cleared (`valid = false`). -/
def entry_t.freed (e : entry_t) : entry_t :=
  ⟨false, e.running, e.rob_index, e.rs1_index, e.rs2_index, e.trace⟩

/-- The entry with its running flag set (`running = true`). -/
def entry_t.started (e : entry_t) : entry_t :=
  ⟨e.valid, true, e.rob_index, e.rs1_index, e.rs2_index, e.trace⟩

/-- Read `v[i]` for a C++ `int` index; `none` outside the bounds of the vector. -/
def vecGet (v : List Int) (i : Int) : Option Int :=
  if 0 ≤ i then v[i.toNat]? else none

/-- Write `v[i] = x` for a C++ `int` index; `none` outside the bounds of the vector. -/
def vecSet (v : List Int) (i : Int) (x : Int) : Option (List Int) :=
  if 0 ≤ i ∧ i.toNat < v.length then some (v.set i.toNat x) else none

/-- Modelled from the spec: the register alias table (class `RegisterAliasTable`, not among
the sources): an array indexed by architectural register id whose entries are a producer
slot or `-1`. -/
structure RegisterAliasTable where
  store : List Int
deriving DecidableEq, Inhabited

namespace RegisterAliasTable

/-- Modelled from the spec: `RAT.get(reg)` reads the entry of register `reg`. -/
def get (r : RegisterAliasTable) (index : Nat) : Option Int :=
  r.store[index]?

/-- Modelled from the spec: `RAT.set(reg, v)` overwrites the entry of register `reg`. -/
def set (r : RegisterAliasTable) (index : Nat) (value : Int) : Option RegisterAliasTable :=
  if index < r.store.length then some ⟨r.store.set index value⟩ else none

end RegisterAliasTable

/-- Index of the first entry whose validity flag is clear, counting from `i`. -/
def firstFree : Nat → List entry_t → Option Nat
  | _, [] => none
  | i, e :: rest => if e.valid then firstFree (i + 1) rest else some i

/-- Modelled from the spec: the reservation-station set (class `ReservationStation`, not
among the sources): a fixed-capacity array of entries with validity flags. -/
structure ReservationStation where
  store : List entry_t
deriving DecidableEq, Inhabited

namespace ReservationStation

/-- Number of slots, `RS_.size()`. -/
def size (rs : ReservationStation) : Nat := rs.store.length

/-- Modelled from the spec: `RS_.is_full()` holds when no slot is free. -/
def is_full (rs : ReservationStation) : Bool := rs.store.all fun e => e.valid

/-- Slot that the next `push` fills: the free slot of lowest index. -/
def freeSlot (rs : ReservationStation) : Option Nat := firstFree 0 rs.store

/-- Modelled from the spec: `RS_.push(trace, rob_index, rs1_index, rs2_index)` fills a free
slot with a valid, not running entry and returns the slot index; it has no result when the
set is full. -/
def push (rs : ReservationStation) (trace : pipeline_trace_t) (rob_index rs1_index rs2_index : Int) :
    Option (Int × ReservationStation) :=
  match rs.freeSlot with
  | none => none
  | some i => some ((i : Int), ⟨rs.store.set i ⟨true, false, rob_index, rs1_index, rs2_index, trace⟩⟩)

/-- Modelled from the spec: `RS_.remove(index)` frees the slot by clearing its validity
flag. -/
def remove (rs : ReservationStation) (index : Int) : Option ReservationStation :=
  if 0 ≤ index then
    match rs.store[index.toNat]? with
    | none => none
    | some e => some ⟨rs.store.set index.toNat e.freed⟩
  else none

/-- Read `RS_[i]` for a C++ `int` index. -/
def entry (rs : ReservationStation) (i : Int) : Option entry_t :=
  if 0 ≤ i then rs.store[i.toNat]? else none

end ReservationStation

/-- Modelled from the spec: the reorder buffer as the scoreboard sees it.  `state` is the
buffer's own retirement state, which the spec leaves opaque; `Completed` is the channel the
scoreboard pushes completed producer slots to, `Committed` the queue it pops retired
instructions from. -/
structure ReorderBuffer (ρ : Type) where
  state : ρ
  Completed : List Int
  Committed : List pipeline_trace_t
deriving DecidableEq

/-- Modelled from the spec: the two calls the scoreboard makes into the reorder buffer,
`is_full()` and `allocate(trace)`, for an arbitrary implementation of the buffer. -/
structure ReorderBufferOps (ρ : Type) where
  is_full : ρ → Bool
  allocate : ρ → pipeline_trace_t → Int × ρ

/-- State of the scoreboard: the members `RAT_`, `RS_`, `RST_`, `ROB_` of the class and the
functional units `core_->FUs_` it reaches through the core. -/
structure Scoreboard (ρ : Type) where
  RAT_ : RegisterAliasTable
  RS_ : ReservationStation
  RST_ : List Int
  ROB_ : ReorderBuffer ρ
  FUs_ : List FunctionalUnit
deriving DecidableEq

/-! ## The four stages -/

section Stages

variable {ρ : Type}

/-- Operand renaming of `issue` (source lines 50-56): read the RAT, and for a tracked
register follow the producer slot through the RST. -/
def resolve (sb : Scoreboard ρ) (reg : Nat) : Option Int := do
  let rob_index ← sb.RAT_.get reg
  if rob_index != -1 then vecGet sb.RST_ rob_index else some (-1)

/-- Embedding of `Scoreboard::issue`. -/
def issue (R : ReorderBufferOps ρ) (sb : Scoreboard ρ) (trace : pipeline_trace_t) :
    Option (Bool × Scoreboard ρ) :=
  if sb.RS_.is_full || R.is_full sb.ROB_.state then some (false, sb)
  else do
    let rs1_index ← resolve sb trace.rs1
    let rs2_index ← resolve sb trace.rs2
    let alloc := R.allocate sb.ROB_.state trace
    let rob_index := alloc.1
    let RAT ← (if trace.wb then sb.RAT_.set trace.rd rob_index else some sb.RAT_)
    let pushed ← sb.RS_.push trace rob_index rs1_index rs2_index
    let rs_index := pushed.1
    let RST ← vecSet sb.RST_ rob_index rs_index
    some (true, ⟨RAT, pushed.2, RST, ⟨alloc.2, sb.ROB_.Completed, sb.ROB_.Committed⟩, sb.FUs_⟩)

/-- The test of `execute` (source line 89): valid, not running, both waits available. -/
def entry_t.ready (e : entry_t) : Bool :=
  e.valid && !e.running && e.rs1_index == -1 && e.rs2_index == -1

/-- The call `FUs.at(k)->Input.send(e)`: `none` when `k` is not the index of a unit. -/
def sendInput (FUs : List FunctionalUnit) (k : Nat) (e : fu_entry_t) : Option (List FunctionalUnit) :=
  match FUs[k]? with
  | none => none
  | some fu => some (FUs.set k ⟨fu.Input ++ [e], fu.Output⟩)

/-- The loop of `execute` from slot `i` on: `rest` are the entries `RS_[i], RS_[i+1], ...`.
The result is the updated entries, the units and the traces appended to the return list. -/
def executeLoop : Nat → List entry_t → List FunctionalUnit →
    Option (List entry_t × List FunctionalUnit × List pipeline_trace_t)
  | _, [], FUs => some ([], FUs, [])
  | i, e :: rest, FUs =>
    if e.ready then
      match sendInput FUs e.trace.fu_type ⟨e.trace, e.rob_index, (i : Int)⟩ with
      | none => none
      | some FUs1 =>
        match executeLoop (i + 1) rest FUs1 with
        | none => none
        | some (rest1, FUs2, traces) =>
          some (e.started :: rest1, FUs2, e.trace :: traces)
    else
      match executeLoop (i + 1) rest FUs with
      | none => none
      | some (rest1, FUs2, traces) => some (e :: rest1, FUs2, traces)

/-- Embedding of `Scoreboard::execute`. -/
def execute (sb : Scoreboard ρ) : Option (List pipeline_trace_t × Scoreboard ρ) :=
  match executeLoop 0 sb.RS_.store sb.FUs_ with
  | none => none
  | some (store, FUs, traces) => some (traces, ⟨sb.RAT_, ⟨store⟩, sb.RST_, sb.ROB_, FUs⟩)

/-- The scan of `writeback` (source lines 109-113): position, counting from `k`, of the
first unit whose output is not empty, with the entry at the front of that output. -/
def firstOutput : Nat → List FunctionalUnit → Option (Nat × fu_entry_t)
  | _, [] => none
  | k, fu :: rest =>
    match fu.Output with
    | [] => firstOutput (k + 1) rest
    | e :: _ => some (k, e)

/-- The body of the broadcast loop of `writeback` (source lines 119-127) on one entry. -/
def broadcast (rs_index : Int) (e : entry_t) : entry_t :=
  if !e.valid then e
  else
    ⟨e.valid, e.running, e.rob_index,
      if e.rs1_index == rs_index then -1 else e.rs1_index,
      if e.rs2_index == rs_index then -1 else e.rs2_index, e.trace⟩

/-- The call `fu->Output.pop()` on the unit at position `k`. -/
def popOutput (FUs : List FunctionalUnit) (k : Nat) : List FunctionalUnit :=
  FUs.modify (fun fu => ⟨fu.Input, fu.Output.tail⟩) k

/-- Embedding of `Scoreboard::writeback`. -/
def writeback (sb : Scoreboard ρ) : Option (Option pipeline_trace_t × Scoreboard ρ) :=
  match firstOutput 0 sb.FUs_ with
  | none => some (none, sb)
  | some (k, fu_entry) => do
    let RS1 : ReservationStation := ⟨sb.RS_.store.map (broadcast fu_entry.rs_index)⟩
    let RST ← vecSet sb.RST_ fu_entry.rob_index (-1)
    let ROB : ReorderBuffer ρ :=
      ⟨sb.ROB_.state, sb.ROB_.Completed ++ [fu_entry.rob_index], sb.ROB_.Committed⟩
    let RS ← RS1.remove fu_entry.rs_index
    some (some fu_entry.trace, ⟨sb.RAT_, RS, RST, ROB, popOutput sb.FUs_ k⟩)

/-- Embedding of `Scoreboard::commit`. -/
def commit (sb : Scoreboard ρ) : Option pipeline_trace_t × Scoreboard ρ :=
  match sb.ROB_.Committed with
  | [] => (none, sb)
  | trace :: rest => (some trace, ⟨sb.RAT_, sb.RS_, sb.RST_, ⟨sb.ROB_.state, sb.ROB_.Completed, rest⟩, sb.FUs_⟩)

/-- The entries that the claim on `execute` expects in the input of unit `u`: for every
slot `i, i+1, ...` (entries `store`) whose entry is ready and whose instruction has unit
type `u`, the triple of the entry's instruction, its producer slot and the slot index, in
ascending slot order. -/
def dispatched (u : Nat) : Nat → List entry_t → List fu_entry_t
  | _, [] => []
  | i, e :: rest =>
    if e.ready && e.trace.fu_type == u then
      ⟨e.trace, e.rob_index, (i : Int)⟩ :: dispatched u (i + 1) rest
    else dispatched u (i + 1) rest

/-! ## Construction, environment and runs -/

/-- Embedding of the constructor `Scoreboard::Scoreboard`: a RAT of `NUM_REGS` entries, a
reservation-station set of `num_RSs` free slots, an RST of `rob_size` entries `-1`.  The
RAT starts with every register available, the channels and the `numFUs` units start empty;
`rob` is the state `ReorderBuffer::Create` returns. -/
def Scoreboard.init (NUM_REGS num_RSs rob_size numFUs : Nat) (rob : ρ) : Scoreboard ρ :=
  ⟨⟨List.replicate NUM_REGS (-1)⟩,
   ⟨List.replicate num_RSs ⟨false, false, -1, -1, -1, default⟩⟩,
   List.replicate rob_size (-1),
   ⟨rob, [], []⟩,
   List.replicate numFUs ⟨[], []⟩⟩

/-- Modelled from the spec: a functional unit finishes the entry at position `n` of its
ingestion queue and hands it, unchanged, to the back of its completion queue. -/
def completeUnit (FUs : List FunctionalUnit) (k n : Nat) : Option (List FunctionalUnit) :=
  match FUs[k]? with
  | none => none
  | some fu =>
    match fu.Input[n]? with
    | none => none
    | some e => some (FUs.set k ⟨fu.Input.eraseIdx n, fu.Output ++ [e]⟩)

/-- One event of a run: a stage call made by the pipeline driver, or a move of one of the
external collaborators (a unit completing an entry, the reorder buffer changing its own
state and queues). -/
inductive Call (ρ : Type) where
  | issue (trace : pipeline_trace_t)
  | execute
  | writeback
  | commit
  | complete (k n : Nat)
  | sequencer (move : ReorderBuffer ρ → ReorderBuffer ρ)

/-- State after one event; `none` when the call has no defined result. -/
def step (R : ReorderBufferOps ρ) (sb : Scoreboard ρ) : Call ρ → Option (Scoreboard ρ)
  | Call.issue trace => (issue R sb trace).map Prod.snd
  | Call.execute => (execute sb).map Prod.snd
  | Call.writeback => (writeback sb).map Prod.snd
  | Call.commit => some (commit sb).2
  | Call.complete k n => (completeUnit sb.FUs_ k n).map fun FUs => ⟨sb.RAT_, sb.RS_, sb.RST_, sb.ROB_, FUs⟩
  | Call.sequencer move => some ⟨sb.RAT_, sb.RS_, sb.RST_, move sb.ROB_, sb.FUs_⟩

/-- State after a sequence of events. -/
def run (R : ReorderBufferOps ρ) (sb : Scoreboard ρ) : List (Call ρ) → Option (Scoreboard ρ)
  | [] => some sb
  | c :: cs =>
    match step R sb c with
    | none => none
    | some sb1 => run R sb1 cs

/-- States reachable from a freshly constructed scoreboard. -/
inductive Reachable (R : ReorderBufferOps ρ) : Scoreboard ρ → Prop where
  | init (NUM_REGS num_RSs rob_size numFUs : Nat) (rob : ρ) :
      Reachable R (Scoreboard.init NUM_REGS num_RSs rob_size numFUs rob)
  | step (sb sb1 : Scoreboard ρ) (c : Call ρ) :
      Reachable R sb → step R sb c = some sb1 → Reachable R sb1

/-- Is the event `c`, made in state `sb`, an admitted issue of an instruction that writes
register `reg`? -/
def Call.writes (R : ReorderBufferOps ρ) (reg : Nat) (sb : Scoreboard ρ) : Call ρ → Bool
  | Call.issue trace =>
    match tinyrv.issue R sb trace with
    | some (true, _) => trace.wb && trace.rd == reg
    | _ => false
  | _ => false

/-- Is the event `c`, made in state `sb`, an admitted issue to which the reorder buffer
gives the producer slot `p`? -/
def Call.allocates (R : ReorderBufferOps ρ) (p : Int) (sb : Scoreboard ρ) : Call ρ → Bool
  | Call.issue trace =>
    match tinyrv.issue R sb trace with
    | some (true, _) => (R.allocate sb.ROB_.state trace).1 == p
    | _ => false
  | _ => false

/-- Is the event `c`, made in state `sb`, a writeback that processes a completion of
producer slot `p`? -/
def Call.completes (p : Int) (sb : Scoreboard ρ) : Call ρ → Bool
  | Call.writeback =>
    match firstOutput 0 sb.FUs_ with
    | some (_, fu_entry) => fu_entry.rob_index == p
    | none => false
  | _ => false

/-- State after `n` consecutive `writeback` calls. -/
def writebackN : Nat → Scoreboard ρ → Option (Scoreboard ρ)
  | 0, sb => some sb
  | n + 1, sb =>
    match writeback sb with
    | none => none
    | some (_, sb1) => writebackN n sb1

/-- Every completion entry waiting in the output of some unit carries a producer slot that
indexes the RST and a reservation-station slot that indexes the reservation-station set. -/
def outputsInBounds (sb : Scoreboard ρ) : Prop :=
  ∀ fu ∈ sb.FUs_, ∀ g ∈ fu.Output,
    (0 ≤ g.rob_index ∧ g.rob_index.toNat < sb.RST_.length) ∧
    (0 ≤ g.rs_index ∧ g.rs_index.toNat < sb.RS_.size)

instance outputsInBounds.decidable (sb : Scoreboard ρ) : Decidable (outputsInBounds sb) := by
  unfold outputsInBounds
  infer_instance

/-- Number of completion entries waiting in the outputs of all units. -/
def pendingOutputs (FUs : List FunctionalUnit) : Nat :=
  (FUs.map fun fu => fu.Output.length).sum

/-- Number of entries waiting in the two queues of a unit that carry reservation-station
slot `s`. -/
def unitCount (s : Int) (fu : FunctionalUnit) : Nat :=
  (fu.Input ++ fu.Output).countP fun g => g.rs_index == s

/-- Number of entries in flight (in the input or output of some unit) that carry
reservation-station slot `s`. -/
def inflightCount (s : Int) (FUs : List FunctionalUnit) : Nat :=
  (FUs.map (unitCount s)).sum

/-- Number of ready entries at slot `s` among the entries `store` of slots `i, i+1, ...`. -/
def readyAt (s : Int) : Nat → List entry_t → Nat
  | _, [] => 0
  | i, e :: rest => (if e.ready && ((i : Int) == s) then 1 else 0) + readyAt s (i + 1) rest

/-- Consistency of the bookkeeping: an RST entry that is set names a valid
reservation-station entry whose producer slot is the index of that RST entry; an entry in
flight in a functional unit names a valid, running reservation-station entry with the same
producer slot and instruction; no two entries in flight carry the same reservation-station slot; the
producer slot of a valid reservation-station entry indexes the RST. -/
structure Consistent (sb : Scoreboard ρ) : Prop where
  rst : ∀ (q : Nat) (s : Int), sb.RST_[q]? = some s → s ≠ -1 →
    ∃ e, sb.RS_.entry s = some e ∧ e.valid = true ∧ e.rob_index = (q : Int)
  inflight : ∀ fu ∈ sb.FUs_, ∀ g ∈ fu.Input ++ fu.Output,
    ∃ e, sb.RS_.entry g.rs_index = some e ∧ e.valid = true ∧ e.running = true ∧
      e.rob_index = g.rob_index ∧ e.trace = g.trace
  unique : ∀ s : Int, inflightCount s sb.FUs_ ≤ 1
  robs : ∀ e ∈ sb.RS_.store, e.valid = true →
    0 ≤ e.rob_index ∧ e.rob_index.toNat < sb.RST_.length

/-- The property of C13: every valid entry whose running flag is set has both waits
available. -/
def RunningClean (sb : Scoreboard ρ) : Prop :=
  ∀ e ∈ sb.RS_.store, e.valid = true → e.running = true →
    e.rs1_index = -1 ∧ e.rs2_index = -1

/-- A wait is live for slot `i`: it is `-1`, or it is the index of a valid entry other than
the entry of slot `i`. -/
def liveWait (sb : Scoreboard ρ) (i : Nat) (w : Int) : Prop :=
  w = -1 ∨ (w ≠ (i : Int) ∧ ∃ e, sb.RS_.entry w = some e ∧ e.valid = true)

/-- The property of C19 on waits: both waits of every valid entry are live. -/
def WaitsLive (sb : Scoreboard ρ) : Prop :=
  ∀ (i : Nat) (e : entry_t), sb.RS_.store[i]? = some e → e.valid = true →
    liveWait sb i e.rs1_index ∧ liveWait sb i e.rs2_index

/-- The property of C20 for an RST of `rob_size` entries: the RST has that size and every
RAT entry is `-1` or an index of the RST. -/
structure SizedFor (rob_size : Nat) (sb : Scoreboard ρ) : Prop where
  size : sb.RST_.length = rob_size
  rat : ∀ r ∈ sb.RAT_.store, r = -1 ∨ (0 ≤ r ∧ r.toNat < rob_size)

end Stages

/-! ## A concrete reorder buffer -/

/-- Modelled from the spec: state of a reorder buffer that hands out its `capacity` producer
slots in circular order; `inflight` lists the allocated instructions in program order, each
with its producer slot and a flag telling whether it has completed. -/
structure Ring where
  capacity : Nat
  tail : Nat
  inflight : List (pipeline_trace_t × Int × Bool)
deriving DecidableEq

/-- Modelled from the spec: `is_full` and `allocate` of the circular reorder buffer. -/
def Ring.ops : ReorderBufferOps Ring where
  is_full r := decide (r.capacity ≤ r.inflight.length)
  allocate r trace :=
    ((r.tail : Int), ⟨r.capacity, (r.tail + 1) % r.capacity, r.inflight ++ [(trace, (r.tail : Int), false)]⟩)

/-- Modelled from the spec: one tick of the circular reorder buffer.  It takes the producer
slots waiting in `Completed`, flags their instructions as completed, and retires the oldest
instruction to `Committed` when that one has completed. -/
def Ring.tick (rob : ReorderBuffer Ring) : ReorderBuffer Ring :=
  let flagged := rob.state.inflight.map fun x =>
    (x.1, x.2.1, x.2.2 || rob.Completed.contains x.2.1)
  match flagged with
  | (trace, _, true) :: rest =>
    ⟨⟨rob.state.capacity, rob.state.tail, rest⟩, [], rob.Committed ++ [trace]⟩
  | _ => ⟨⟨rob.state.capacity, rob.state.tail, flagged⟩, [], rob.Committed⟩

/-! ## Logs of a run and the link between the scoreboard and the circular reorder buffer -/

section Logs

variable {ρ : Type}

/-- The instruction admitted by the event `c` made in state `sb`, when `c` is an admitted
issue. -/
def Call.admitted (R : ReorderBufferOps ρ) (sb : Scoreboard ρ) : Call ρ → Option pipeline_trace_t
  | Call.issue trace =>
    match tinyrv.issue R sb trace with
    | some (true, _) => some trace
    | _ => none
  | _ => none

/-- The instruction returned by the event `c` made in state `sb`, when `c` is a `commit`
call that returns one. -/
def Call.retired (sb : Scoreboard ρ) : Call ρ → Option pipeline_trace_t
  | Call.commit => (tinyrv.commit sb).1
  | _ => none

/-- The instruction returned by the event `c` made in state `sb`, when `c` is a `writeback`
call that returns one (the instruction whose completion the call processed). -/
def Call.finished (sb : Scoreboard ρ) : Call ρ → Option pipeline_trace_t
  | Call.writeback =>
    match tinyrv.writeback sb with
    | some (r, _) => r
    | none => none
  | _ => none

/-- The instructions observed by `obs` along the run `cs` from `sb`, in the order of the
events. -/
def collect (R : ReorderBufferOps ρ) (obs : Scoreboard ρ → Call ρ → Option pipeline_trace_t) :
    Scoreboard ρ → List (Call ρ) → List pipeline_trace_t
  | _, [] => []
  | sb, c :: cs =>
    (obs sb c).toList ++
      match step R sb c with
      | none => []
      | some sb1 => collect R obs sb1 cs

/-- The instructions admitted by `issue` along the run, in issue order. -/
def issuedIn (R : ReorderBufferOps ρ) (sb : Scoreboard ρ) (cs : List (Call ρ)) :
    List pipeline_trace_t :=
  collect R (Call.admitted R) sb cs

/-- The instructions returned by the successive `commit` calls of the run. -/
def committedIn (R : ReorderBufferOps ρ) (sb : Scoreboard ρ) (cs : List (Call ρ)) :
    List pipeline_trace_t :=
  collect R Call.retired sb cs

/-- The instructions returned by the successive `writeback` calls of the run: the
instructions that have completed. -/
def writtenBackIn (R : ReorderBufferOps ρ) (sb : Scoreboard ρ) (cs : List (Call ρ)) :
    List pipeline_trace_t :=
  collect R Call.finished sb cs

end Logs

/-- Modelled from the spec: the flagging step of `Ring.tick` on one in-flight entry: the
entry is flagged as completed when it was flagged before or when its producer slot waits in `Completed`. -/
def Ring.flag (rob : ReorderBuffer Ring) (x : pipeline_trace_t × Int × Bool) :
    pipeline_trace_t × Int × Bool :=
  (x.1, x.2.1, x.2.2 || rob.Completed.contains x.2.1)

/-- The issue-order subsequence of the instructions that have completed along the run: the
admitted instructions, in issue order, restricted to those some `writeback` call of the
run returned. -/
def completedInIssueOrder (cs : List (Call Ring)) (sb : Scoreboard Ring) :
    List pipeline_trace_t :=
  (issuedIn Ring.ops sb cs).filter fun t => decide (t ∈ writtenBackIn Ring.ops sb cs)

/-- The run lets the reorder buffer move only by `Ring.tick`. -/
def ringDriven (cs : List (Call Ring)) : Prop :=
  ∀ c ∈ cs, ∀ move, c = Call.sequencer move → move = Ring.tick

/-- The instructions the circular reorder buffer still holds, oldest first: those waiting
in `Committed`, then those in flight. -/
def Ring.pending (rob : ReorderBuffer Ring) : List pipeline_trace_t :=
  rob.Committed ++ rob.state.inflight.map fun x => x.1

/-- Link between the scoreboard, the circular reorder buffer and the list `W` of the
instructions written back so far.

* `shape`: the in-flight producer slots are consecutive modulo the capacity, starting at
  some `head`, and `tail` is the next one.
* `link`: a valid reservation-station entry has its instruction in flight in the reorder
  buffer under its producer slot, not flagged as completed, and that producer slot is not
  waiting in `Completed`.
* `distinct`: valid reservation-station entries have different producer slots.
* `sentLive`, `sent`: a producer slot waiting in `Completed` is in flight, and the
  instruction in flight under it has been written back.
* `flagged`, `retired`: an instruction flagged as completed, or waiting in `Committed`, has
  been written back. -/
structure RingLinked (W : List pipeline_trace_t) (sb : Scoreboard Ring) : Prop where
  shape : ∃ head : Nat,
    (∀ (i : Nat) (x : pipeline_trace_t × Int × Bool), sb.ROB_.state.inflight[i]? = some x →
      x.2.1 = (((head + i) % sb.ROB_.state.capacity : Nat) : Int)) ∧
    sb.ROB_.state.tail = (head + sb.ROB_.state.inflight.length) % sb.ROB_.state.capacity ∧
    sb.ROB_.state.inflight.length ≤ sb.ROB_.state.capacity
  link : ∀ (i : Nat) (e : entry_t), sb.RS_.store[i]? = some e → e.valid = true →
    (e.trace, e.rob_index, false) ∈ sb.ROB_.state.inflight ∧ e.rob_index ∉ sb.ROB_.Completed
  distinct : ∀ (i j : Nat) (e1 e2 : entry_t), sb.RS_.store[i]? = some e1 →
    sb.RS_.store[j]? = some e2 → e1.valid = true → e2.valid = true →
    e1.rob_index = e2.rob_index → i = j
  sentLive : ∀ p ∈ sb.ROB_.Completed, ∃ x ∈ sb.ROB_.state.inflight, x.2.1 = p
  sent : ∀ p ∈ sb.ROB_.Completed, ∀ x ∈ sb.ROB_.state.inflight, x.2.1 = p → x.1 ∈ W
  flagged : ∀ x ∈ sb.ROB_.state.inflight, x.2.2 = true → x.1 ∈ W
  retired : ∀ t ∈ sb.ROB_.Committed, t ∈ W

/-! ## Retirement and the RAT -/

/-- Modelled from the spec: the RAT after the reorder buffer has retired the instruction
`t` of producer slot `p`.  The constructor hands the scoreboard to the reorder buffer
(`ReorderBuffer::Create(this, ROB_SIZE)`), `issue` reads a RAT entry `-1` as "the register
value is in the register file", and the spec speaks of a writer that "has since completed
and cleared its RST/RAT trace": when the RAT still renames the destination register of `t`
to `p`, the entry goes back to `-1`; a register renamed by a later writer is left alone. -/
def RegisterAliasTable.release (r : RegisterAliasTable) (t : pipeline_trace_t) (p : Int) :
    RegisterAliasTable :=
  if t.wb && r.get t.rd == some p then ⟨r.store.set t.rd (-1)⟩ else r

/-- Modelled from the spec: one tick of the circular reorder buffer together with its
effect on the RAT: `Ring.tick`, and the release of the RAT entry of the oldest instruction
when the tick retires it. -/
def Ring.retire (sb : Scoreboard Ring) : Scoreboard Ring :=
  match sb.ROB_.state.inflight with
  | x :: _ =>
    if x.2.2 || sb.ROB_.Completed.contains x.2.1 then
      ⟨sb.RAT_.release x.1 x.2.1, sb.RS_, sb.RST_, Ring.tick sb.ROB_, sb.FUs_⟩
    else ⟨sb.RAT_, sb.RS_, sb.RST_, Ring.tick sb.ROB_, sb.FUs_⟩
  | [] => ⟨sb.RAT_, sb.RS_, sb.RST_, Ring.tick sb.ROB_, sb.FUs_⟩

/-- One event of a run with the circular reorder buffer: a stage call made by the pipeline
driver, a unit completing an entry, or a tick of the reorder buffer. -/
inductive RingCall where
  | issue (trace : pipeline_trace_t)
  | execute
  | writeback
  | commit
  | complete (k n : Nat)
  | tick

/-- The event of the scoreboard that the event `c` stands for; a tick is the move
`Ring.tick` of the reorder buffer. -/
def RingCall.toCall : RingCall → Call Ring
  | RingCall.issue trace => Call.issue trace
  | RingCall.execute => Call.execute
  | RingCall.writeback => Call.writeback
  | RingCall.commit => Call.commit
  | RingCall.complete k n => Call.complete k n
  | RingCall.tick => Call.sequencer Ring.tick

/-- State after one event of a run with the circular reorder buffer; `none` when the call
has no defined result. -/
def ringStep (sb : Scoreboard Ring) : RingCall → Option (Scoreboard Ring)
  | RingCall.issue trace => step Ring.ops sb (Call.issue trace)
  | RingCall.execute => step Ring.ops sb Call.execute
  | RingCall.writeback => step Ring.ops sb Call.writeback
  | RingCall.commit => step Ring.ops sb Call.commit
  | RingCall.complete k n => step Ring.ops sb (Call.complete k n)
  | RingCall.tick => some (Ring.retire sb)

/-- State after a sequence of events of a run with the circular reorder buffer. -/
def ringRun (sb : Scoreboard Ring) : List RingCall → Option (Scoreboard Ring)
  | [] => some sb
  | c :: cs =>
    match ringStep sb c with
    | none => none
    | some sb1 => ringRun sb1 cs

/-- Does some event of the run `cs` from `sb` satisfy `P` in the state it is made in? -/
def anyRingCall (P : Scoreboard Ring → Call Ring → Bool) :
    Scoreboard Ring → List RingCall → Bool
  | _, [] => false
  | sb, c :: cs =>
    P sb c.toCall ||
      match ringStep sb c with
      | none => false
      | some sb1 => anyRingCall P sb1 cs

/-- Some admitted issue of the run `cs` from `sb` writes register `reg`. -/
def ringWritesIn (reg : Nat) (sb : Scoreboard Ring) (cs : List RingCall) : Bool :=
  anyRingCall (fun sb1 c => Call.writes Ring.ops reg sb1 c) sb cs

/-- Some writeback of the run `cs` from `sb` processes a completion of producer slot `p`. -/
def ringCompletesIn (p : Int) (sb : Scoreboard Ring) (cs : List RingCall) : Bool :=
  anyRingCall (fun sb1 c => Call.completes p sb1 c) sb cs

/-- What the scoreboard and the reorder buffer know of the writer `W` (producer slot `p`,
reservation-station slot `s`) while no later instruction writes its destination register;
`done` tells whether a writeback has processed the completion of `p`.  Either `W` is still
in flight: the RAT renames `W.rd` to `p`, the RST entry of `p` is `s` until the writeback
and `-1` after it, and `W` is flagged as completed, or `p` waits in `Completed`, only after
the writeback.  Or `W` has retired after its writeback and the RAT entry of `W.rd` is back
to `-1`. -/
def Tracked (W : pipeline_trace_t) (p s : Int) (done : Bool) (sb : Scoreboard Ring) : Prop :=
  (sb.RAT_.get W.rd = some p ∧
    vecGet sb.RST_ p = some (if done = true then -1 else s) ∧
    (∃ b : Bool, (W, p, b) ∈ sb.ROB_.state.inflight ∧ (b = true → done = true)) ∧
    (p ∈ sb.ROB_.Completed → done = true)) ∨
  (sb.RAT_.get W.rd = some (-1) ∧ done = true)

/-! ## Concrete instructions and states used to exercise the theorems -/

/-- Instruction `A`: writes register 1, reads register 0 twice, runs on unit 0. -/
def instrA : pipeline_trace_t := ⟨0, 0, 0, 1, true, 0⟩

/-- Instruction `B`: reads register 1 (and register 0), writes register 2, runs on unit 0. -/
def instrB : pipeline_trace_t := ⟨1, 1, 0, 2, true, 0⟩

/-- Instruction `S`: reads and writes register 1. -/
def instrS : pipeline_trace_t := ⟨2, 1, 1, 1, true, 0⟩

/-- Instruction `N`: reads register 1 and writes no register. -/
def instrN : pipeline_trace_t := ⟨3, 1, 0, 0, false, 0⟩

/-- A free reservation-station slot. -/
def freeEntry : entry_t := ⟨false, false, -1, -1, -1, default⟩

/-- A freshly constructed scoreboard: 4 registers, 2 reservation stations, a reorder
buffer of 2 producer slots, 2 functional units. -/
def sbEmpty : Scoreboard Ring := Scoreboard.init 4 2 2 2 ⟨2, 0, []⟩

/-- A state in which register 1 is still renamed to producer slot 0 although that slot has
completed (its RST entry is `-1`): the RAT names a producer whose RST entry is none. -/
def sbStale : Scoreboard Ring :=
  ⟨⟨[-1, 0, -1, -1]⟩, ⟨[freeEntry, freeEntry]⟩, [-1, -1], ⟨⟨2, 1, []⟩, [], []⟩, [⟨[], []⟩, ⟨[], []⟩]⟩

/-- Instruction `C`: reads register 0, writes register 3, runs on unit 1. -/
def instrC : pipeline_trace_t := ⟨4, 0, 0, 3, true, 1⟩

/-- A state with three issued instructions: `A` (slot 0) and `C` (slot 2) have both
operands available, `B` (slot 1) waits for slot 0; nothing has been dispatched yet. -/
def sbIssued : Scoreboard Ring :=
  ⟨⟨[-1, 0, 1, 2]⟩,
   ⟨[⟨true, false, 0, -1, -1, instrA⟩, ⟨true, false, 1, 0, -1, instrB⟩,
     ⟨true, false, 2, -1, -1, instrC⟩]⟩,
   [0, 1, 2],
   ⟨⟨3, 0, [(instrA, 0, false), (instrB, 1, false), (instrC, 2, false)]⟩, [], []⟩,
   [⟨[], []⟩, ⟨[], []⟩]⟩

/-- The state after `A` has been issued into `sbEmpty`: `A` sits in slot 0 with producer
slot 0 and both operands available. -/
def sbA : Scoreboard Ring :=
  ⟨⟨[-1, 0, -1, -1]⟩,
   ⟨[⟨true, false, 0, -1, -1, instrA⟩, freeEntry]⟩,
   [0, -1],
   ⟨⟨2, 1, [(instrA, 0, false)]⟩, [], []⟩,
   [⟨[], []⟩, ⟨[], []⟩]⟩

/-- The state after `B` has been issued into `sbA`: `B` sits in slot 1 with producer slot 1
and waits for slot 0 on its first operand. -/
def sbAB : Scoreboard Ring :=
  ⟨⟨[-1, 0, 1, -1]⟩,
   ⟨[⟨true, false, 0, -1, -1, instrA⟩, ⟨true, false, 1, 0, -1, instrB⟩]⟩,
   [0, 1],
   ⟨⟨2, 0, [(instrA, 0, false), (instrB, 1, false)]⟩, [], []⟩,
   [⟨[], []⟩, ⟨[], []⟩]⟩

/-- The state after the first `execute`: `A` runs and its triple is in the input of unit 0. -/
def sbRun : Scoreboard Ring :=
  ⟨⟨[-1, 0, 1, -1]⟩,
   ⟨[⟨true, true, 0, -1, -1, instrA⟩, ⟨true, false, 1, 0, -1, instrB⟩]⟩,
   [0, 1],
   ⟨⟨2, 0, [(instrA, 0, false), (instrB, 1, false)]⟩, [], []⟩,
   [⟨[⟨instrA, 0, 0⟩], []⟩, ⟨[], []⟩]⟩

/-- The state after the `writeback` that processed the completion of `A`: slot 0 is free,
`RST[0]` is `-1`, and `B` in slot 1 has both operands available. -/
def sbWoken : Scoreboard Ring :=
  ⟨⟨[-1, 0, 1, -1]⟩,
   ⟨[⟨false, true, 0, -1, -1, instrA⟩, ⟨true, false, 1, -1, -1, instrB⟩]⟩,
   [-1, 1],
   ⟨⟨2, 0, [(instrA, 0, false), (instrB, 1, false)]⟩, [0], []⟩,
   [⟨[], []⟩, ⟨[], []⟩]⟩

/-- The state after the second `execute`: `B` runs and its triple is in the input of unit 0. -/
def sbLast : Scoreboard Ring :=
  ⟨⟨[-1, 0, 1, -1]⟩,
   ⟨[⟨false, true, 0, -1, -1, instrA⟩, ⟨true, true, 1, -1, -1, instrB⟩]⟩,
   [-1, 1],
   ⟨⟨2, 0, [(instrA, 0, false), (instrB, 1, false)]⟩, [0], []⟩,
   [⟨[⟨instrB, 1, 1⟩], []⟩, ⟨[], []⟩]⟩

/-- The state reached from `sbEmpty` by issuing `A`, issuing `B`, one `execute` and the
completion of `A` in unit 0: `A` runs in slot 0, `B` waits in slot 1 for slot 0, and the
completion entry of `A` is at the front of the output of unit 0. -/
def sbDone : Scoreboard Ring :=
  ⟨⟨[-1, 0, 1, -1]⟩,
   ⟨[⟨true, true, 0, -1, -1, instrA⟩, ⟨true, false, 1, 0, -1, instrB⟩]⟩,
   [0, 1],
   ⟨⟨2, 0, [(instrA, 0, false), (instrB, 1, false)]⟩, [], []⟩,
   [⟨[], [⟨instrA, 0, 0⟩]⟩, ⟨[], []⟩]⟩

/-- A state in which slot 1 holds an entry waiting on slot 0 for both operands while the
completion of slot 0 is in the output of unit 1 (unit 0 has no output). -/
def sbBoth : Scoreboard Ring :=
  ⟨⟨[-1, 0, 1, -1]⟩,
   ⟨[⟨true, true, 0, -1, -1, instrA⟩, ⟨true, false, 1, 0, 0, instrS⟩]⟩,
   [0, 1],
   ⟨⟨2, 0, [(instrA, 0, false), (instrS, 1, false)]⟩, [], []⟩,
   [⟨[], []⟩, ⟨[], [⟨instrA, 0, 0⟩]⟩]⟩

/-- A state in which both units have output: unit 0 holds the completion of `A` (slot 0),
unit 1 the completion of `C` (slot 2); `B` waits in slot 1 for slot 0. -/
def sbTwoDone : Scoreboard Ring :=
  ⟨⟨[-1, 0, 1, 2]⟩,
   ⟨[⟨true, true, 0, -1, -1, instrA⟩, ⟨true, false, 1, 0, -1, instrB⟩,
     ⟨true, true, 2, -1, -1, instrC⟩]⟩,
   [0, 1, 2],
   ⟨⟨3, 0, [(instrA, 0, false), (instrB, 1, false), (instrC, 2, false)]⟩, [], []⟩,
   [⟨[], [⟨instrA, 0, 0⟩]⟩, ⟨[], [⟨instrC, 2, 2⟩]⟩]⟩

/-- Instruction `D`: reads register 0, writes register 3, runs on unit 0. -/
def instrD : pipeline_trace_t := ⟨5, 0, 0, 3, true, 0⟩

/-- Instruction `E`: reads register 0, writes register 3, runs on unit 0. -/
def instrE : pipeline_trace_t := ⟨6, 0, 0, 3, true, 0⟩

/-- A freshly constructed scoreboard: 4 registers, 3 reservation stations, a reorder
buffer of 3 producer slots, 2 functional units. -/
def sbWide : Scoreboard Ring := Scoreboard.init 4 3 3 2 ⟨3, 0, []⟩

/-- The state after `A` has been issued into `sbWide`: slot 0, producer slot 0. -/
def sbWideA : Scoreboard Ring :=
  ⟨⟨[-1, 0, -1, -1]⟩,
   ⟨[⟨true, false, 0, -1, -1, instrA⟩, freeEntry, freeEntry]⟩,
   [0, -1, -1],
   ⟨⟨3, 1, [(instrA, 0, false)]⟩, [], []⟩,
   [⟨[], []⟩, ⟨[], []⟩]⟩

/-- The state after `S`, which reads and writes register 1, has been issued into `sbA`:
its entry in slot 1 waits, for both operands, for slot 0, the slot of `A`. -/
def sbAS : Scoreboard Ring :=
  ⟨⟨[-1, 1, -1, -1]⟩,
   ⟨[⟨true, false, 0, -1, -1, instrA⟩, ⟨true, false, 1, 0, 0, instrS⟩]⟩,
   [0, 1],
   ⟨⟨2, 0, [(instrA, 0, false), (instrS, 1, false)]⟩, [], []⟩,
   [⟨[], []⟩, ⟨[], []⟩]⟩

/-- A run in which the younger instruction completes first: `A` (unit 0) and `C` (unit 1)
are issued and dispatched, unit 1 completes `C`, `writeback` returns `C`, the reorder
buffer ticks and `commit` is called. -/
def youngerFirstRun : List (Call Ring) :=
  [Call.issue instrA, Call.issue instrC, Call.execute, Call.complete 1 0, Call.writeback,
   Call.sequencer Ring.tick, Call.commit]

/-- A run in which `A` and `C` complete in the reverse of their issue order and are then
retired: `C` is written back first, then `A`; two ticks and two `commit` calls follow. -/
def reverseOrderRun : List (Call Ring) :=
  [Call.issue instrA, Call.issue instrC, Call.execute, Call.complete 1 0, Call.writeback,
   Call.complete 0 0, Call.writeback, Call.sequencer Ring.tick, Call.commit,
   Call.sequencer Ring.tick, Call.commit]

/-- The state after `reverseOrderRun` from `sbEmpty`: both reservation-station slots are
free again (their flags and fields left as `writeback` left them), registers 1 and 3 are
still renamed to producer slots 0 and 1, and the reorder buffer is empty. -/
def sbReversed : Scoreboard Ring :=
  ⟨⟨[-1, 0, -1, 1]⟩,
   ⟨[⟨false, true, 0, -1, -1, instrA⟩, ⟨false, true, 1, -1, -1, instrC⟩]⟩,
   [-1, -1],
   ⟨⟨2, 0, []⟩, [], []⟩,
   [⟨[], []⟩, ⟨[], []⟩]⟩

/-- A run after the issue of `A` into `sbWide` in which the reorder buffer hands producer
slot 0 out again.  `C` is issued after `A`; both are dispatched; `A` completes and is
written back; `D` is issued; `C` completes and is written back; two ticks retire `A` and
`C`, which `commit` returns; then `E` is issued and receives producer slot 0, the slot `A`
had.  No instruction of the run writes register 1. -/
def releaseRun : List RingCall :=
  [RingCall.issue instrC, RingCall.execute, RingCall.complete 0 0, RingCall.writeback,
   RingCall.issue instrD, RingCall.complete 1 0, RingCall.writeback, RingCall.tick,
   RingCall.commit, RingCall.tick, RingCall.commit, RingCall.issue instrE]

/-- The state after `releaseRun` from `sbWideA`: `D` is in slot 0 (producer slot 2), `E` is
in slot 1 (producer slot 0); the retirement of `A` has put the RAT entry of register 1 back
to `-1`. -/
def sbReleased : Scoreboard Ring :=
  ⟨⟨[-1, -1, -1, 0]⟩,
   ⟨[⟨true, false, 2, -1, -1, instrD⟩, ⟨true, false, 0, -1, -1, instrE⟩, freeEntry]⟩,
   [1, -1, 0],
   ⟨⟨3, 1, [(instrD, 2, false), (instrE, 0, false)]⟩, [], []⟩,
   [⟨[], []⟩, ⟨[], []⟩]⟩

/-- The state after `N`, which reads register 1, has been issued into `sbReleased`: its
entry in slot 2 has both operands available. -/
def sbReleasedN : Scoreboard Ring :=
  ⟨⟨[-1, -1, -1, 0]⟩,
   ⟨[⟨true, false, 2, -1, -1, instrD⟩, ⟨true, false, 0, -1, -1, instrE⟩,
     ⟨true, false, 1, -1, -1, instrN⟩]⟩,
   [1, 2, 0],
   ⟨⟨3, 2, [(instrD, 2, false), (instrE, 0, false), (instrN, 1, false)]⟩, [], []⟩,
   [⟨[], []⟩, ⟨[], []⟩]⟩

/-! ## Theorems -/

section Proofs

variable {ρ : Type}

/-! ### Vectors, the RAT and the reservation-station set -/

theorem vecGet_of_vecSet {v v1 : List Int} {i x : Int} (h : vecSet v i x = some v1) :
    vecGet v1 i = some x := by
  unfold vecSet at h
  split at h
  · next hb =>
    cases h
    simp [vecGet, hb.1, hb.2]
  · cases h

theorem vecGet_of_vecSet_ne {v v1 : List Int} {i x : Int} (h : vecSet v i x = some v1)
    (j : Int) (hj : j ≠ i) : vecGet v1 j = vecGet v j := by
  unfold vecSet at h
  split at h
  · next hb =>
    cases h
    unfold vecGet
    by_cases h0 : 0 ≤ j
    · have hne : i.toNat ≠ j.toNat := by
        intro heq
        apply hj
        have h1 := Int.toNat_of_nonneg hb.1
        have h2 := Int.toNat_of_nonneg h0
        omega
      simp [h0, List.getElem?_set_ne hne]
    · simp [h0]
  · cases h

theorem length_of_vecSet {v v1 : List Int} {i x : Int} (h : vecSet v i x = some v1) :
    v1.length = v.length := by
  unfold vecSet at h
  split at h
  · cases h
    simp
  · cases h

theorem vecSet_isSome {v : List Int} {i : Int} (x : Int) (h0 : 0 ≤ i) (h1 : i.toNat < v.length) :
    vecSet v i x = some (v.set i.toNat x) := by
  simp [vecSet, h0, h1]

theorem vecSet_bounds {v v1 : List Int} {i x : Int} (h : vecSet v i x = some v1) :
    0 ≤ i ∧ i.toNat < v.length ∧ v1 = v.set i.toNat x := by
  unfold vecSet at h
  split at h
  · next hb =>
    cases h
    exact ⟨hb.1, hb.2, rfl⟩
  · cases h

theorem RegisterAliasTable.get_of_set {r r1 : RegisterAliasTable} {i : Nat} {x : Int}
    (h : r.set i x = some r1) : r1.get i = some x := by
  unfold RegisterAliasTable.set at h
  split at h
  · next hb =>
    cases h
    simp [RegisterAliasTable.get, hb]
  · cases h

theorem RegisterAliasTable.get_of_set_ne {r r1 : RegisterAliasTable} {i : Nat} {x : Int}
    (h : r.set i x = some r1) (j : Nat) (hj : j ≠ i) : r1.get j = r.get j := by
  unfold RegisterAliasTable.set at h
  split at h
  · cases h
    simp [RegisterAliasTable.get, List.getElem?_set_ne (Ne.symm hj)]
  · cases h

theorem firstFree_spec : ∀ (l : List entry_t) (i s : Nat), firstFree i l = some s →
    i ≤ s ∧ ∃ e, l[s - i]? = some e ∧ e.valid = false
  | [], i, s, h => by simp [firstFree] at h
  | e :: rest, i, s, h => by
    unfold firstFree at h
    by_cases hv : e.valid = true
    · rw [if_pos hv] at h
      obtain ⟨h1, e1, h2, h3⟩ := firstFree_spec rest (i + 1) s h
      refine ⟨by omega, e1, ?_, h3⟩
      have : s - i = (s - (i + 1)) + 1 := by omega
      rw [this, List.getElem?_cons_succ]
      exact h2
    · rw [if_neg hv] at h
      cases h
      refine ⟨le_refl _, e, by simp, by simpa using hv⟩

theorem firstFree_isSome : ∀ (l : List entry_t) (i : Nat),
    (l.all fun e => e.valid) = false → ∃ s, firstFree i l = some s
  | [], i, h => by simp at h
  | e :: rest, i, h => by
    unfold firstFree
    by_cases hv : e.valid = true
    · rw [if_pos hv]
      apply firstFree_isSome rest (i + 1)
      simpa [List.all_cons, hv] using h
    · rw [if_neg hv]
      exact ⟨i, rfl⟩

theorem ReservationStation.freeSlot_spec {rs : ReservationStation} {s : Nat}
    (h : rs.freeSlot = some s) : ∃ e, rs.store[s]? = some e ∧ e.valid = false := by
  obtain ⟨_, e, h1, h2⟩ := firstFree_spec rs.store 0 s h
  exact ⟨e, by simpa using h1, h2⟩

theorem ReservationStation.freeSlot_lt {rs : ReservationStation} {s : Nat}
    (h : rs.freeSlot = some s) : s < rs.store.length := by
  obtain ⟨e, h1, _⟩ := ReservationStation.freeSlot_spec h
  exact (List.getElem?_eq_some_iff.mp h1).1

theorem ReservationStation.entry_natCast (rs : ReservationStation) (s : Nat) :
    rs.entry (s : Int) = rs.store[s]? := by
  simp [ReservationStation.entry]

/-! ### Unfolding `issue` -/

/-- Unfolding of an `issue` call that passes the structural-hazard check. -/
theorem issue_some_of_not_full {R : ReorderBufferOps ρ} {sb sb1 : Scoreboard ρ}
    {trace : pipeline_trace_t} {b : Bool}
    (hfull : (sb.RS_.is_full || R.is_full sb.ROB_.state) = false)
    (h : issue R sb trace = some (b, sb1)) :
    b = true ∧ ∃ (w1 w2 : Int) (RAT : RegisterAliasTable) (s : Nat) (RST : List Int),
      resolve sb trace.rs1 = some w1 ∧ resolve sb trace.rs2 = some w2 ∧
      (if trace.wb then sb.RAT_.set trace.rd (R.allocate sb.ROB_.state trace).1
        else some sb.RAT_) = some RAT ∧
      sb.RS_.freeSlot = some s ∧
      vecSet sb.RST_ (R.allocate sb.ROB_.state trace).1 (s : Int) = some RST ∧
      sb1 = ⟨RAT,
        ⟨sb.RS_.store.set s ⟨true, false, (R.allocate sb.ROB_.state trace).1, w1, w2, trace⟩⟩,
        RST,
        ⟨(R.allocate sb.ROB_.state trace).2, sb.ROB_.Completed, sb.ROB_.Committed⟩,
        sb.FUs_⟩ := by
  unfold issue at h
  rw [hfull] at h
  simp only [Bool.false_eq_true, if_false, Option.bind_eq_bind, Option.bind_eq_some] at h
  obtain ⟨w1, hw1, w2, hw2, RAT, hRAT, pushed, hpush, RST, hRST, heq⟩ := h
  unfold ReservationStation.push at hpush
  cases hs : sb.RS_.freeSlot with
  | none => rw [hs] at hpush; cases hpush
  | some s =>
    rw [hs] at hpush
    simp only [Option.some.injEq] at hpush
    subst hpush
    simp only [Option.some.injEq, Prod.mk.injEq] at heq
    exact ⟨heq.1.symm, w1, w2, RAT, s, RST, hw1, hw2, hRAT, rfl, hRST, heq.2.symm⟩

/-- C1 (hazard correctness).  `issue` returns rejection (`false`) exactly when the
reservation-station set is full or the reorder buffer is full at call time, and a rejecting
call leaves the whole scoreboard state (RAT, RS, RST, reorder buffer, units) as it was. -/
theorem issue_rejects_iff_full (R : ReorderBufferOps ρ) (sb sb1 : Scoreboard ρ)
    (trace : pipeline_trace_t) :
    issue R sb trace = some (false, sb1) ↔
      ((sb.RS_.is_full = true ∨ R.is_full sb.ROB_.state = true) ∧ sb1 = sb) := by
  cases h : (sb.RS_.is_full || R.is_full sb.ROB_.state) with
  | true =>
    have h1 : sb.RS_.is_full = true ∨ R.is_full sb.ROB_.state = true := by
      simpa [Bool.or_eq_true] using h
    unfold issue
    rw [h]
    simp only [if_true, Option.some.injEq, Prod.mk.injEq, true_and]
    exact ⟨fun heq => ⟨h1, heq.symm⟩, fun heq => heq.2.symm⟩
  | false =>
    have h1 : ¬ (sb.RS_.is_full = true ∨ R.is_full sb.ROB_.state = true) := by
      simpa [Bool.or_eq_false_iff] using h
    constructor
    · intro heq
      have := (issue_some_of_not_full h heq).1
      cases this
    · rintro ⟨h2, _⟩
      exact absurd h2 h1

/-- Unfolding of an admitted `issue` call. -/
theorem issue_admitted {R : ReorderBufferOps ρ} {sb sb1 : Scoreboard ρ}
    {trace : pipeline_trace_t} (h : issue R sb trace = some (true, sb1)) :
    ∃ (w1 w2 : Int) (RAT : RegisterAliasTable) (s : Nat) (RST : List Int),
      resolve sb trace.rs1 = some w1 ∧ resolve sb trace.rs2 = some w2 ∧
      (if trace.wb then sb.RAT_.set trace.rd (R.allocate sb.ROB_.state trace).1
        else some sb.RAT_) = some RAT ∧
      sb.RS_.freeSlot = some s ∧
      vecSet sb.RST_ (R.allocate sb.ROB_.state trace).1 (s : Int) = some RST ∧
      sb1 = ⟨RAT,
        ⟨sb.RS_.store.set s ⟨true, false, (R.allocate sb.ROB_.state trace).1, w1, w2, trace⟩⟩,
        RST,
        ⟨(R.allocate sb.ROB_.state trace).2, sb.ROB_.Completed, sb.ROB_.Committed⟩,
        sb.FUs_⟩ := by
  cases hfull : (sb.RS_.is_full || R.is_full sb.ROB_.state) with
  | true =>
    unfold issue at h
    rw [hfull] at h
    simp at h
  | false => exact (issue_some_of_not_full hfull h).2

/-- An admitted `issue` passed the structural-hazard check. -/
theorem issue_admitted_not_full {R : ReorderBufferOps ρ} {sb sb1 : Scoreboard ρ}
    {trace : pipeline_trace_t} (h : issue R sb trace = some (true, sb1)) :
    sb.RS_.is_full = false ∧ R.is_full sb.ROB_.state = false := by
  cases hfull : (sb.RS_.is_full || R.is_full sb.ROB_.state) with
  | true =>
    unfold issue at h
    rw [hfull] at h
    simp at h
  | false => simpa [Bool.or_eq_false_iff] using hfull

theorem resolve_spec {sb : Scoreboard ρ} {reg : Nat} {w : Int} (h : resolve sb reg = some w) :
    ∃ r, sb.RAT_.get reg = some r ∧ (r = -1 → w = -1) ∧ (r ≠ -1 → vecGet sb.RST_ r = some w) := by
  unfold resolve at h
  simp only [Option.bind_eq_bind, Option.bind_eq_some] at h
  obtain ⟨r, hr, hw⟩ := h
  refine ⟨r, hr, ?_, ?_⟩
  · intro h1
    subst h1
    simpa using hw.symm
  · intro h1
    simpa [h1] using hw

/-! ### C8, C9: what an admitted `issue` records -/

/-- C8 (operand resolution at issue).  For every admitted `issue` and each source register
`rs` of the instruction, the wait recorded in the new reservation-station entry is `-1`
when `RAT[rs]` is `-1`, and otherwise it is `RST[RAT[rs]]` as read in the state before the
call; in particular, when the RAT names a producer slot whose RST entry is `-1`, the call is
admitted all the same and the operand is recorded as available. -/
theorem issue_operand_resolution (R : ReorderBufferOps ρ) (sb sb1 : Scoreboard ρ)
    (trace : pipeline_trace_t) (h : issue R sb trace = some (true, sb1)) :
    ∃ (s : Nat) (e : entry_t) (r1 r2 : Int),
      sb.RS_.freeSlot = some s ∧ sb1.RS_.entry (s : Int) = some e ∧ e.trace = trace ∧
      sb.RAT_.get trace.rs1 = some r1 ∧ sb.RAT_.get trace.rs2 = some r2 ∧
      (r1 = -1 → e.rs1_index = -1) ∧ (r1 ≠ -1 → vecGet sb.RST_ r1 = some e.rs1_index) ∧
      (r2 = -1 → e.rs2_index = -1) ∧ (r2 ≠ -1 → vecGet sb.RST_ r2 = some e.rs2_index) ∧
      (vecGet sb.RST_ r1 = some (-1) → e.rs1_index = -1) ∧
      (vecGet sb.RST_ r2 = some (-1) → e.rs2_index = -1) := by
  obtain ⟨w1, w2, RAT, s, RST, hw1, hw2, _, hs, _, rfl⟩ := issue_admitted h
  obtain ⟨r1, hr1, h1a, h1b⟩ := resolve_spec hw1
  obtain ⟨r2, hr2, h2a, h2b⟩ := resolve_spec hw2
  have hlt := ReservationStation.freeSlot_lt hs
  refine ⟨s, ⟨true, false, (R.allocate sb.ROB_.state trace).1, w1, w2, trace⟩, r1, r2, hs,
    ?_, rfl, hr1, hr2, h1a, h1b, h2a, h2b, ?_, ?_⟩
  · simp [ReservationStation.entry, hlt]
  · intro hv
    by_cases hr : r1 = -1
    · exact h1a hr
    · have := h1b hr
      rw [hv] at this
      exact (Option.some.inj this).symm
  · intro hv
    by_cases hr : r2 = -1
    · exact h2a hr
    · have := h2b hr
      rw [hv] at this
      exact (Option.some.inj this).symm

/-- Witness for C8: in `sbStale` the RAT maps register 1 to producer slot 0 whose RST entry
is `-1`; issuing `B`, which reads register 1, is admitted. -/
theorem issue_operand_resolution_witness :
    ∃ (s : Nat) (e : entry_t) (r1 r2 : Int),
      sbStale.RS_.freeSlot = some s ∧
      (⟨⟨[-1, 0, 1, -1]⟩, ⟨[⟨true, false, 1, -1, -1, instrB⟩, freeEntry]⟩, [-1, 0],
        ⟨⟨2, 0, [(instrB, 1, false)]⟩, [], []⟩, [⟨[], []⟩, ⟨[], []⟩]⟩ :
          Scoreboard Ring).RS_.entry (s : Int) = some e ∧ e.trace = instrB ∧
      sbStale.RAT_.get instrB.rs1 = some r1 ∧ sbStale.RAT_.get instrB.rs2 = some r2 ∧
      (r1 = -1 → e.rs1_index = -1) ∧ (r1 ≠ -1 → vecGet sbStale.RST_ r1 = some e.rs1_index) ∧
      (r2 = -1 → e.rs2_index = -1) ∧ (r2 ≠ -1 → vecGet sbStale.RST_ r2 = some e.rs2_index) ∧
      (vecGet sbStale.RST_ r1 = some (-1) → e.rs1_index = -1) ∧
      (vecGet sbStale.RST_ r2 = some (-1) → e.rs2_index = -1) :=
  issue_operand_resolution Ring.ops sbStale _ instrB (by decide)

/-- C9 (issue postcondition).  For every admitted `issue`, with `p` the producer slot
returned by the reorder buffer's `allocate` and `s` the slot returned by the
reservation-station `push`: afterwards `RS[s]` is a valid, not running entry holding the
instruction, `p` and the two resolved waits; `RST[p] = s`; `RAT[rd] = p` when the
instruction writes a destination register and the RAT is unchanged when it does not; every
other RAT entry and every other RST entry is unchanged. -/
theorem issue_postcondition (R : ReorderBufferOps ρ) (sb sb1 : Scoreboard ρ)
    (trace : pipeline_trace_t) (h : issue R sb trace = some (true, sb1)) :
    ∃ (s w1 w2 : Int),
      resolve sb trace.rs1 = some w1 ∧ resolve sb trace.rs2 = some w2 ∧
      sb.RS_.push trace (R.allocate sb.ROB_.state trace).1 w1 w2 = some (s, sb1.RS_) ∧
      sb1.RS_.entry s = some ⟨true, false, (R.allocate sb.ROB_.state trace).1, w1, w2, trace⟩ ∧
      vecGet sb1.RST_ (R.allocate sb.ROB_.state trace).1 = some s ∧
      (trace.wb = true → sb1.RAT_.get trace.rd = some (R.allocate sb.ROB_.state trace).1) ∧
      (trace.wb = true → ∀ reg, reg ≠ trace.rd → sb1.RAT_.get reg = sb.RAT_.get reg) ∧
      (trace.wb = false → sb1.RAT_ = sb.RAT_) ∧
      (∀ q, q ≠ (R.allocate sb.ROB_.state trace).1 → vecGet sb1.RST_ q = vecGet sb.RST_ q) ∧
      sb1.RST_.length = sb.RST_.length := by
  obtain ⟨w1, w2, RAT, s, RST, hw1, hw2, hRAT, hs, hRST, rfl⟩ := issue_admitted h
  have hlt := ReservationStation.freeSlot_lt hs
  refine ⟨(s : Int), w1, w2, hw1, hw2, ?_, ?_, vecGet_of_vecSet hRST, ?_, ?_, ?_,
    vecGet_of_vecSet_ne hRST, length_of_vecSet hRST⟩
  · simp [ReservationStation.push, hs]
  · simp [ReservationStation.entry, hlt]
  · intro hwb
    rw [if_pos hwb] at hRAT
    exact RegisterAliasTable.get_of_set hRAT
  · intro hwb reg hreg
    rw [if_pos hwb] at hRAT
    exact RegisterAliasTable.get_of_set_ne hRAT reg hreg
  · intro hwb
    rw [hwb] at hRAT
    simpa using hRAT.symm

/-- Witness for C9: issuing `A` into the freshly constructed scoreboard `sbEmpty`. -/
theorem issue_postcondition_witness :
    ∃ (s w1 w2 : Int),
      resolve sbEmpty instrA.rs1 = some w1 ∧ resolve sbEmpty instrA.rs2 = some w2 ∧
      sbEmpty.RS_.push instrA (Ring.ops.allocate sbEmpty.ROB_.state instrA).1 w1 w2 =
        some (s, ReservationStation.mk [⟨true, false, 0, -1, -1, instrA⟩, freeEntry]) ∧
      (ReservationStation.mk [⟨true, false, 0, -1, -1, instrA⟩, freeEntry]).entry s =
        some ⟨true, false, (Ring.ops.allocate sbEmpty.ROB_.state instrA).1, w1, w2, instrA⟩ ∧
      vecGet [0, -1] (Ring.ops.allocate sbEmpty.ROB_.state instrA).1 = some s ∧
      (instrA.wb = true → (RegisterAliasTable.mk [-1, 0, -1, -1]).get instrA.rd =
        some (Ring.ops.allocate sbEmpty.ROB_.state instrA).1) ∧
      (instrA.wb = true → ∀ reg, reg ≠ instrA.rd →
        (RegisterAliasTable.mk [-1, 0, -1, -1]).get reg = sbEmpty.RAT_.get reg) ∧
      (instrA.wb = false → RegisterAliasTable.mk [-1, 0, -1, -1] = sbEmpty.RAT_) ∧
      (∀ q, q ≠ (Ring.ops.allocate sbEmpty.ROB_.state instrA).1 →
        vecGet [0, -1] q = vecGet sbEmpty.RST_ q) ∧
      [(0 : Int), -1].length = sbEmpty.RST_.length :=
  issue_postcondition Ring.ops sbEmpty
    ⟨⟨[-1, 0, -1, -1]⟩, ⟨[⟨true, false, 0, -1, -1, instrA⟩, freeEntry]⟩, [0, -1],
      ⟨⟨2, 1, [(instrA, 0, false)]⟩, [], []⟩, [⟨[], []⟩, ⟨[], []⟩]⟩ instrA (by decide)

/-! ### Unfolding `writeback` -/

theorem firstOutput_spec : ∀ (FUs : List FunctionalUnit) (i k : Nat) (f : fu_entry_t),
    firstOutput i FUs = some (k, f) →
    i ≤ k ∧ (∃ fu, FUs[k - i]? = some fu ∧ ∃ rest, fu.Output = f :: rest) ∧
      ∀ j, j < k - i → ∃ fj, FUs[j]? = some fj ∧ fj.Output = []
  | [], i, k, f, h => by simp [firstOutput] at h
  | fu :: rest, i, k, f, h => by
    unfold firstOutput at h
    cases hO : fu.Output with
    | nil =>
      rw [hO] at h
      simp only at h
      obtain ⟨h1, ⟨fu1, h2, h3⟩, h4⟩ := firstOutput_spec rest (i + 1) k f h
      have hk : k - i = (k - (i + 1)) + 1 := by omega
      refine ⟨by omega, ⟨fu1, ?_, h3⟩, ?_⟩
      · rw [hk, List.getElem?_cons_succ]
        exact h2
      · intro j hj
        cases j with
        | zero => exact ⟨fu, by simp, hO⟩
        | succ j =>
          obtain ⟨fj, h5, h6⟩ := h4 j (by omega)
          exact ⟨fj, by simpa using h5, h6⟩
    | cons g out =>
      rw [hO] at h
      simp only [Option.some.injEq, Prod.mk.injEq] at h
      obtain ⟨rfl, rfl⟩ := h
      refine ⟨le_refl _, ⟨fu, by simp, out, hO⟩, ?_⟩
      intro j hj
      omega

theorem firstOutput_zero {FUs : List FunctionalUnit} {k : Nat} {f : fu_entry_t}
    (h : firstOutput 0 FUs = some (k, f)) :
    (∃ fu, FUs[k]? = some fu ∧ ∃ rest, fu.Output = f :: rest) ∧
      ∀ j, j < k → ∃ fj, FUs[j]? = some fj ∧ fj.Output = [] := by
  obtain ⟨_, h1, h2⟩ := firstOutput_spec FUs 0 k f h
  exact ⟨by simpa using h1, by simpa using h2⟩

theorem firstOutput_eq_none : ∀ (FUs : List FunctionalUnit) (i : Nat),
    firstOutput i FUs = none ↔ ∀ fu ∈ FUs, fu.Output = []
  | [], i => by simp [firstOutput]
  | fu :: rest, i => by
    unfold firstOutput
    cases hO : fu.Output with
    | nil => simp [firstOutput_eq_none rest (i + 1), hO]
    | cons g out => simp [hO]

theorem ReservationStation.remove_eq_some {rs rs1 : ReservationStation} {index : Int}
    (h : rs.remove index = some rs1) :
    0 ≤ index ∧ ∃ e, rs.store[index.toNat]? = some e ∧
      rs1 = ⟨rs.store.set index.toNat e.freed⟩ := by
  unfold ReservationStation.remove at h
  split at h
  · next h0 =>
    split at h
    · cases h
    · next e he =>
      cases h
      exact ⟨h0, e, he, rfl⟩
  · cases h

theorem ReservationStation.remove_of_lt (rs : ReservationStation) {index : Int}
    (h0 : 0 ≤ index) (h1 : index.toNat < rs.store.length) :
    ∃ e, rs.store[index.toNat]? = some e ∧
      rs.remove index = some ⟨rs.store.set index.toNat e.freed⟩ := by
  refine ⟨rs.store[index.toNat], List.getElem?_eq_getElem h1, ?_⟩
  simp [ReservationStation.remove, h0, List.getElem?_eq_getElem h1]

/-- Unfolding of a `writeback` call that found a completion entry. -/
theorem writeback_some {sb sb1 : Scoreboard ρ} {k : Nat} {f : fu_entry_t}
    {r : Option pipeline_trace_t}
    (hout : firstOutput 0 sb.FUs_ = some (k, f)) (h : writeback sb = some (r, sb1)) :
    r = some f.trace ∧ ∃ (RST : List Int) (RS : ReservationStation),
      vecSet sb.RST_ f.rob_index (-1) = some RST ∧
      ReservationStation.remove ⟨sb.RS_.store.map (broadcast f.rs_index)⟩ f.rs_index = some RS ∧
      sb1 = ⟨sb.RAT_, RS, RST,
        ⟨sb.ROB_.state, sb.ROB_.Completed ++ [f.rob_index], sb.ROB_.Committed⟩,
        popOutput sb.FUs_ k⟩ := by
  unfold writeback at h
  rw [hout] at h
  simp only [Option.bind_eq_bind, Option.bind_eq_some, Option.some.injEq, Prod.mk.injEq] at h
  obtain ⟨RST, hRST, RS, hRS, hr, hsb⟩ := h
  exact ⟨hr.symm, RST, RS, hRST, hRS, hsb.symm⟩

/-- A `writeback` call whose completion entry indexes the RST and the reservation-station
set within their bounds runs to its end. -/
theorem writeback_defined {sb : Scoreboard ρ} {k : Nat} {f : fu_entry_t}
    (hout : firstOutput 0 sb.FUs_ = some (k, f))
    (hp : 0 ≤ f.rob_index ∧ f.rob_index.toNat < sb.RST_.length)
    (hs : 0 ≤ f.rs_index ∧ f.rs_index.toNat < sb.RS_.size) :
    ∃ sb1, writeback sb = some (some f.trace, sb1) := by
  have hlen : f.rs_index.toNat < (sb.RS_.store.map (broadcast f.rs_index)).length := by
    simpa [ReservationStation.size] using hs.2
  obtain ⟨e, _, hrem⟩ :=
    ReservationStation.remove_of_lt ⟨sb.RS_.store.map (broadcast f.rs_index)⟩ hs.1 hlen
  unfold writeback
  rw [hout]
  simp only [Option.bind_eq_bind, vecSet_isSome (-1) hp.1 hp.2, Option.some_bind, hrem]
  exact ⟨_, rfl⟩

theorem broadcast_valid (s : Int) (e : entry_t) : (broadcast s e).valid = e.valid := by
  unfold broadcast
  split <;> rfl

theorem broadcast_waits (s : Int) (e : entry_t) (hv : e.valid = true) :
    (broadcast s e).rs1_index = (if e.rs1_index = s then -1 else e.rs1_index) ∧
    (broadcast s e).rs2_index = (if e.rs2_index = s then -1 else e.rs2_index) := by
  unfold broadcast
  simp [hv]

/-- The reservation-station set after a `writeback` that processed the completion `f`:
slot `f.rs_index` holds its former entry after the broadcast with the validity flag cleared,
every other slot holds its former entry after the broadcast. -/
theorem writeback_store {sb sb1 : Scoreboard ρ} {k : Nat} {f : fu_entry_t}
    {r : Option pipeline_trace_t}
    (hout : firstOutput 0 sb.FUs_ = some (k, f)) (h : writeback sb = some (r, sb1)) :
    0 ≤ f.rs_index ∧ f.rs_index.toNat < sb.RS_.store.length ∧
    sb1.RS_.store.length = sb.RS_.store.length ∧
    ∀ (i : Nat) (e : entry_t), sb.RS_.store[i]? = some e →
      sb1.RS_.store[i]? =
        some (if i = f.rs_index.toNat then (broadcast f.rs_index e).freed
          else broadcast f.rs_index e) := by
  obtain ⟨_, RST, RS, _, hRS, rfl⟩ := writeback_some hout h
  obtain ⟨h0, e0, he0, rfl⟩ := ReservationStation.remove_eq_some hRS
  have hlt : f.rs_index.toNat < sb.RS_.store.length := by
    have := (List.getElem?_eq_some_iff.mp he0).1
    simpa using this
  refine ⟨h0, hlt, by simp, ?_⟩
  intro i e hi
  simp only [List.getElem?_map, Option.map_eq_some'] at he0
  obtain ⟨e0a, he0a, rfl⟩ := he0
  by_cases hik : i = f.rs_index.toNat
  · subst hik
    rw [hi] at he0a
    cases he0a
    simp [hlt]
  · simp [hik, List.getElem?_set_ne (Ne.symm hik), hi]

/-! ### C10, C4: what a `writeback` does with the completion it processes -/

/-- C10 (writeback postcondition).  In every state in which some functional unit has
output, let `f = (t, p, s)` be the completion entry the unit scan finds, with `p` an index
of the RST and `s` an index of the reservation-station set.  Then `writeback` returns `t`,
and afterwards `RST[p]` is `-1`, `p` has been appended once to the reorder buffer's
`Completed` channel, reservation-station slot `s` is invalid, and the entry has been
removed from the front of that unit's output. -/
theorem writeback_postcondition (sb : Scoreboard ρ) (k : Nat) (f : fu_entry_t)
    (hout : firstOutput 0 sb.FUs_ = some (k, f))
    (hp : 0 ≤ f.rob_index ∧ f.rob_index.toNat < sb.RST_.length)
    (hs : 0 ≤ f.rs_index ∧ f.rs_index.toNat < sb.RS_.size) :
    ∃ sb1, writeback sb = some (some f.trace, sb1) ∧
      vecGet sb1.RST_ f.rob_index = some (-1) ∧
      sb1.ROB_.Completed = sb.ROB_.Completed ++ [f.rob_index] ∧
      (∃ e, sb1.RS_.entry f.rs_index = some e ∧ e.valid = false) ∧
      (∃ fu rest, sb.FUs_[k]? = some fu ∧ fu.Output = f :: rest ∧
        sb1.FUs_[k]? = some ⟨fu.Input, rest⟩) := by
  obtain ⟨sb1, hwb⟩ := writeback_defined hout hp hs
  obtain ⟨_, _, hlen, hstore⟩ := writeback_store hout hwb
  obtain ⟨_, RST, RS, hRST, _, hsb⟩ := writeback_some hout hwb
  obtain ⟨⟨fu, hfu, rest, hrest⟩, _⟩ := firstOutput_zero hout
  refine ⟨sb1, hwb, ?_, ?_, ?_, fu, rest, hfu, hrest, ?_⟩
  · rw [hsb]
    exact vecGet_of_vecSet hRST
  · rw [hsb]
  · have hlt : f.rs_index.toNat < sb.RS_.store.length := hs.2
    have := hstore f.rs_index.toNat _ (List.getElem?_eq_getElem hlt)
    rw [if_pos rfl] at this
    exact ⟨_, by simpa [ReservationStation.entry, hs.1] using this, rfl⟩
  · rw [hsb]
    simp [popOutput, hfu, hrest]

/-- Witness for C10: `writeback` in `sbDone`, where the completion of `A` (producer slot 0,
reservation-station slot 0) is at the front of unit 0. -/
theorem writeback_postcondition_witness :
    firstOutput 0 sbDone.FUs_ = some (0, ⟨instrA, 0, 0⟩) ∧
    ∃ sb1, writeback sbDone = some (some instrA, sb1) ∧
      vecGet sb1.RST_ 0 = some (-1) ∧
      sb1.ROB_.Completed = sbDone.ROB_.Completed ++ [0] ∧
      (∃ e, sb1.RS_.entry 0 = some e ∧ e.valid = false) ∧
      (∃ fu rest, sbDone.FUs_[0]? = some fu ∧ fu.Output = ⟨instrA, 0, 0⟩ :: rest ∧
        sb1.FUs_[0]? = some ⟨fu.Input, rest⟩) :=
  ⟨by decide,
    writeback_postcondition sbDone 0 ⟨instrA, 0, 0⟩ (by decide) (by decide) (by decide)⟩

/-- C4 (wakeup completeness).  In every state in which some functional unit has output, let
`f` be the completion entry the unit scan finds, carrying reservation-station slot `s`
(with `f`'s indices inside the RST and the reservation-station set).  After the `writeback`
call no valid reservation-station entry has `rs1_index = s` or `rs2_index = s`, and an
entry that was valid and waited on `s` for both operands has both waits `-1`. -/
theorem writeback_wakes_all (sb : Scoreboard ρ) (k : Nat) (f : fu_entry_t)
    (hout : firstOutput 0 sb.FUs_ = some (k, f))
    (hp : 0 ≤ f.rob_index ∧ f.rob_index.toNat < sb.RST_.length)
    (hs : 0 ≤ f.rs_index ∧ f.rs_index.toNat < sb.RS_.size) :
    ∃ sb1, writeback sb = some (some f.trace, sb1) ∧
      (∀ (i : Nat) (e : entry_t), sb1.RS_.store[i]? = some e → e.valid = true →
        e.rs1_index ≠ f.rs_index ∧ e.rs2_index ≠ f.rs_index) ∧
      (∀ (i : Nat) (e : entry_t), sb.RS_.store[i]? = some e → e.valid = true →
        e.rs1_index = f.rs_index → e.rs2_index = f.rs_index →
        ∃ e1, sb1.RS_.store[i]? = some e1 ∧ e1.rs1_index = -1 ∧ e1.rs2_index = -1) := by
  obtain ⟨sb1, hwb⟩ := writeback_defined hout hp hs
  obtain ⟨h0, _, hlen, hstore⟩ := writeback_store hout hwb
  have hne : (-1 : Int) ≠ f.rs_index := by omega
  refine ⟨sb1, hwb, ?_, ?_⟩
  · intro i e1 hi hv
    have hi1 : i < sb.RS_.store.length := by
      rw [← hlen]
      exact (List.getElem?_eq_some_iff.mp hi).1
    have h1 := hstore i _ (List.getElem?_eq_getElem hi1)
    rw [hi] at h1
    have h2 := Option.some.inj h1
    by_cases hik : i = f.rs_index.toNat
    · rw [if_pos hik] at h2
      rw [h2] at hv
      simp [entry_t.freed] at hv
    · rw [if_neg hik] at h2
      have hv0 : (sb.RS_.store[i]).valid = true := by
        rw [h2, broadcast_valid] at hv
        exact hv
      obtain ⟨hw1, hw2⟩ := broadcast_waits f.rs_index _ hv0
      rw [h2, hw1, hw2]
      constructor
      · split
        · exact hne
        · assumption
      · split
        · exact hne
        · assumption
  · intro i e hi hv h1 h2
    have h3 := hstore i e hi
    obtain ⟨hw1, hw2⟩ := broadcast_waits f.rs_index e hv
    rw [if_pos h1] at hw1
    rw [if_pos h2] at hw2
    by_cases hik : i = f.rs_index.toNat
    · rw [if_pos hik] at h3
      exact ⟨_, h3, hw1, hw2⟩
    · rw [if_neg hik] at h3
      exact ⟨_, h3, hw1, hw2⟩

/-- Witness for C4: `writeback` in `sbBoth`, where slot 1 waits on slot 0 for both
operands and the completion of slot 0 is pending. -/
theorem writeback_wakes_all_witness :
    firstOutput 0 sbBoth.FUs_ = some (1, ⟨instrA, 0, 0⟩) ∧
    ∃ sb1, writeback sbBoth = some (some instrA, sb1) ∧
      (∀ (i : Nat) (e : entry_t), sb1.RS_.store[i]? = some e → e.valid = true →
        e.rs1_index ≠ 0 ∧ e.rs2_index ≠ 0) ∧
      (∀ (i : Nat) (e : entry_t), sbBoth.RS_.store[i]? = some e → e.valid = true →
        e.rs1_index = 0 → e.rs2_index = 0 →
        ∃ e1, sb1.RS_.store[i]? = some e1 ∧ e1.rs1_index = -1 ∧ e1.rs2_index = -1) :=
  ⟨by decide,
    writeback_wakes_all sbBoth 1 ⟨instrA, 0, 0⟩ (by decide) (by decide) (by decide)⟩

/-! ### Unfolding `execute` -/

theorem entry_t.ready_iff (e : entry_t) :
    e.ready = true ↔
      (e.valid = true ∧ e.running = false ∧ e.rs1_index = -1 ∧ e.rs2_index = -1) := by
  unfold entry_t.ready
  simp [and_assoc]

theorem sendInput_eq_some {FUs FUs1 : List FunctionalUnit} {k : Nat} {g : fu_entry_t}
    (h : sendInput FUs k g = some FUs1) :
    ∃ fu, FUs[k]? = some fu ∧ FUs1 = FUs.set k ⟨fu.Input ++ [g], fu.Output⟩ := by
  unfold sendInput at h
  split at h
  · cases h
  · next fu hfu =>
    cases h
    exact ⟨fu, hfu, rfl⟩

theorem sendInput_of_lt {FUs : List FunctionalUnit} {k : Nat} (g : fu_entry_t)
    (h : k < FUs.length) : ∃ FUs1, sendInput FUs k g = some FUs1 := by
  simp [sendInput, List.getElem?_eq_getElem h]

theorem mem_dispatched (u : Nat) (g : fu_entry_t) : ∀ (store : List entry_t) (i : Nat),
    g ∈ dispatched u i store ↔ ∃ (j : Nat) (e : entry_t), store[j]? = some e ∧
      e.ready = true ∧ e.trace.fu_type = u ∧ g = ⟨e.trace, e.rob_index, ((i + j : Nat) : Int)⟩
  | [], i => by simp [dispatched]
  | e :: rest, i => by
    have ih := mem_dispatched u g rest (i + 1)
    have key : g ∈ dispatched u i (e :: rest) ↔
        ((e.ready = true ∧ e.trace.fu_type = u) ∧ g = ⟨e.trace, e.rob_index, (i : Int)⟩) ∨
          g ∈ dispatched u (i + 1) rest := by
      rw [dispatched]
      by_cases hc : (e.ready && e.trace.fu_type == u) = true
      · rw [if_pos hc]
        have hc1 : e.ready = true ∧ e.trace.fu_type = u := by simpa using hc
        simp [hc1]
      · rw [if_neg hc]
        have hc1 : ¬ (e.ready = true ∧ e.trace.fu_type = u) := by simpa using hc
        simp [hc1]
    rw [key, ih]
    constructor
    · rintro (⟨⟨h1, h2⟩, h3⟩ | ⟨j, e1, h1, h2, h3, h4⟩)
      · exact ⟨0, e, by simp, h1, h2, by simpa using h3⟩
      · refine ⟨j + 1, e1, by simpa using h1, h2, h3, ?_⟩
        rw [h4]
        congr 2
        omega
    · rintro ⟨j, e1, h1, h2, h3, h4⟩
      cases j with
      | zero =>
        simp only [List.getElem?_cons_zero, Option.some.injEq] at h1
        subst h1
        exact Or.inl ⟨⟨h2, h3⟩, by simpa using h4⟩
      | succ j =>
        refine Or.inr ⟨j, e1, by simpa using h1, h2, h3, ?_⟩
        rw [h4]
        congr 2
        omega

/-- What the loop of `execute` computes when it runs to its end. -/
theorem executeLoop_eq_some : ∀ (rest : List entry_t) (i : Nat) (FUs : List FunctionalUnit)
    (rest1 : List entry_t) (FUs2 : List FunctionalUnit) (traces : List pipeline_trace_t),
    executeLoop i rest FUs = some (rest1, FUs2, traces) →
    rest1 = rest.map (fun e => if e.ready then e.started else e) ∧
    traces = (rest.filter fun e => e.ready).map (fun e => e.trace) ∧
    FUs2.length = FUs.length ∧
    (∀ e ∈ rest, e.ready = true → e.trace.fu_type < FUs.length) ∧
    ∀ (u : Nat) (fu : FunctionalUnit), FUs[u]? = some fu →
      FUs2[u]? = some ⟨fu.Input ++ dispatched u i rest, fu.Output⟩
  | [], i, FUs, rest1, FUs2, traces, h => by
    simp only [executeLoop, Option.some.injEq, Prod.mk.injEq] at h
    obtain ⟨rfl, rfl, rfl⟩ := h
    simp [dispatched]
  | e :: rest, i, FUs, rest1, FUs2, traces, h => by
    rw [executeLoop] at h
    by_cases hr : e.ready = true
    · rw [if_pos hr] at h
      cases hsend : sendInput FUs e.trace.fu_type ⟨e.trace, e.rob_index, (i : Int)⟩ with
      | none => rw [hsend] at h; cases h
      | some FUs1 =>
        simp only [hsend] at h
        obtain ⟨fu0, hfu0, rfl⟩ := sendInput_eq_some hsend
        cases hloop : executeLoop (i + 1) rest
            (FUs.set e.trace.fu_type ⟨fu0.Input ++ [⟨e.trace, e.rob_index, (i : Int)⟩], fu0.Output⟩) with
        | none => simp only [hloop] at h; cases h
        | some out =>
          obtain ⟨r1, F2, ts⟩ := out
          simp only [hloop, Option.some.injEq, Prod.mk.injEq] at h
          obtain ⟨rfl, rfl, rfl⟩ := h
          obtain ⟨h1, h2, h3, h4, h5⟩ := executeLoop_eq_some rest (i + 1) _ r1 F2 ts hloop
          have hk : e.trace.fu_type < FUs.length := (List.getElem?_eq_some_iff.mp hfu0).1
          refine ⟨by simp [hr, h1], by simp [hr, h2], by simpa using h3, ?_, ?_⟩
          · intro e1 he1 hr1
            rcases List.mem_cons.mp he1 with rfl | hmem
            · exact hk
            · simpa using h4 e1 hmem hr1
          · intro u fu hu
            by_cases huk : e.trace.fu_type = u
            · subst huk
              rw [hfu0] at hu
              cases hu
              have := h5 e.trace.fu_type
                ⟨fu0.Input ++ [⟨e.trace, e.rob_index, (i : Int)⟩], fu0.Output⟩ (by simp [hk])
              rw [this]
              simp [dispatched, hr]
            · have := h5 u fu (by rw [List.getElem?_set_ne huk]; exact hu)
              rw [this]
              simp [dispatched, hr, huk]
    · rw [if_neg hr] at h
      cases hloop : executeLoop (i + 1) rest FUs with
      | none => simp only [hloop] at h; cases h
      | some out =>
        obtain ⟨r1, F2, ts⟩ := out
        simp only [hloop, Option.some.injEq, Prod.mk.injEq] at h
        obtain ⟨rfl, rfl, rfl⟩ := h
        obtain ⟨h1, h2, h3, h4, h5⟩ := executeLoop_eq_some rest (i + 1) _ r1 F2 ts hloop
        refine ⟨by simp [hr, h1], by simp [hr, h2], h3, ?_, ?_⟩
        · intro e1 he1 hr1
          rcases List.mem_cons.mp he1 with rfl | hmem
          · exact absurd hr1 hr
          · exact h4 e1 hmem hr1
        · intro u fu hu
          rw [h5 u fu hu]
          simp [dispatched, hr]

/-- The loop of `execute` runs to its end when every ready entry names an existing unit. -/
theorem executeLoop_isSome : ∀ (rest : List entry_t) (i : Nat) (FUs : List FunctionalUnit),
    (∀ e ∈ rest, e.ready = true → e.trace.fu_type < FUs.length) →
    ∃ out, executeLoop i rest FUs = some out
  | [], i, FUs, _ => ⟨_, rfl⟩
  | e :: rest, i, FUs, hfu => by
    rw [executeLoop]
    by_cases hr : e.ready = true
    · rw [if_pos hr]
      obtain ⟨FUs1, hsend⟩ := sendInput_of_lt ⟨e.trace, e.rob_index, (i : Int)⟩
        (hfu e (List.mem_cons_self _ _) hr)
      simp only [hsend]
      obtain ⟨fu0, _, rfl⟩ := sendInput_eq_some hsend
      obtain ⟨out, hout⟩ := executeLoop_isSome rest (i + 1)
        (FUs.set e.trace.fu_type ⟨fu0.Input ++ [⟨e.trace, e.rob_index, (i : Int)⟩], fu0.Output⟩)
        (fun e1 he1 hr1 => by simpa using hfu e1 (List.mem_cons_of_mem _ he1) hr1)
      simp only [hout]
      exact ⟨_, rfl⟩
    · rw [if_neg hr]
      obtain ⟨out, hout⟩ := executeLoop_isSome rest (i + 1) FUs
        (fun e1 he1 hr1 => hfu e1 (List.mem_cons_of_mem _ he1) hr1)
      simp only [hout]
      exact ⟨_, rfl⟩

/-- Unfolding of an `execute` call that ran to its end. -/
theorem execute_eq_some {sb sb1 : Scoreboard ρ} {traces : List pipeline_trace_t}
    (h : execute sb = some (traces, sb1)) :
    traces = (sb.RS_.store.filter fun e => e.ready).map (fun e => e.trace) ∧
    sb1.RS_.store = sb.RS_.store.map (fun e => if e.ready then e.started else e) ∧
    sb1.RAT_ = sb.RAT_ ∧ sb1.RST_ = sb.RST_ ∧ sb1.ROB_ = sb.ROB_ ∧
    sb1.FUs_.length = sb.FUs_.length ∧
    (∀ e ∈ sb.RS_.store, e.ready = true → e.trace.fu_type < sb.FUs_.length) ∧
    ∀ (u : Nat) (fu : FunctionalUnit), sb.FUs_[u]? = some fu →
      sb1.FUs_[u]? = some ⟨fu.Input ++ dispatched u 0 sb.RS_.store, fu.Output⟩ := by
  unfold execute at h
  cases hloop : executeLoop 0 sb.RS_.store sb.FUs_ with
  | none => simp only [hloop] at h; cases h
  | some out =>
    obtain ⟨r1, F2, ts⟩ := out
    simp only [hloop, Option.some.injEq, Prod.mk.injEq] at h
    obtain ⟨rfl, rfl⟩ := h
    obtain ⟨h1, h2, h3, h4, h5⟩ := executeLoop_eq_some _ _ _ _ _ _ hloop
    exact ⟨h2, h1, rfl, rfl, rfl, h3, h4, h5⟩

/-! ### C6: dispatch -/

/-- C6 (execute dispatch).  In every state in which each ready entry (valid, not running,
both waits `-1`: `entry_t.ready`) names an existing functional unit, `execute` returns, and

* the returned list is the instructions of the ready entries in ascending slot order;
* every ready entry has its running flag set and is otherwise unchanged, every other entry
  is unchanged (so are all waits and validity flags);
* the input of each unit `u` is extended, at the back, by `dispatched u 0 store`, whose
  elements are exactly the triples (instruction, producer slot, slot index `i`) of the ready
  entries at slot `i` whose instruction has unit type `u`; outputs are unchanged;
* the RAT, the RST and the reorder buffer are unchanged. -/
theorem execute_dispatch (sb : Scoreboard ρ)
    (hfu : ∀ e ∈ sb.RS_.store, e.ready = true → e.trace.fu_type < sb.FUs_.length) :
    ∃ (traces : List pipeline_trace_t) (sb1 : Scoreboard ρ),
      execute sb = some (traces, sb1) ∧
      traces = (sb.RS_.store.filter fun e => e.ready).map (fun e => e.trace) ∧
      sb1.RS_.store.length = sb.RS_.store.length ∧
      (∀ (i : Nat) (e : entry_t), sb.RS_.store[i]? = some e →
        sb1.RS_.store[i]? = some (if e.ready then
          ⟨e.valid, true, e.rob_index, e.rs1_index, e.rs2_index, e.trace⟩ else e)) ∧
      sb1.FUs_.length = sb.FUs_.length ∧
      (∀ (u : Nat) (fu : FunctionalUnit), sb.FUs_[u]? = some fu →
        sb1.FUs_[u]? = some ⟨fu.Input ++ dispatched u 0 sb.RS_.store, fu.Output⟩) ∧
      (∀ (u : Nat) (g : fu_entry_t), g ∈ dispatched u 0 sb.RS_.store ↔
        ∃ (i : Nat) (e : entry_t), sb.RS_.store[i]? = some e ∧
          (e.valid = true ∧ e.running = false ∧ e.rs1_index = -1 ∧ e.rs2_index = -1) ∧
          e.trace.fu_type = u ∧ g = ⟨e.trace, e.rob_index, (i : Int)⟩) ∧
      sb1.RAT_ = sb.RAT_ ∧ sb1.RST_ = sb.RST_ ∧ sb1.ROB_ = sb.ROB_ := by
  obtain ⟨out, hloop⟩ := executeLoop_isSome sb.RS_.store 0 sb.FUs_ hfu
  obtain ⟨r1, F2, ts⟩ := out
  have hex : execute sb = some (ts, ⟨sb.RAT_, ⟨r1⟩, sb.RST_, sb.ROB_, F2⟩) := by
    simp only [execute, hloop]
  obtain ⟨h1, h2, h3, h4, h5, h6, _, h8⟩ := execute_eq_some hex
  refine ⟨ts, _, hex, h1, ?_, ?_, h6, h8, ?_, h3, h4, h5⟩
  · rw [h2]
    simp
  · intro i e hi
    rw [h2]
    simp only [List.getElem?_map, hi, Option.map_some']
    rfl
  · intro u g
    rw [mem_dispatched]
    constructor
    · rintro ⟨i, e, hi, hr, hu, hg⟩
      exact ⟨i, e, hi, (entry_t.ready_iff e).mp hr, hu, by simpa using hg⟩
    · rintro ⟨i, e, hi, hr, hu, hg⟩
      exact ⟨i, e, hi, (entry_t.ready_iff e).mpr hr, hu, by simpa using hg⟩

/-- Witness for C6: `execute` in `sbIssued` dispatches `A` to unit 0 and `C` to unit 1 and
leaves `B` waiting. -/
theorem execute_dispatch_witness :
    (∀ e ∈ sbIssued.RS_.store, e.ready = true → e.trace.fu_type < sbIssued.FUs_.length) ∧
    ∃ (traces : List pipeline_trace_t) (sb1 : Scoreboard Ring),
      execute sbIssued = some (traces, sb1) ∧
      traces = (sbIssued.RS_.store.filter fun e => e.ready).map (fun e => e.trace) ∧
      sb1.RS_.store.length = sbIssued.RS_.store.length ∧
      (∀ (i : Nat) (e : entry_t), sbIssued.RS_.store[i]? = some e →
        sb1.RS_.store[i]? = some (if e.ready then
          ⟨e.valid, true, e.rob_index, e.rs1_index, e.rs2_index, e.trace⟩ else e)) ∧
      sb1.FUs_.length = sbIssued.FUs_.length ∧
      (∀ (u : Nat) (fu : FunctionalUnit), sbIssued.FUs_[u]? = some fu →
        sb1.FUs_[u]? = some ⟨fu.Input ++ dispatched u 0 sbIssued.RS_.store, fu.Output⟩) ∧
      (∀ (u : Nat) (g : fu_entry_t), g ∈ dispatched u 0 sbIssued.RS_.store ↔
        ∃ (i : Nat) (e : entry_t), sbIssued.RS_.store[i]? = some e ∧
          (e.valid = true ∧ e.running = false ∧ e.rs1_index = -1 ∧ e.rs2_index = -1) ∧
          e.trace.fu_type = u ∧ g = ⟨e.trace, e.rob_index, (i : Int)⟩) ∧
      sb1.RAT_ = sbIssued.RAT_ ∧ sb1.RST_ = sbIssued.RST_ ∧ sb1.ROB_ = sbIssued.ROB_ :=
  ⟨by decide, execute_dispatch sbIssued (by decide)⟩

/-- The call of the witness evaluated: `execute` in `sbIssued` returns `[A, C]`, marks slots
0 and 2 running and puts one triple into the input of each unit. -/
theorem execute_sbIssued :
    execute sbIssued = some ([instrA, instrC],
      ⟨sbIssued.RAT_, ⟨[⟨true, true, 0, -1, -1, instrA⟩, ⟨true, false, 1, 0, -1, instrB⟩,
        ⟨true, true, 2, -1, -1, instrC⟩]⟩, sbIssued.RST_, sbIssued.ROB_,
        [⟨[⟨instrA, 0, 0⟩], []⟩, ⟨[⟨instrC, 2, 2⟩], []⟩]⟩) := by
  decide

/-! ### C5: one completion per `writeback` -/

theorem popOutput_getElem?_ne (FUs : List FunctionalUnit) {k j : Nat} (h : j ≠ k) :
    (popOutput FUs k)[j]? = FUs[j]? := by
  unfold popOutput
  exact List.getElem?_modify_ne _ _ (Ne.symm h)

theorem popOutput_getElem?_eq (FUs : List FunctionalUnit) {k : Nat} {fu : FunctionalUnit}
    (h : FUs[k]? = some fu) : (popOutput FUs k)[k]? = some ⟨fu.Input, fu.Output.tail⟩ := by
  unfold popOutput
  rw [List.getElem?_modify_eq, h]
  rfl

theorem popOutput_length (FUs : List FunctionalUnit) (k : Nat) :
    (popOutput FUs k).length = FUs.length := by
  simp [popOutput]

theorem mem_popOutput : ∀ (FUs : List FunctionalUnit) (k : Nat) (fu1 : FunctionalUnit),
    fu1 ∈ popOutput FUs k → ∃ fu ∈ FUs, ∀ g ∈ fu1.Output, g ∈ fu.Output
  | [], k, fu1, h => by simp [popOutput] at h
  | fu :: rest, 0, fu1, h => by
    simp only [popOutput, List.modify_zero_cons, List.mem_cons] at h
    rcases h with rfl | h
    · exact ⟨fu, List.mem_cons_self _ _, fun g hg => List.mem_of_mem_tail hg⟩
    · exact ⟨fu1, List.mem_cons_of_mem _ h, fun g hg => hg⟩
  | fu :: rest, k + 1, fu1, h => by
    simp only [popOutput, List.modify_succ_cons, List.mem_cons] at h
    rcases h with rfl | h
    · exact ⟨fu1, List.mem_cons_self _ _, fun g hg => hg⟩
    · obtain ⟨fu2, h1, h2⟩ := mem_popOutput rest k fu1 h
      exact ⟨fu2, List.mem_cons_of_mem _ h1, h2⟩

theorem pendingOutputs_popOutput : ∀ (FUs : List FunctionalUnit) (k : Nat) (fu : FunctionalUnit),
    FUs[k]? = some fu → fu.Output ≠ [] →
    pendingOutputs (popOutput FUs k) + 1 = pendingOutputs FUs
  | [], k, fu, h, _ => by simp at h
  | fu0 :: rest, 0, fu, h, hne => by
    simp only [List.getElem?_cons_zero, Option.some.injEq] at h
    subst h
    have hpos : 0 < fu0.Output.length := List.length_pos.mpr hne
    simp only [pendingOutputs, popOutput, List.modify_zero_cons, List.map_cons, List.sum_cons,
      List.length_tail]
    omega
  | fu0 :: rest, k + 1, fu, h, hne => by
    have ih := pendingOutputs_popOutput rest k fu (by simpa using h) hne
    simp only [pendingOutputs, popOutput, List.modify_succ_cons, List.map_cons,
      List.sum_cons] at ih ⊢
    omega

theorem writeback_outputsInBounds {sb sb1 : Scoreboard ρ} {k : Nat} {f : fu_entry_t}
    {r : Option pipeline_trace_t}
    (hout : firstOutput 0 sb.FUs_ = some (k, f)) (h : writeback sb = some (r, sb1))
    (hb : outputsInBounds sb) : outputsInBounds sb1 := by
  obtain ⟨_, _, hlen, _⟩ := writeback_store hout h
  obtain ⟨_, RST, RS, hRST, _, hsb⟩ := writeback_some hout h
  have hl1 : sb1.RST_.length = sb.RST_.length := by
    rw [hsb]
    exact length_of_vecSet hRST
  have hF : sb1.FUs_ = popOutput sb.FUs_ k := by rw [hsb]
  intro fu1 hfu1 g hg
  rw [hF] at hfu1
  obtain ⟨fu, hfu, hsub⟩ := mem_popOutput _ _ _ hfu1
  have := hb fu hfu g (hsub g hg)
  simpa [ReservationStation.size, hl1, hlen] using this

/-- Repeated `writeback` calls reach the front entry of every unit that has output. -/
theorem writeback_drains : ∀ (m : Nat) (sb : Scoreboard ρ),
    pendingOutputs sb.FUs_ = m → outputsInBounds sb →
    ∀ (j : Nat) (fu : FunctionalUnit) (g : fu_entry_t) (rest : List fu_entry_t),
      sb.FUs_[j]? = some fu → fu.Output = g :: rest →
      ∃ (n : Nat) (sb2 sb3 : Scoreboard ρ), writebackN n sb = some sb2 ∧
        firstOutput 0 sb2.FUs_ = some (j, g) ∧ writeback sb2 = some (some g.trace, sb3) := by
  intro m
  induction m with
  | zero =>
    intro sb hm _ j fu g rest hj hO
    exfalso
    have hne : fu.Output ≠ [] := by rw [hO]; simp
    have := pendingOutputs_popOutput sb.FUs_ j fu hj hne
    omega
  | succ m ih =>
    intro sb hm hb j fu g rest hj hO
    have hmem : fu ∈ sb.FUs_ := List.getElem?_mem hj
    cases hout : firstOutput 0 sb.FUs_ with
    | none =>
      exfalso
      have := (firstOutput_eq_none sb.FUs_ 0).mp hout fu hmem
      rw [hO] at this
      cases this
    | some kf =>
      obtain ⟨k, f⟩ := kf
      obtain ⟨⟨fuk, hk, restk, hOk⟩, hbefore⟩ := firstOutput_zero hout
      have hfb := hb fuk (List.getElem?_mem hk) f (by rw [hOk]; exact List.mem_cons_self _ _)
      obtain ⟨sb1, hwb⟩ := writeback_defined hout hfb.1 hfb.2
      by_cases hkj : k = j
      · subst hkj
        rw [hj] at hk
        cases hk
        rw [hO] at hOk
        cases hOk
        exact ⟨0, sb, sb1, rfl, hout, hwb⟩
      · obtain ⟨_, RST, RS, _, _, hsb⟩ := writeback_some hout hwb
        have hF : sb1.FUs_ = popOutput sb.FUs_ k := by rw [hsb]
        have hpend : pendingOutputs sb1.FUs_ = m := by
          have := pendingOutputs_popOutput sb.FUs_ k fuk hk (by rw [hOk]; simp)
          rw [hF]
          omega
        have hj1 : sb1.FUs_[j]? = some fu := by
          rw [hF, popOutput_getElem?_ne _ (Ne.symm hkj)]
          exact hj
        obtain ⟨n, sb2, sb3, hn, h2, h3⟩ :=
          ih sb1 hpend (writeback_outputsInBounds hout hwb hb) j fu g rest hj1 hO
        refine ⟨n + 1, sb2, sb3, ?_, h2, h3⟩
        simp only [writebackN, hwb]
        exact hn

/-- C5 (at most one broadcast per call).  In every state in which two different units have
output (and the pending completion entries index the RST and the reservation-station set
within bounds), one `writeback` call removes the front entry of the output of one unit `k`
and nothing else from any output: the queues of every other unit are unchanged; and for
every other unit that has output, its front entry `g` is the entry processed, and its
instruction the value returned, by a later `writeback` call (after `n` further calls). -/
theorem writeback_one_per_call (sb : Scoreboard ρ) (j1 j2 : Nat) (fu1 fu2 : FunctionalUnit)
    (hne : j1 ≠ j2) (h1 : sb.FUs_[j1]? = some fu1) (h2 : sb.FUs_[j2]? = some fu2)
    (ho1 : fu1.Output ≠ []) (ho2 : fu2.Output ≠ []) (hb : outputsInBounds sb) :
    ∃ (k : Nat) (f : fu_entry_t) (sb1 : Scoreboard ρ),
      writeback sb = some (some f.trace, sb1) ∧
      sb1.FUs_.length = sb.FUs_.length ∧
      (∃ fu rest, sb.FUs_[k]? = some fu ∧ fu.Output = f :: rest ∧
        sb1.FUs_[k]? = some ⟨fu.Input, rest⟩) ∧
      (∀ j, j ≠ k → sb1.FUs_[j]? = sb.FUs_[j]?) ∧
      (∃ j fu, j ≠ k ∧ sb1.FUs_[j]? = some fu ∧ fu.Output ≠ []) ∧
      (∀ (j : Nat) (fu : FunctionalUnit) (g : fu_entry_t) (rest : List fu_entry_t),
        j ≠ k → sb.FUs_[j]? = some fu → fu.Output = g :: rest →
        ∃ (n : Nat) (sb2 sb3 : Scoreboard ρ), writebackN n sb1 = some sb2 ∧
          firstOutput 0 sb2.FUs_ = some (j, g) ∧
          writeback sb2 = some (some g.trace, sb3)) := by
  cases hout : firstOutput 0 sb.FUs_ with
  | none =>
    exfalso
    exact ho1 ((firstOutput_eq_none sb.FUs_ 0).mp hout fu1 (List.getElem?_mem h1))
  | some kf =>
    obtain ⟨k, f⟩ := kf
    obtain ⟨⟨fuk, hk, restk, hOk⟩, _⟩ := firstOutput_zero hout
    have hfb := hb fuk (List.getElem?_mem hk) f (by rw [hOk]; exact List.mem_cons_self _ _)
    obtain ⟨sb1, hwb⟩ := writeback_defined hout hfb.1 hfb.2
    obtain ⟨_, RST, RS, _, _, hsb⟩ := writeback_some hout hwb
    have hF : sb1.FUs_ = popOutput sb.FUs_ k := by rw [hsb]
    have hother : ∀ j, j ≠ k → sb1.FUs_[j]? = sb.FUs_[j]? := by
      intro j hj
      rw [hF]
      exact popOutput_getElem?_ne _ hj
    refine ⟨k, f, sb1, hwb, by rw [hF, popOutput_length], ⟨fuk, restk, hk, hOk, ?_⟩, hother,
      ?_, ?_⟩
    · rw [hF, popOutput_getElem?_eq _ hk, hOk]
      rfl
    · by_cases hk1 : j1 = k
      · exact ⟨j2, fu2, fun h => hne (hk1.trans h.symm), by rw [hother j2 (fun h => hne (hk1.trans h.symm))]; exact h2, ho2⟩
      · exact ⟨j1, fu1, hk1, by rw [hother j1 hk1]; exact h1, ho1⟩
    · intro j fu g rest hj hfu hO
      have hj1 : sb1.FUs_[j]? = some fu := by
        rw [hother j hj]
        exact hfu
      exact writeback_drains _ sb1 rfl (writeback_outputsInBounds hout hwb hb) j fu g rest hj1 hO

/-- Witness for C5: in `sbTwoDone` both units have output. -/
theorem writeback_one_per_call_witness :
    (sbTwoDone.FUs_[0]? = some ⟨[], [⟨instrA, 0, 0⟩]⟩ ∧
      sbTwoDone.FUs_[1]? = some ⟨[], [⟨instrC, 2, 2⟩]⟩ ∧ outputsInBounds sbTwoDone) ∧
    ∃ (k : Nat) (f : fu_entry_t) (sb1 : Scoreboard Ring),
      writeback sbTwoDone = some (some f.trace, sb1) ∧
      sb1.FUs_.length = sbTwoDone.FUs_.length ∧
      (∃ fu rest, sbTwoDone.FUs_[k]? = some fu ∧ fu.Output = f :: rest ∧
        sb1.FUs_[k]? = some ⟨fu.Input, rest⟩) ∧
      (∀ j, j ≠ k → sb1.FUs_[j]? = sbTwoDone.FUs_[j]?) ∧
      (∃ j fu, j ≠ k ∧ sb1.FUs_[j]? = some fu ∧ fu.Output ≠ []) ∧
      (∀ (j : Nat) (fu : FunctionalUnit) (g : fu_entry_t) (rest : List fu_entry_t),
        j ≠ k → sbTwoDone.FUs_[j]? = some fu → fu.Output = g :: rest →
        ∃ (n : Nat) (sb2 sb3 : Scoreboard Ring), writebackN n sb1 = some sb2 ∧
          firstOutput 0 sb2.FUs_ = some (j, g) ∧
          writeback sb2 = some (some g.trace, sb3)) :=
  ⟨by decide,
    writeback_one_per_call sbTwoDone 0 1 ⟨[], [⟨instrA, 0, 0⟩]⟩ ⟨[], [⟨instrC, 2, 2⟩]⟩
      (by decide) (by decide) (by decide) (by decide) (by decide) (by decide)⟩

/-! ### C7: the example scenario -/

/-- C7 (example scenario).  From the freshly constructed scoreboard `sbEmpty`: issuing `A`
(writes register 1, sources available) is admitted and gives `sbA`; issuing `B` (reads
register 1, writes register 2) is admitted and gives `sbAB`, where `B`'s `rs1_index` is 0,
the slot of `A`, and not `-1`; the next `execute` returns `[A]` (it dispatches `A`, not `B`)
and gives `sbRun`; once unit 0 has completed `A`, `writeback` returns `A` and gives
`sbWoken`, where `B`'s `rs1_index` is `-1`; the following `execute` returns `[B]`. -/
theorem example_scenario :
    issue Ring.ops sbEmpty instrA = some (true, sbA) ∧
    sbEmpty.RS_.freeSlot = some 0 ∧
    issue Ring.ops sbA instrB = some (true, sbAB) ∧
    sbA.RS_.freeSlot = some 1 ∧
    sbAB.RS_.entry 1 = some ⟨true, false, 1, 0, -1, instrB⟩ ∧
    execute sbAB = some ([instrA], sbRun) ∧
    sbRun.RS_.entry 1 = some ⟨true, false, 1, 0, -1, instrB⟩ ∧
    step Ring.ops sbRun (Call.complete 0 0) = some sbDone ∧
    firstOutput 0 sbDone.FUs_ = some (0, ⟨instrA, 0, 0⟩) ∧
    writeback sbDone = some (some instrA, sbWoken) ∧
    sbWoken.RS_.entry 1 = some ⟨true, false, 1, -1, -1, instrB⟩ ∧
    execute sbWoken = some ([instrB], sbLast) ∧
    sbLast.FUs_[0]? = some ⟨[⟨instrB, 1, 1⟩], []⟩ := by
  decide

/-! ### Events of a run: what they keep of the RAT and the RST -/

theorem issue_rejected_state {R : ReorderBufferOps ρ} {sb sb1 : Scoreboard ρ}
    {trace : pipeline_trace_t} (h : issue R sb trace = some (false, sb1)) : sb1 = sb := by
  cases hfull : (sb.RS_.is_full || R.is_full sb.ROB_.state) with
  | true =>
    unfold issue at h
    rw [hfull] at h
    simp only [if_true, Option.some.injEq, Prod.mk.injEq, true_and] at h
    exact h.symm
  | false =>
    have := (issue_some_of_not_full hfull h).1
    cases this

theorem step_issue_cases {R : ReorderBufferOps ρ} {sb sb1 : Scoreboard ρ}
    {trace : pipeline_trace_t} (h : step R sb (Call.issue trace) = some sb1) :
    (issue R sb trace = some (false, sb) ∧ sb1 = sb) ∨ issue R sb trace = some (true, sb1) := by
  simp only [step, Option.map_eq_some', Prod.exists, exists_eq_right] at h
  obtain ⟨b, hb⟩ := h
  cases b with
  | false =>
    have := issue_rejected_state hb
    subst this
    exact Or.inl ⟨hb, rfl⟩
  | true => exact Or.inr hb

theorem commit_frame (sb : Scoreboard ρ) :
    (commit sb).2.RAT_ = sb.RAT_ ∧ (commit sb).2.RS_ = sb.RS_ ∧ (commit sb).2.RST_ = sb.RST_ ∧
      (commit sb).2.FUs_ = sb.FUs_ := by
  unfold commit
  split <;> simp

/-- One event keeps the renaming of `reg` to producer slot `p`, and the RST entry of `p`,
unless it is an admitted issue that writes `reg` or is given `p`; a writeback that
processes a completion of `p` sets the RST entry to `-1`. -/
theorem step_tracks {R : ReorderBufferOps ρ} {sb sb1 : Scoreboard ρ} {c : Call ρ}
    {reg : Nat} {p v : Int}
    (hRAT : sb.RAT_.get reg = some p) (hRST : vecGet sb.RST_ p = some v)
    (hstep : step R sb c = some sb1)
    (hw : c.writes R reg sb = false) (ha : c.allocates R p sb = false) :
    sb1.RAT_.get reg = some p ∧
      vecGet sb1.RST_ p = some (if c.completes p sb = true then -1 else v) := by
  cases c with
  | issue trace =>
    simp only [Call.completes, Bool.false_eq_true, if_false]
    rcases step_issue_cases hstep with ⟨_, rfl⟩ | hadm
    · exact ⟨hRAT, hRST⟩
    · simp only [Call.writes, hadm, Bool.and_eq_false_imp, beq_eq_false_iff_ne] at hw
      simp only [Call.allocates, hadm, beq_eq_false_iff_ne] at ha
      obtain ⟨w1, w2, RAT, s, RST, _, _, hRAT1, _, hRST1, rfl⟩ := issue_admitted hadm
      constructor
      · by_cases hwb : trace.wb = true
        · rw [if_pos hwb] at hRAT1
          rw [RegisterAliasTable.get_of_set_ne hRAT1 reg (fun h => hw hwb h.symm)]
          exact hRAT
        · rw [if_neg hwb] at hRAT1
          cases hRAT1
          exact hRAT
      · rw [vecGet_of_vecSet_ne hRST1 p (fun h => ha h.symm)]
        exact hRST
  | execute =>
    simp only [Call.completes, Bool.false_eq_true, if_false]
    simp only [step, Option.map_eq_some', Prod.exists, exists_eq_right] at hstep
    obtain ⟨ts, hex⟩ := hstep
    obtain ⟨_, _, h3, h4, _⟩ := execute_eq_some hex
    rw [h3, h4]
    exact ⟨hRAT, hRST⟩
  | writeback =>
    simp only [step, Option.map_eq_some', Prod.exists, exists_eq_right] at hstep
    obtain ⟨r, hwb⟩ := hstep
    cases hout : firstOutput 0 sb.FUs_ with
    | none =>
      simp only [Call.completes, hout, Bool.false_eq_true, if_false]
      simp only [writeback, hout, Option.some.injEq, Prod.mk.injEq] at hwb
      rw [← hwb.2]
      exact ⟨hRAT, hRST⟩
    | some kf =>
      obtain ⟨k, f⟩ := kf
      simp only [Call.completes, hout, beq_iff_eq]
      obtain ⟨_, RST, RS, hRST1, _, rfl⟩ := writeback_some hout hwb
      refine ⟨hRAT, ?_⟩
      by_cases hfp : f.rob_index = p
      · rw [if_pos hfp]
        subst hfp
        exact vecGet_of_vecSet hRST1
      · rw [if_neg hfp, vecGet_of_vecSet_ne hRST1 p (fun h => hfp h.symm)]
        exact hRST
  | commit =>
    simp only [Call.completes, Bool.false_eq_true, if_false]
    simp only [step, Option.some.injEq] at hstep
    subst hstep
    rw [(commit_frame sb).1, (commit_frame sb).2.2.1]
    exact ⟨hRAT, hRST⟩
  | complete k n =>
    simp only [Call.completes, Bool.false_eq_true, if_false]
    simp only [step, Option.map_eq_some'] at hstep
    obtain ⟨FUs, _, rfl⟩ := hstep
    exact ⟨hRAT, hRST⟩
  | sequencer move =>
    simp only [Call.completes, Bool.false_eq_true, if_false]
    simp only [step, Option.some.injEq] at hstep
    subst hstep
    exact ⟨hRAT, hRST⟩

/-! ### Consistency of RST, reservation stations and units in reachable states -/

theorem sum_map_set (h : FunctionalUnit → Nat) : ∀ (FUs : List FunctionalUnit) (k : Nat)
    (fu fu1 : FunctionalUnit), FUs[k]? = some fu →
    ((FUs.set k fu1).map h).sum + h fu = (FUs.map h).sum + h fu1
  | [], k, fu, fu1, hk => by simp at hk
  | fu0 :: rest, 0, fu, fu1, hk => by
    simp only [List.getElem?_cons_zero, Option.some.injEq] at hk
    subst hk
    simp only [List.set_cons_zero, List.map_cons, List.sum_cons]
    omega
  | fu0 :: rest, k + 1, fu, fu1, hk => by
    have ih := sum_map_set h rest k fu fu1 (by simpa using hk)
    simp only [List.set_cons_succ, List.map_cons, List.sum_cons]
    omega

theorem inflightCount_set (s : Int) {FUs : List FunctionalUnit} {k : Nat}
    {fu : FunctionalUnit} (fu1 : FunctionalUnit) (hk : FUs[k]? = some fu) :
    inflightCount s (FUs.set k fu1) + unitCount s fu = inflightCount s FUs + unitCount s fu1 :=
  sum_map_set (unitCount s) FUs k fu fu1 hk

theorem inflightCount_eq_zero (s : Int) : ∀ (FUs : List FunctionalUnit),
    inflightCount s FUs = 0 ↔ ∀ fu ∈ FUs, ∀ g ∈ fu.Input ++ fu.Output, g.rs_index ≠ s
  | [] => by simp [inflightCount]
  | fu0 :: rest => by
    have ih := inflightCount_eq_zero s rest
    simp only [inflightCount] at ih
    simp only [inflightCount, List.map_cons, List.sum_cons, Nat.add_eq_zero, ih,
      List.mem_cons, forall_eq_or_imp, unitCount, List.countP_eq_zero, beq_iff_eq]

theorem popOutput_eq_set {FUs : List FunctionalUnit} {k : Nat} {fu : FunctionalUnit}
    (hk : FUs[k]? = some fu) : popOutput FUs k = FUs.set k ⟨fu.Input, fu.Output.tail⟩ := by
  apply List.ext_getElem?
  intro j
  by_cases hjk : j = k
  · subst hjk
    rw [popOutput_getElem?_eq _ hk]
    have hlt := (List.getElem?_eq_some_iff.mp hk).1
    simp [hlt]
  · rw [popOutput_getElem?_ne _ hjk, List.getElem?_set_ne (Ne.symm hjk)]

theorem inflightCount_popOutput (s : Int) {FUs : List FunctionalUnit} {k : Nat}
    {fu : FunctionalUnit} {f : fu_entry_t} {rest : List fu_entry_t}
    (hk : FUs[k]? = some fu) (hO : fu.Output = f :: rest) :
    inflightCount s (popOutput FUs k) + (if f.rs_index = s then 1 else 0) =
      inflightCount s FUs := by
  have h := inflightCount_set s ⟨fu.Input, fu.Output.tail⟩ hk
  rw [popOutput_eq_set hk]
  have hu : unitCount s fu =
      unitCount s ⟨fu.Input, fu.Output.tail⟩ + (if f.rs_index = s then 1 else 0) := by
    simp only [unitCount, hO, List.tail_cons, List.countP_append, List.countP_cons, beq_iff_eq]
    omega
  omega

theorem inflightCount_sendInput (s : Int) {FUs FUs1 : List FunctionalUnit} {k : Nat}
    {g : fu_entry_t} (h : sendInput FUs k g = some FUs1) :
    inflightCount s FUs1 = inflightCount s FUs + (if g.rs_index = s then 1 else 0) := by
  obtain ⟨fu, hk, rfl⟩ := sendInput_eq_some h
  have h1 := inflightCount_set s ⟨fu.Input ++ [g], fu.Output⟩ hk
  have hu : unitCount s ⟨fu.Input ++ [g], fu.Output⟩ =
      unitCount s fu + (if g.rs_index = s then 1 else 0) := by
    simp only [unitCount, List.countP_append, List.countP_cons, List.countP_nil, beq_iff_eq]
    omega
  omega

theorem countP_eraseIdx (q : fu_entry_t → Bool) : ∀ (l : List fu_entry_t) (n : Nat)
    (e : fu_entry_t), l[n]? = some e →
    (l.eraseIdx n).countP q + (if q e = true then 1 else 0) = l.countP q
  | [], n, e, h => by simp at h
  | a :: l, 0, e, h => by
    simp only [List.getElem?_cons_zero, Option.some.injEq] at h
    subst h
    simp [List.countP_cons]
  | a :: l, n + 1, e, h => by
    have ih := countP_eraseIdx q l n e (by simpa using h)
    simp only [List.eraseIdx_cons_succ, List.countP_cons]
    omega

theorem inflightCount_completeUnit (s : Int) {FUs FUs1 : List FunctionalUnit} {k n : Nat}
    (h : completeUnit FUs k n = some FUs1) : inflightCount s FUs1 = inflightCount s FUs := by
  unfold completeUnit at h
  split at h
  · cases h
  · next fu hk =>
    split at h
    · cases h
    · next e he =>
      cases h
      have h1 := inflightCount_set s ⟨fu.Input.eraseIdx n, fu.Output ++ [e]⟩ hk
      have h2 := countP_eraseIdx (fun g => g.rs_index == s) fu.Input n e he
      have hu : unitCount s ⟨fu.Input.eraseIdx n, fu.Output ++ [e]⟩ = unitCount s fu := by
        simp only [unitCount, List.countP_append, List.countP_cons, List.countP_nil]
        simp only [beq_iff_eq] at h2 ⊢
        omega
      omega

theorem mem_completeUnit {FUs FUs1 : List FunctionalUnit} {k n : Nat}
    (h : completeUnit FUs k n = some FUs1) (fu1 : FunctionalUnit) (hmem : fu1 ∈ FUs1) :
    ∃ fu ∈ FUs, ∀ g ∈ fu1.Input ++ fu1.Output, g ∈ fu.Input ++ fu.Output := by
  unfold completeUnit at h
  split at h
  · cases h
  · next fu hk =>
    split at h
    · cases h
    · next e he =>
      cases h
      rcases List.mem_or_eq_of_mem_set hmem with h1 | rfl
      · exact ⟨fu1, h1, fun g hg => hg⟩
      · refine ⟨fu, List.getElem?_mem hk, ?_⟩
        intro g hg
        simp only [List.mem_append, List.mem_singleton] at hg ⊢
        rcases hg with hg | hg | rfl
        · exact Or.inl (List.mem_of_mem_eraseIdx hg)
        · exact Or.inr hg
        · exact Or.inl (List.getElem?_mem he)

theorem readyAt_pos (s : Int) : ∀ (rest : List entry_t) (i : Nat), 0 < readyAt s i rest →
    ∃ (j : Nat) (e : entry_t), rest[j]? = some e ∧ e.ready = true ∧ ((i + j : Nat) : Int) = s
  | [], i, h => by simp [readyAt] at h
  | e :: rest, i, h => by
    by_cases hc : (e.ready && ((i : Int) == s)) = true
    · simp only [Bool.and_eq_true, beq_iff_eq] at hc
      exact ⟨0, e, by simp, hc.1, by simpa using hc.2⟩
    · simp only [readyAt, hc, Bool.false_eq_true, if_false, Nat.zero_add] at h
      obtain ⟨j, e1, h1, h2, h3⟩ := readyAt_pos s rest (i + 1) h
      refine ⟨j + 1, e1, by simpa using h1, h2, ?_⟩
      rw [← h3]
      congr 1
      omega

theorem readyAt_le_one (s : Int) : ∀ (rest : List entry_t) (i : Nat), readyAt s i rest ≤ 1
  | [], i => by simp [readyAt]
  | e :: rest, i => by
    have ih := readyAt_le_one s rest (i + 1)
    simp only [readyAt]
    by_cases hc : (e.ready && ((i : Int) == s)) = true
    · simp only [hc, if_true]
      simp only [Bool.and_eq_true, beq_iff_eq] at hc
      by_cases hp : 0 < readyAt s (i + 1) rest
      · obtain ⟨j, _, _, _, h3⟩ := readyAt_pos s rest (i + 1) hp
        have := hc.2
        omega
      · omega
    · simp only [hc, Bool.false_eq_true, if_false]
      omega

theorem executeLoop_count (s : Int) : ∀ (rest : List entry_t) (i : Nat)
    (FUs : List FunctionalUnit) (rest1 : List entry_t) (FUs2 : List FunctionalUnit)
    (traces : List pipeline_trace_t),
    executeLoop i rest FUs = some (rest1, FUs2, traces) →
    inflightCount s FUs2 = inflightCount s FUs + readyAt s i rest
  | [], i, FUs, rest1, FUs2, traces, h => by
    simp only [executeLoop, Option.some.injEq, Prod.mk.injEq] at h
    obtain ⟨_, rfl, _⟩ := h
    simp [readyAt]
  | e :: rest, i, FUs, rest1, FUs2, traces, h => by
    rw [executeLoop] at h
    by_cases hr : e.ready = true
    · rw [if_pos hr] at h
      cases hsend : sendInput FUs e.trace.fu_type ⟨e.trace, e.rob_index, (i : Int)⟩ with
      | none => rw [hsend] at h; cases h
      | some FUs1 =>
        simp only [hsend] at h
        cases hloop : executeLoop (i + 1) rest FUs1 with
        | none => simp only [hloop] at h; cases h
        | some out =>
          obtain ⟨r1, F2, ts⟩ := out
          simp only [hloop, Option.some.injEq, Prod.mk.injEq] at h
          obtain ⟨_, rfl, _⟩ := h
          have ih := executeLoop_count s rest (i + 1) FUs1 r1 F2 ts hloop
          have hs := inflightCount_sendInput s hsend
          simp only [readyAt, hr, Bool.true_and, beq_iff_eq]
          simp only at hs
          omega
    · rw [if_neg hr] at h
      cases hloop : executeLoop (i + 1) rest FUs with
      | none => simp only [hloop] at h; cases h
      | some out =>
        obtain ⟨r1, F2, ts⟩ := out
        simp only [hloop, Option.some.injEq, Prod.mk.injEq] at h
        obtain ⟨_, rfl, _⟩ := h
        have ih := executeLoop_count s rest (i + 1) FUs r1 F2 ts hloop
        simp only [readyAt, hr, Bool.false_and, Bool.false_eq_true, if_false]
        omega

theorem ReservationStation.entry_eq_some {rs : ReservationStation} {x : Int} {e : entry_t} :
    rs.entry x = some e ↔ 0 ≤ x ∧ rs.store[x.toNat]? = some e := by
  unfold ReservationStation.entry
  by_cases h : 0 ≤ x <;> simp [h]

theorem broadcast_frame (s : Int) (e : entry_t) :
    (broadcast s e).valid = e.valid ∧ (broadcast s e).running = e.running ∧
      (broadcast s e).rob_index = e.rob_index ∧ (broadcast s e).trace = e.trace := by
  unfold broadcast
  split <;> simp

theorem Consistent.init (NUM_REGS num_RSs rob_size numFUs : Nat) (rob : ρ) :
    Consistent (Scoreboard.init NUM_REGS num_RSs rob_size numFUs rob) := by
  have hnone : ∀ fu ∈ (Scoreboard.init NUM_REGS num_RSs rob_size numFUs rob).FUs_,
      ∀ g ∈ fu.Input ++ fu.Output, False := by
    intro fu hfu g hg
    simp only [Scoreboard.init] at hfu
    have := List.eq_of_mem_replicate hfu
    subst this
    simp at hg
  refine ⟨?_, ?_, ?_, ?_⟩
  · intro q s hq hne
    exfalso
    apply hne
    simp only [Scoreboard.init] at hq
    have := List.getElem?_mem hq
    exact List.eq_of_mem_replicate this
  · intro fu hfu g hg
    exact (hnone fu hfu g hg).elim
  · intro s
    have : inflightCount s (Scoreboard.init NUM_REGS num_RSs rob_size numFUs rob).FUs_ = 0 := by
      rw [inflightCount_eq_zero]
      intro fu hfu g hg
      exact (hnone fu hfu g hg).elim
    omega
  · intro e he hv
    simp only [Scoreboard.init] at he
    have := List.eq_of_mem_replicate he
    subst this
    cases hv

theorem Consistent.issue {R : ReorderBufferOps ρ} {sb sb1 : Scoreboard ρ}
    {trace : pipeline_trace_t} (hc : Consistent sb) (h : issue R sb trace = some (true, sb1)) :
    Consistent sb1 := by
  obtain ⟨w1, w2, RAT, s, RST, _, _, _, hs, hRST, rfl⟩ := issue_admitted h
  obtain ⟨e0, he0, hv0⟩ := ReservationStation.freeSlot_spec hs
  have hlt := ReservationStation.freeSlot_lt hs
  obtain ⟨hp0, hplt, rfl⟩ := vecSet_bounds hRST
  have keep : ∀ (x : Int) (e : entry_t), sb.RS_.entry x = some e → e.valid = true →
      (ReservationStation.mk (sb.RS_.store.set s
        ⟨true, false, (R.allocate sb.ROB_.state trace).1, w1, w2, trace⟩)).entry x = some e := by
    intro x e hx hv
    rw [ReservationStation.entry_eq_some] at hx ⊢
    refine ⟨hx.1, ?_⟩
    have hne : s ≠ x.toNat := by
      intro heq
      rw [← heq, he0] at hx
      have := Option.some.inj hx.2
      rw [this] at hv0
      rw [hv0] at hv
      cases hv
    rw [List.getElem?_set_ne hne]
    exact hx.2
  refine ⟨?_, ?_, hc.unique, ?_⟩
  rotate_left 2
  · intro e he hv
    simp only [List.length_set]
    rcases List.mem_or_eq_of_mem_set he with h1 | rfl
    · exact hc.robs e h1 hv
    · exact ⟨hp0, hplt⟩
  · intro q s1 hq hne
    by_cases hqp : q = (R.allocate sb.ROB_.state trace).1.toNat
    · subst hqp
      simp only [List.getElem?_set_self hplt, Option.some.injEq] at hq
      subst hq
      refine ⟨⟨true, false, (R.allocate sb.ROB_.state trace).1, w1, w2, trace⟩, ?_, rfl, ?_⟩
      · simp [ReservationStation.entry, hlt]
      · simp only
        omega
    · simp only [List.getElem?_set_ne (Ne.symm hqp)] at hq
      obtain ⟨e, h1, h2, h3⟩ := hc.rst q s1 hq hne
      exact ⟨e, keep s1 e h1 h2, h2, h3⟩
  · intro fu hfu g hg
    obtain ⟨e, h1, h2, h3, h4⟩ := hc.inflight fu hfu g hg
    exact ⟨e, keep _ e h1 h2, h2, h3, h4⟩

theorem execute_count (s : Int) {sb sb1 : Scoreboard ρ} {traces : List pipeline_trace_t}
    (h : execute sb = some (traces, sb1)) :
    inflightCount s sb1.FUs_ = inflightCount s sb.FUs_ + readyAt s 0 sb.RS_.store := by
  unfold execute at h
  cases hloop : executeLoop 0 sb.RS_.store sb.FUs_ with
  | none => simp only [hloop] at h; cases h
  | some out =>
    obtain ⟨r1, F2, ts⟩ := out
    simp only [hloop, Option.some.injEq, Prod.mk.injEq] at h
    obtain ⟨_, rfl⟩ := h
    exact executeLoop_count s _ _ _ _ _ _ hloop

theorem Consistent.execute {sb sb1 : Scoreboard ρ} {traces : List pipeline_trace_t}
    (hc : Consistent sb) (h : execute sb = some (traces, sb1)) : Consistent sb1 := by
  obtain ⟨_, hstore, _, hRST, _, hlen, _, hFU⟩ := execute_eq_some h
  have hentry : ∀ (x : Int) (e : entry_t), sb.RS_.entry x = some e →
      sb1.RS_.entry x = some (if e.ready then e.started else e) := by
    intro x e hx
    rw [ReservationStation.entry_eq_some] at hx ⊢
    refine ⟨hx.1, ?_⟩
    rw [hstore, List.getElem?_map, hx.2]
    rfl
  have hstarted : ∀ e : entry_t, (if e.ready then e.started else e).valid = e.valid ∧
      (if e.ready then e.started else e).rob_index = e.rob_index ∧
      (e.running = true ∨ e.ready = true → (if e.ready then e.started else e).running = true) := by
    intro e
    by_cases hr : e.ready = true
    · simp [hr, entry_t.started]
    · simp [hr]
  refine ⟨?_, ?_, ?_, ?_⟩
  rotate_left 3
  · intro e1 he1 hv
    rw [hstore] at he1
    obtain ⟨e, he, rfl⟩ := List.mem_map.mp he1
    rw [(hstarted e).1] at hv
    rw [(hstarted e).2.1, hRST]
    exact hc.robs e he hv
  · intro q s hq hne
    rw [hRST] at hq
    obtain ⟨e, h1, h2, h3⟩ := hc.rst q s hq hne
    refine ⟨_, hentry s e h1, ?_, ?_⟩
    · rw [(hstarted e).1]
      exact h2
    · rw [(hstarted e).2.1]
      exact h3
  · intro fu1 hfu1 g hg
    obtain ⟨u, hu⟩ := List.mem_iff_getElem?.mp hfu1
    have hult : u < sb.FUs_.length := by
      rw [← hlen]
      exact (List.getElem?_eq_some_iff.mp hu).1
    have hold := hFU u _ (List.getElem?_eq_getElem hult)
    rw [hu] at hold
    have hfu1eq := Option.some.inj hold
    subst hfu1eq
    simp only [List.mem_append] at hg
    have htrace : ∀ e : entry_t, (if e.ready then e.started else e).trace = e.trace := by
      intro e
      by_cases hr : e.ready = true
      · simp [hr, entry_t.started]
      · simp [hr]
    have oldcase : g ∈ (sb.FUs_[u]).Input ++ (sb.FUs_[u]).Output →
        ∃ e, sb1.RS_.entry g.rs_index = some e ∧ e.valid = true ∧ e.running = true ∧
          e.rob_index = g.rob_index ∧ e.trace = g.trace := by
      intro hg1
      obtain ⟨e, h1, h2, h3, h4, h5⟩ := hc.inflight _ (List.getElem_mem hult) g hg1
      refine ⟨_, hentry _ e h1, ?_, (hstarted e).2.2 (Or.inl h3), ?_, ?_⟩
      · rw [(hstarted e).1]
        exact h2
      · rw [(hstarted e).2.1]
        exact h4
      · rw [htrace e]
        exact h5
    rcases hg with (hg | hg) | hg
    · exact oldcase (List.mem_append_left _ hg)
    · obtain ⟨j, e, hj, hr, _, rfl⟩ := (mem_dispatched u g _ 0).mp hg
      have hx : sb.RS_.entry ((0 + j : Nat) : Int) = some e := by
        rw [ReservationStation.entry_eq_some]
        exact ⟨by omega, by simpa using hj⟩
      refine ⟨_, hentry _ e hx, ?_, (hstarted e).2.2 (Or.inr hr), (hstarted e).2.1,
        htrace e⟩
      rw [(hstarted e).1]
      exact ((entry_t.ready_iff e).mp hr).1
    · exact oldcase (List.mem_append_right _ hg)
  · intro s
    rw [execute_count s h]
    have h1 := hc.unique s
    have h2 := readyAt_le_one s sb.RS_.store 0
    by_cases hp : 0 < readyAt s 0 sb.RS_.store
    · obtain ⟨j, e, hj, hr, hs⟩ := readyAt_pos s _ _ hp
      have hzero : inflightCount s sb.FUs_ = 0 := by
        rw [inflightCount_eq_zero]
        intro fu hfu g hg hgs
        obtain ⟨e1, h3, _, h5, _⟩ := hc.inflight fu hfu g hg
        rw [hgs, ← hs, ReservationStation.entry_eq_some] at h3
        have h6 : sb.RS_.store[j]? = some e1 := by simpa using h3.2
        rw [hj] at h6
        cases h6
        have := ((entry_t.ready_iff e).mp hr).2.1
        rw [this] at h5
        cases h5
      omega
    · omega

theorem mem_popOutput_queues {FUs : List FunctionalUnit} {k : Nat} {fu : FunctionalUnit}
    (hk : FUs[k]? = some fu) (fu1 : FunctionalUnit) (hmem : fu1 ∈ popOutput FUs k) :
    ∃ fu0 ∈ FUs, ∀ g ∈ fu1.Input ++ fu1.Output, g ∈ fu0.Input ++ fu0.Output := by
  rw [popOutput_eq_set hk] at hmem
  rcases List.mem_or_eq_of_mem_set hmem with h1 | rfl
  · exact ⟨fu1, h1, fun g hg => hg⟩
  · refine ⟨fu, List.getElem?_mem hk, ?_⟩
    intro g hg
    simp only [List.mem_append] at hg ⊢
    rcases hg with hg | hg
    · exact Or.inl hg
    · exact Or.inr (List.mem_of_mem_tail hg)

theorem Consistent.writeback {sb sb1 : Scoreboard ρ} {r : Option pipeline_trace_t}
    (hc : Consistent sb) (h : writeback sb = some (r, sb1)) : Consistent sb1 := by
  cases hout : firstOutput 0 sb.FUs_ with
  | none =>
    simp only [tinyrv.writeback, hout, Option.some.injEq, Prod.mk.injEq] at h
    rw [← h.2]
    exact hc
  | some kf =>
    obtain ⟨k, f⟩ := kf
    obtain ⟨h0, hlt, hlen, hstore⟩ := writeback_store hout h
    obtain ⟨_, RST, RS, hRST, _, hsb⟩ := writeback_some hout h
    obtain ⟨⟨fuk, hk, restk, hOk⟩, _⟩ := firstOutput_zero hout
    have hF : sb1.FUs_ = popOutput sb.FUs_ k := by rw [hsb]
    have hRST1 : sb1.RST_ = RST := by rw [hsb]
    obtain ⟨hp0, hplt, hRSTeq⟩ := vecSet_bounds hRST
    have hfmem : f ∈ fuk.Input ++ fuk.Output := by
      rw [hOk]
      simp
    obtain ⟨ef, hef1, hef2, hef3, hef4, _⟩ := hc.inflight fuk (List.getElem?_mem hk) f hfmem
    have hentry : ∀ (x : Int) (e : entry_t), sb.RS_.entry x = some e → x ≠ f.rs_index →
        sb1.RS_.entry x = some (broadcast f.rs_index e) := by
      intro x e hx hne
      rw [ReservationStation.entry_eq_some] at hx ⊢
      refine ⟨hx.1, ?_⟩
      have hne1 : x.toNat ≠ f.rs_index.toNat := by
        have := hx.1
        omega
      rw [hstore x.toNat e hx.2, if_neg hne1]
    have hcount : ∀ s : Int, inflightCount s sb1.FUs_ +
        (if f.rs_index = s then 1 else 0) = inflightCount s sb.FUs_ := by
      intro s
      rw [hF]
      exact inflightCount_popOutput s hk hOk
    refine ⟨?_, ?_, ?_, ?_⟩
    rotate_left 3
    · intro e1 he1 hv
      obtain ⟨i, hi⟩ := List.mem_iff_getElem?.mp he1
      have hi1 : i < sb.RS_.store.length := by
        rw [← hlen]
        exact (List.getElem?_eq_some_iff.mp hi).1
      have h1 := hstore i _ (List.getElem?_eq_getElem hi1)
      rw [hi] at h1
      have h2 := Option.some.inj h1
      have hl : sb1.RST_.length = sb.RST_.length := by
        rw [hRST1]
        exact length_of_vecSet hRST
      rw [hl]
      by_cases hik : i = f.rs_index.toNat
      · rw [if_pos hik] at h2
        rw [h2] at hv
        simp [entry_t.freed] at hv
      · rw [if_neg hik] at h2
        rw [h2, (broadcast_frame f.rs_index _).1] at hv
        rw [h2, (broadcast_frame f.rs_index _).2.2.1]
        exact hc.robs _ (List.getElem_mem hi1) hv
    · intro q s hq hne
      rw [hRST1, hRSTeq] at hq
      by_cases hqp : q = f.rob_index.toNat
      · subst hqp
        simp only [List.getElem?_set_self hplt, Option.some.injEq] at hq
        exact absurd hq.symm hne
      · rw [List.getElem?_set_ne (Ne.symm hqp)] at hq
        obtain ⟨e, h1, h2, h3⟩ := hc.rst q s hq hne
        have hsne : s ≠ f.rs_index := by
          intro heq
          subst heq
          rw [hef1] at h1
          cases h1
          apply hqp
          rw [hef4] at h3
          omega
        refine ⟨_, hentry s e h1 hsne, ?_, ?_⟩
        · rw [(broadcast_frame f.rs_index e).1]
          exact h2
        · rw [(broadcast_frame f.rs_index e).2.2.1]
          exact h3
    · intro fu1 hfu1 g hg
      have hzero : inflightCount f.rs_index sb1.FUs_ = 0 := by
        have h1 := hcount f.rs_index
        have h2 := hc.unique f.rs_index
        simp only [if_true] at h1
        omega
      have hgne : g.rs_index ≠ f.rs_index :=
        (inflightCount_eq_zero f.rs_index sb1.FUs_).mp hzero fu1 hfu1 g hg
      rw [hF] at hfu1
      obtain ⟨fu0, hfu0, hsub⟩ := mem_popOutput_queues hk fu1 hfu1
      obtain ⟨e, h1, h2, h3, h4, h5⟩ := hc.inflight fu0 hfu0 g (hsub g hg)
      refine ⟨_, hentry _ e h1 hgne, ?_, ?_, ?_, ?_⟩
      · rw [(broadcast_frame f.rs_index e).1]
        exact h2
      · rw [(broadcast_frame f.rs_index e).2.1]
        exact h3
      · rw [(broadcast_frame f.rs_index e).2.2.1]
        exact h4
      · rw [(broadcast_frame f.rs_index e).2.2.2]
        exact h5
    · intro s
      have h1 := hcount s
      have h2 := hc.unique s
      omega

theorem Consistent.step {R : ReorderBufferOps ρ} {sb sb1 : Scoreboard ρ} {c : Call ρ}
    (hc : Consistent sb) (h : step R sb c = some sb1) : Consistent sb1 := by
  cases c with
  | issue trace =>
    rcases step_issue_cases h with ⟨_, rfl⟩ | hadm
    · exact hc
    · exact hc.issue hadm
  | execute =>
    simp only [tinyrv.step, Option.map_eq_some', Prod.exists, exists_eq_right] at h
    obtain ⟨ts, hex⟩ := h
    exact hc.execute hex
  | writeback =>
    simp only [tinyrv.step, Option.map_eq_some', Prod.exists, exists_eq_right] at h
    obtain ⟨r, hwb⟩ := h
    exact hc.writeback hwb
  | commit =>
    simp only [tinyrv.step, Option.some.injEq] at h
    subst h
    obtain ⟨_, h2, h3, h4⟩ := commit_frame sb
    refine ⟨?_, ?_, ?_, ?_⟩
    · rw [h2, h3]
      exact hc.rst
    · rw [h2, h4]
      exact hc.inflight
    · rw [h4]
      exact hc.unique
    · rw [h2, h3]
      exact hc.robs
  | complete k n =>
    simp only [tinyrv.step, Option.map_eq_some'] at h
    obtain ⟨FUs, hFUs, rfl⟩ := h
    refine ⟨hc.rst, ?_, ?_, hc.robs⟩
    · intro fu1 hfu1 g hg
      obtain ⟨fu0, hfu0, hsub⟩ := mem_completeUnit hFUs fu1 hfu1
      exact hc.inflight fu0 hfu0 g (hsub g hg)
    · intro s
      simp only
      rw [inflightCount_completeUnit s hFUs]
      exact hc.unique s
  | sequencer move =>
    simp only [tinyrv.step, Option.some.injEq] at h
    subst h
    exact ⟨hc.rst, hc.inflight, hc.unique, hc.robs⟩

/-- Every reachable state is consistent. -/
theorem Reachable.consistent {R : ReorderBufferOps ρ} {sb : Scoreboard ρ}
    (h : Reachable R sb) : Consistent sb := by
  induction h with
  | init NUM_REGS num_RSs rob_size numFUs rob =>
    exact Consistent.init NUM_REGS num_RSs rob_size numFUs rob
  | step sb sb1 c _ hstep ih => exact ih.step hstep

/-- In a reachable state every completion entry waiting in the output of a unit indexes
the RST and the reservation-station set within their bounds. -/
theorem Reachable.outputsInBounds {R : ReorderBufferOps ρ} {sb : Scoreboard ρ}
    (h : Reachable R sb) : outputsInBounds sb := by
  have hc := h.consistent
  intro fu hfu g hg
  obtain ⟨e, h1, h2, _, h4, _⟩ := hc.inflight fu hfu g (List.mem_append_right _ hg)
  rw [ReservationStation.entry_eq_some] at h1
  have hmem := List.getElem?_mem h1.2
  have h5 := hc.robs e hmem h2
  rw [h4] at h5
  exact ⟨h5, h1.1, (List.getElem?_eq_some_iff.mp h1.2).1⟩

/-! ### C2: no self-dependency -/

/-- In a consistent state the wait an admitted `issue` computes for a register is never the
slot that the instruction itself is about to be pushed into. -/
theorem resolve_ne_freeSlot {sb : Scoreboard ρ} (hc : Consistent sb) {reg s : Nat} {w : Int}
    (hw : resolve sb reg = some w) (hs : sb.RS_.freeSlot = some s) : w ≠ (s : Int) := by
  obtain ⟨e0, he0, hv0⟩ := ReservationStation.freeSlot_spec hs
  obtain ⟨r, _, h1, h2⟩ := resolve_spec hw
  intro heq
  by_cases hr : r = -1
  · have := h1 hr
    omega
  · have h3 := h2 hr
    unfold vecGet at h3
    split at h3
    · obtain ⟨e, h4, h5, _⟩ := hc.rst r.toNat w h3 (by omega)
      rw [heq, ReservationStation.entry_natCast, he0] at h4
      cases h4
      rw [hv0] at h5
      cases h5
    · cases h3

/-- C2 (no self-dependency).  For every admitted `issue` of an instruction that writes a
destination register `rd`, with `s` the slot returned by `push`: when `rs1 = rd`
(respectively `rs2 = rd`), the wait stored for that source in the new reservation-station
entry is the value resolved from the RAT and RST of the state before the call
(`RST[RAT[rd]]`, or `-1`), although after the call `RAT[rd]` is the instruction's own
producer slot and the RST maps that producer slot to `s`; and in every state reachable from
a freshly constructed scoreboard that wait is not `s`, the slot allocated to the
instruction itself. -/
theorem issue_no_self_dependency (R : ReorderBufferOps ρ) (sb sb1 : Scoreboard ρ)
    (trace : pipeline_trace_t)
    (h : issue R sb trace = some (true, sb1)) (hwb : trace.wb = true) :
    ∃ (s : Nat) (e : entry_t),
      sb.RS_.freeSlot = some s ∧ sb1.RS_.entry (s : Int) = some e ∧ e.trace = trace ∧
      sb1.RAT_.get trace.rd = some (R.allocate sb.ROB_.state trace).1 ∧
      vecGet sb1.RST_ (R.allocate sb.ROB_.state trace).1 = some (s : Int) ∧
      (trace.rs1 = trace.rd →
        resolve sb trace.rd = some e.rs1_index ∧
        (Reachable R sb → e.rs1_index ≠ (s : Int))) ∧
      (trace.rs2 = trace.rd →
        resolve sb trace.rd = some e.rs2_index ∧
        (Reachable R sb → e.rs2_index ≠ (s : Int))) := by
  obtain ⟨w1, w2, RAT, s, RST, hw1, hw2, hRAT, hs, hRST, rfl⟩ := issue_admitted h
  have hlt := ReservationStation.freeSlot_lt hs
  rw [if_pos hwb] at hRAT
  refine ⟨s, ⟨true, false, (R.allocate sb.ROB_.state trace).1, w1, w2, trace⟩, hs, ?_, rfl,
    RegisterAliasTable.get_of_set hRAT, vecGet_of_vecSet hRST, ?_, ?_⟩
  · simp [ReservationStation.entry, hlt]
  · intro heq
    rw [← heq]
    exact ⟨hw1, fun hreach => resolve_ne_freeSlot hreach.consistent hw1 hs⟩
  · intro heq
    rw [← heq]
    exact ⟨hw2, fun hreach => resolve_ne_freeSlot hreach.consistent hw2 hs⟩

/-- The state `sbA` is reachable: it is the state after `A` has been issued into the
freshly constructed scoreboard `sbEmpty`. -/
theorem sbA_reachable : Reachable Ring.ops sbA :=
  Reachable.step sbEmpty sbA (Call.issue instrA) (Reachable.init 4 2 2 2 (Ring.mk 2 0 []))
    (by decide)

/-- Witness for C2: in the reachable state `sbA`, where `A` is the producer of register 1,
`S`, which reads and writes register 1, is admitted. -/
theorem issue_no_self_dependency_witness :
    (issue Ring.ops sbA instrS = some (true, sbAS) ∧ instrS.wb = true ∧
      Reachable Ring.ops sbA) ∧
    ∃ (s : Nat) (e : entry_t),
      sbA.RS_.freeSlot = some s ∧ sbAS.RS_.entry (s : Int) = some e ∧ e.trace = instrS ∧
      sbAS.RAT_.get instrS.rd = some (Ring.ops.allocate sbA.ROB_.state instrS).1 ∧
      vecGet sbAS.RST_ (Ring.ops.allocate sbA.ROB_.state instrS).1 = some (s : Int) ∧
      (instrS.rs1 = instrS.rd →
        resolve sbA instrS.rd = some e.rs1_index ∧
        (Reachable Ring.ops sbA → e.rs1_index ≠ (s : Int))) ∧
      (instrS.rs2 = instrS.rd →
        resolve sbA instrS.rd = some e.rs2_index ∧
        (Reachable Ring.ops sbA → e.rs2_index ≠ (s : Int))) :=
  ⟨⟨by decide, by decide, sbA_reachable⟩,
    issue_no_self_dependency Ring.ops sbA sbAS instrS (by decide) (by decide)⟩

/-- The call of the witness for C2 evaluated: the entry of `S` in slot 1 waits on slot 0. -/
theorem issue_self_reader_entry :
    sbAS.RS_.entry 1 = some ⟨true, false, 1, 0, 0, instrS⟩ ∧ resolve sbA instrS.rd = some 0 := by
  decide

/-! ### C11: `writeback` with nothing to process -/

/-- C11 (writeback empty result).  `writeback` returns none exactly when the output of
every functional unit is empty at call time, and then the whole state (reservation
stations, RST, RAT, the `Completed` channel and every unit queue) is unchanged. -/
theorem writeback_none_iff (sb sb1 : Scoreboard ρ) :
    writeback sb = some (none, sb1) ↔ ((∀ fu ∈ sb.FUs_, fu.Output = []) ∧ sb1 = sb) := by
  cases hout : firstOutput 0 sb.FUs_ with
  | none =>
    have hall := (firstOutput_eq_none sb.FUs_ 0).mp hout
    simp only [writeback, hout, Option.some.injEq, Prod.mk.injEq, true_and]
    exact ⟨fun h => ⟨hall, h.symm⟩, fun h => h.2.symm⟩
  | some kf =>
    obtain ⟨k, f⟩ := kf
    constructor
    · intro h
      have := (writeback_some hout h).1
      cases this
    · rintro ⟨hall, _⟩
      have := (firstOutput_eq_none sb.FUs_ 0).mpr hall
      rw [hout] at this
      cases this

/-! ### C12: who writes the RAT -/

/-- C12 (RAT frame).  `execute`, `writeback` and `commit` leave the RAT as it is.  An
`issue` that is rejected, or that admits an instruction writing no register, leaves the RAT
as it is; an admitted `issue` of an instruction that writes a register overwrites the entry
of the destination register `rd` with the allocated producer slot and no other entry.  No
other event of a run (a unit completing an entry, a move of the reorder buffer) touches the
RAT: an event that changes it is an admitted issue of an instruction that writes a
register. -/
theorem rat_frame (R : ReorderBufferOps ρ) (sb sb1 : Scoreboard ρ) :
    (∀ traces, execute sb = some (traces, sb1) → sb1.RAT_ = sb.RAT_) ∧
    (∀ r, writeback sb = some (r, sb1) → sb1.RAT_ = sb.RAT_) ∧
    (commit sb).2.RAT_ = sb.RAT_ ∧
    (∀ trace b, issue R sb trace = some (b, sb1) →
      ((b = false ∨ trace.wb = false) → sb1.RAT_ = sb.RAT_) ∧
      (b = true → trace.wb = true →
        trace.rd < sb.RAT_.store.length ∧
        sb1.RAT_.store = sb.RAT_.store.set trace.rd (R.allocate sb.ROB_.state trace).1 ∧
        ∀ reg, reg ≠ trace.rd → sb1.RAT_.get reg = sb.RAT_.get reg)) ∧
    (∀ c : Call ρ, step R sb c = some sb1 → sb1.RAT_ ≠ sb.RAT_ →
      ∃ trace, c = Call.issue trace ∧ issue R sb trace = some (true, sb1) ∧
        trace.wb = true) := by
  have hissue : ∀ trace b, issue R sb trace = some (b, sb1) →
      ((b = false ∨ trace.wb = false) → sb1.RAT_ = sb.RAT_) ∧
      (b = true → trace.wb = true →
        trace.rd < sb.RAT_.store.length ∧
        sb1.RAT_.store = sb.RAT_.store.set trace.rd (R.allocate sb.ROB_.state trace).1 ∧
        ∀ reg, reg ≠ trace.rd → sb1.RAT_.get reg = sb.RAT_.get reg) := by
    intro trace b h
    cases b with
    | false =>
      have := issue_rejected_state h
      subst this
      exact ⟨fun _ => rfl, fun hb => by cases hb⟩
    | true =>
      obtain ⟨w1, w2, RAT, s, RST, _, _, hRAT, _, _, rfl⟩ := issue_admitted h
      constructor
      · rintro (hb | hwb)
        · cases hb
        · rw [hwb] at hRAT
          simpa using hRAT.symm
      · intro _ hwb
        rw [if_pos hwb] at hRAT
        have hne := RegisterAliasTable.get_of_set_ne hRAT
        unfold RegisterAliasTable.set at hRAT
        split at hRAT
        · next hlt =>
          cases hRAT
          exact ⟨hlt, rfl, hne⟩
        · cases hRAT
  have hexec : ∀ traces, execute sb = some (traces, sb1) → sb1.RAT_ = sb.RAT_ :=
    fun traces h => (execute_eq_some h).2.2.1
  have hwb : ∀ r, writeback sb = some (r, sb1) → sb1.RAT_ = sb.RAT_ := by
    intro r h
    cases hout : firstOutput 0 sb.FUs_ with
    | none =>
      simp only [writeback, hout, Option.some.injEq, Prod.mk.injEq] at h
      rw [← h.2]
    | some kf =>
      obtain ⟨k, f⟩ := kf
      obtain ⟨_, RST, RS, _, _, rfl⟩ := writeback_some hout h
      rfl
  refine ⟨hexec, hwb, (commit_frame sb).1, hissue, ?_⟩
  intro c hstep hne
  cases c with
  | issue trace =>
    rcases step_issue_cases hstep with ⟨_, rfl⟩ | hadm
    · exact absurd rfl hne
    · refine ⟨trace, rfl, hadm, ?_⟩
      cases hw : trace.wb with
      | true => rfl
      | false => exact absurd ((hissue trace true hadm).1 (Or.inr hw)) hne
  | execute =>
    simp only [step, Option.map_eq_some', Prod.exists, exists_eq_right] at hstep
    obtain ⟨ts, hex⟩ := hstep
    exact absurd (hexec ts hex) hne
  | writeback =>
    simp only [step, Option.map_eq_some', Prod.exists, exists_eq_right] at hstep
    obtain ⟨r, h⟩ := hstep
    exact absurd (hwb r h) hne
  | commit =>
    simp only [step, Option.some.injEq] at hstep
    subst hstep
    exact absurd (commit_frame sb).1 hne
  | complete k n =>
    simp only [step, Option.map_eq_some'] at hstep
    obtain ⟨FUs, _, rfl⟩ := hstep
    exact absurd rfl hne
  | sequencer move =>
    simp only [step, Option.some.injEq] at hstep
    subst hstep
    exact absurd rfl hne

/-! ### C15: `commit` -/

/-- C15 (commit).  `commit` returns the head of the reorder buffer's `Committed` queue when
there is one and none otherwise; afterwards the queue is its former tail (the head, and
only the head, has been removed; an empty queue stays empty and the whole state is
unchanged); the rest of the reorder buffer, the RAT, the reservation stations, the RST and
the units are unchanged. -/
theorem commit_pops_head (sb : Scoreboard ρ) :
    (commit sb).1 = sb.ROB_.Committed.head? ∧
    (commit sb).2.ROB_.Committed = sb.ROB_.Committed.tail ∧
    (∀ trace rest, sb.ROB_.Committed = trace :: rest →
      (commit sb).1 = some trace ∧ (commit sb).2.ROB_.Committed = rest) ∧
    (sb.ROB_.Committed = [] → (commit sb).1 = none ∧ (commit sb).2 = sb) ∧
    (commit sb).2.ROB_.state = sb.ROB_.state ∧
    (commit sb).2.ROB_.Completed = sb.ROB_.Completed ∧
    (commit sb).2.RAT_ = sb.RAT_ ∧ (commit sb).2.RS_ = sb.RS_ ∧
    (commit sb).2.RST_ = sb.RST_ ∧ (commit sb).2.FUs_ = sb.FUs_ := by
  unfold commit
  cases hC : sb.ROB_.Committed with
  | nil => simp [hC]
  | cons trace rest => simp [hC]

/-! ### C17: which completion `writeback` takes -/

/-- The scan of `writeback` stops at the first unit, in list order, whose output is not
empty. -/
theorem firstOutput_of_first : ∀ (FUs : List FunctionalUnit) (i k : Nat)
    (fu : FunctionalUnit) (f : fu_entry_t) (rest : List fu_entry_t),
    FUs[k]? = some fu → fu.Output = f :: rest →
    (∀ j fj, j < k → FUs[j]? = some fj → fj.Output = []) →
    firstOutput i FUs = some (i + k, f)
  | [], i, k, fu, f, rest, hk, _, _ => by simp at hk
  | fu0 :: FUs, i, 0, fu, f, rest, hk, hO, _ => by
    simp only [List.getElem?_cons_zero, Option.some.injEq] at hk
    subst hk
    simp [firstOutput, hO]
  | fu0 :: FUs, i, k + 1, fu, f, rest, hk, hO, hbefore => by
    have h0 : fu0.Output = [] := hbefore 0 fu0 (by omega) (by simp)
    have ih := firstOutput_of_first FUs (i + 1) k fu f rest (by simpa using hk) hO
      (fun j fj hj hfj => hbefore (j + 1) fj (by omega) (by simpa using hfj))
    simp only [firstOutput, h0]
    rw [ih]
    congr 2
    omega

/-- C17 (writeback selection).  Let unit `k` be the first unit in the order of the unit
list whose output is not empty (every unit before it has empty output), with `f` at the
front of its output (and `f`'s indices inside the RST and the reservation-station set).
Then `writeback` processes `f`: it returns `f`'s instruction, clears the RST entry of `f`'s
producer slot, frees `f`'s reservation-station slot and pops `f` from the output of unit
`k`; the queues of every other unit, before or after `k`, are unchanged. -/
theorem writeback_selects_first (sb : Scoreboard ρ) (k : Nat) (fu : FunctionalUnit)
    (f : fu_entry_t) (rest : List fu_entry_t)
    (hk : sb.FUs_[k]? = some fu) (hO : fu.Output = f :: rest)
    (hbefore : ∀ j fj, j < k → sb.FUs_[j]? = some fj → fj.Output = [])
    (hp : 0 ≤ f.rob_index ∧ f.rob_index.toNat < sb.RST_.length)
    (hs : 0 ≤ f.rs_index ∧ f.rs_index.toNat < sb.RS_.size) :
    ∃ sb1, writeback sb = some (some f.trace, sb1) ∧
      vecGet sb1.RST_ f.rob_index = some (-1) ∧
      sb1.ROB_.Completed = sb.ROB_.Completed ++ [f.rob_index] ∧
      (∃ e, sb1.RS_.entry f.rs_index = some e ∧ e.valid = false) ∧
      sb1.FUs_.length = sb.FUs_.length ∧
      sb1.FUs_[k]? = some ⟨fu.Input, rest⟩ ∧
      (∀ j, j ≠ k → sb1.FUs_[j]? = sb.FUs_[j]?) := by
  have hout : firstOutput 0 sb.FUs_ = some (k, f) := by
    have := firstOutput_of_first sb.FUs_ 0 k fu f rest hk hO hbefore
    simpa using this
  obtain ⟨sb1, hwb⟩ := writeback_defined hout hp hs
  obtain ⟨_, _, _, hstore⟩ := writeback_store hout hwb
  obtain ⟨_, RST, RS, hRST, _, hsb⟩ := writeback_some hout hwb
  have hF : sb1.FUs_ = popOutput sb.FUs_ k := by rw [hsb]
  refine ⟨sb1, hwb, ?_, ?_, ?_, ?_, ?_, ?_⟩
  · rw [hsb]
    exact vecGet_of_vecSet hRST
  · rw [hsb]
  · have hlt : f.rs_index.toNat < sb.RS_.store.length := hs.2
    have := hstore f.rs_index.toNat _ (List.getElem?_eq_getElem hlt)
    rw [if_pos rfl] at this
    exact ⟨_, by simpa [ReservationStation.entry, hs.1] using this, rfl⟩
  · rw [hF, popOutput_length]
  · rw [hF, popOutput_getElem?_eq _ hk, hO]
    rfl
  · intro j hj
    rw [hF]
    exact popOutput_getElem?_ne _ hj

/-- Witness for C17: in `sbBoth` unit 0 has no output and unit 1 holds the completion of
`A`. -/
theorem writeback_selects_first_witness :
    (sbBoth.FUs_[1]? = some ⟨[], [⟨instrA, 0, 0⟩]⟩ ∧
      (∀ j fj, j < 1 → sbBoth.FUs_[j]? = some fj → fj.Output = [])) ∧
    ∃ sb1, writeback sbBoth = some (some instrA, sb1) ∧
      vecGet sb1.RST_ 0 = some (-1) ∧
      sb1.ROB_.Completed = sbBoth.ROB_.Completed ++ [0] ∧
      (∃ e, sb1.RS_.entry 0 = some e ∧ e.valid = false) ∧
      sb1.FUs_.length = sbBoth.FUs_.length ∧
      sb1.FUs_[1]? = some ⟨[], []⟩ ∧
      (∀ j, j ≠ 1 → sb1.FUs_[j]? = sbBoth.FUs_[j]?) :=
  have hb : ∀ j fj, j < 1 → sbBoth.FUs_[j]? = some fj → fj.Output = [] := by
    intro j fj hj hfj
    have hj0 : j = 0 := by omega
    subst hj0
    simp only [sbBoth, List.getElem?_cons_zero, Option.some.injEq] at hfj
    rw [← hfj]
  ⟨⟨by decide, hb⟩,
    writeback_selects_first sbBoth 1 ⟨[], [⟨instrA, 0, 0⟩]⟩ ⟨instrA, 0, 0⟩ [] (by decide) rfl hb
      (by decide) (by decide)⟩

/-! ### C18: what the broadcast changes -/

/-- C18 (broadcast precision).  In a `writeback` that processes the completion `f` of
reservation-station slot `s = f.rs_index` (the indices of `f` inside the RST and the
reservation-station set), for the entry `e` of every slot `i` and the entry `e1` of that
slot afterwards:

* if `e` is valid, a wait of `e1` differs from that of `e` exactly when the wait of `e`
  was `s`, and it is then `-1`;
* a wait different from `s` is unchanged;
* for `i ≠ s` the instruction, producer slot, validity flag and running flag are unchanged;
* an invalid entry is not modified at all. -/
theorem writeback_broadcast_precise (sb : Scoreboard ρ) (k : Nat) (f : fu_entry_t)
    (hout : firstOutput 0 sb.FUs_ = some (k, f))
    (hp : 0 ≤ f.rob_index ∧ f.rob_index.toNat < sb.RST_.length)
    (hs : 0 ≤ f.rs_index ∧ f.rs_index.toNat < sb.RS_.size) :
    ∃ sb1, writeback sb = some (some f.trace, sb1) ∧
      sb1.RS_.store.length = sb.RS_.store.length ∧
      ∀ (i : Nat) (e : entry_t), sb.RS_.store[i]? = some e →
        ∃ e1, sb1.RS_.store[i]? = some e1 ∧
          (e.valid = true →
            (e1.rs1_index ≠ e.rs1_index ↔ e.rs1_index = f.rs_index) ∧
            (e1.rs2_index ≠ e.rs2_index ↔ e.rs2_index = f.rs_index) ∧
            (e.rs1_index = f.rs_index → e1.rs1_index = -1) ∧
            (e.rs2_index = f.rs_index → e1.rs2_index = -1)) ∧
          (e.rs1_index ≠ f.rs_index → e1.rs1_index = e.rs1_index) ∧
          (e.rs2_index ≠ f.rs_index → e1.rs2_index = e.rs2_index) ∧
          ((i : Int) ≠ f.rs_index →
            e1.trace = e.trace ∧ e1.rob_index = e.rob_index ∧ e1.valid = e.valid ∧
            e1.running = e.running) ∧
          (e.valid = false → e1 = e) := by
  obtain ⟨sb1, hwb⟩ := writeback_defined hout hp hs
  obtain ⟨h0, _, hlen, hstore⟩ := writeback_store hout hwb
  refine ⟨sb1, hwb, hlen, ?_⟩
  intro i e hi
  have hfr := broadcast_frame f.rs_index e
  have hw : ∀ x : entry_t, x = (broadcast f.rs_index e).freed ∨ x = broadcast f.rs_index e →
      x.rs1_index = (broadcast f.rs_index e).rs1_index ∧
      x.rs2_index = (broadcast f.rs_index e).rs2_index := by
    rintro x (rfl | rfl) <;> exact ⟨rfl, rfl⟩
  have hcase : (if i = f.rs_index.toNat then (broadcast f.rs_index e).freed
      else broadcast f.rs_index e) = (broadcast f.rs_index e).freed ∨
      (if i = f.rs_index.toNat then (broadcast f.rs_index e).freed
      else broadcast f.rs_index e) = broadcast f.rs_index e := by
    by_cases hik : i = f.rs_index.toNat
    · exact Or.inl (if_pos hik)
    · exact Or.inr (if_neg hik)
  obtain ⟨hw1, hw2⟩ := hw _ hcase
  refine ⟨_, hstore i e hi, ?_, ?_, ?_, ?_, ?_⟩
  · intro hv
    obtain ⟨hb1, hb2⟩ := broadcast_waits f.rs_index e hv
    rw [hw1, hw2, hb1, hb2]
    refine ⟨?_, ?_, ?_, ?_⟩
    · by_cases h1 : e.rs1_index = f.rs_index
      · simp only [h1, if_true, iff_true]
        omega
      · simp [h1]
    · by_cases h2 : e.rs2_index = f.rs_index
      · simp only [h2, if_true, iff_true]
        omega
      · simp [h2]
    · intro h1
      simp [h1]
    · intro h2
      simp [h2]
  · intro h1
    rw [hw1]
    unfold broadcast
    split
    · rfl
    · simp [h1]
  · intro h2
    rw [hw2]
    unfold broadcast
    split
    · rfl
    · simp [h2]
  · intro hne
    have hik : i ≠ f.rs_index.toNat := by
      intro heq
      apply hne
      omega
    rw [if_neg hik]
    exact ⟨hfr.2.2.2, hfr.2.2.1, hfr.1, hfr.2.1⟩
  · intro hv
    have hbe : broadcast f.rs_index e = e := by
      unfold broadcast
      simp [hv]
    rw [hbe]
    by_cases hik : i = f.rs_index.toNat
    · rw [if_pos hik]
      cases e
      simp only at hv
      subst hv
      rfl
    · rw [if_neg hik]

/-- Witness for C18: `writeback` in `sbBoth`, where slot 1 waits on slot 0 for both
operands and the completion of slot 0 is pending. -/
theorem writeback_broadcast_precise_witness :
    firstOutput 0 sbBoth.FUs_ = some (1, ⟨instrA, 0, 0⟩) ∧
    ∃ sb1, writeback sbBoth = some (some instrA, sb1) ∧
      sb1.RS_.store.length = sbBoth.RS_.store.length ∧
      ∀ (i : Nat) (e : entry_t), sbBoth.RS_.store[i]? = some e →
        ∃ e1, sb1.RS_.store[i]? = some e1 ∧
          (e.valid = true →
            (e1.rs1_index ≠ e.rs1_index ↔ e.rs1_index = 0) ∧
            (e1.rs2_index ≠ e.rs2_index ↔ e.rs2_index = 0) ∧
            (e.rs1_index = 0 → e1.rs1_index = -1) ∧
            (e.rs2_index = 0 → e1.rs2_index = -1)) ∧
          (e.rs1_index ≠ 0 → e1.rs1_index = e.rs1_index) ∧
          (e.rs2_index ≠ 0 → e1.rs2_index = e.rs2_index) ∧
          ((i : Int) ≠ 0 →
            e1.trace = e.trace ∧ e1.rob_index = e.rob_index ∧ e1.valid = e.valid ∧
            e1.running = e.running) ∧
          (e.valid = false → e1 = e) :=
  ⟨by decide,
    writeback_broadcast_precise sbBoth 1 ⟨instrA, 0, 0⟩ (by decide) (by decide) (by decide)⟩

/-! ### C14: a running entry is not dispatched again -/

theorem executeLoop_of_none_ready : ∀ (rest : List entry_t) (i : Nat)
    (FUs : List FunctionalUnit), (∀ e ∈ rest, e.ready = false) →
    executeLoop i rest FUs = some (rest, FUs, [])
  | [], i, FUs, _ => rfl
  | e :: rest, i, FUs, h => by
    have he : e.ready = false := h e (List.mem_cons_self _ _)
    have ih := executeLoop_of_none_ready rest (i + 1) FUs
      (fun e1 he1 => h e1 (List.mem_cons_of_mem _ he1))
    rw [executeLoop]
    simp [he, ih]

theorem entry_t.not_ready_of_running (e : entry_t) (h : e.running = true) :
    e.ready = false := by
  simp [entry_t.ready, h]

/-- C14 (no re-dispatch).  For every `execute` call that runs to its end: an entry that is
already running is left as it is, no triple carrying its slot is among the triples
`dispatched u 0 store` appended to the input of any unit `u`, and the returned list is the
instructions of a sublist of entries none of which was running; consequently a second
`execute` right after the first returns the empty list and leaves the state unchanged. -/
theorem execute_no_redispatch (sb sb1 : Scoreboard ρ) (traces : List pipeline_trace_t)
    (h : execute sb = some (traces, sb1)) :
    (∀ (i : Nat) (e : entry_t), sb.RS_.store[i]? = some e → e.running = true →
      sb1.RS_.store[i]? = some e ∧
      ∀ (u : Nat) (g : fu_entry_t), g ∈ dispatched u 0 sb.RS_.store → g.rs_index ≠ (i : Int)) ∧
    (∀ (u : Nat) (fu : FunctionalUnit), sb.FUs_[u]? = some fu →
      sb1.FUs_[u]? = some ⟨fu.Input ++ dispatched u 0 sb.RS_.store, fu.Output⟩) ∧
    (∃ l : List entry_t, l.Sublist sb.RS_.store ∧ (∀ e ∈ l, e.running = false) ∧
      traces = l.map fun e => e.trace) ∧
    execute sb1 = some ([], sb1) := by
  obtain ⟨h1, h2, h3, h4, h5, h6, _, h8⟩ := execute_eq_some h
  refine ⟨?_, h8, ?_, ?_⟩
  · intro i e hi hrun
    have hnr := entry_t.not_ready_of_running e hrun
    constructor
    · rw [h2, List.getElem?_map, hi]
      simp [hnr]
    · intro u g hg hgi
      obtain ⟨j, e1, hj, hr, _, rfl⟩ := (mem_dispatched u g _ 0).mp hg
      have hji : j = i := by
        simp only at hgi
        omega
      subst hji
      rw [hi] at hj
      cases hj
      rw [hnr] at hr
      cases hr
  · refine ⟨sb.RS_.store.filter fun e => e.ready, List.filter_sublist _, ?_, h1⟩
    intro e he
    have hr : e.ready = true := by simpa using (List.mem_filter.mp he).2
    exact ((entry_t.ready_iff e).mp hr).2.1
  · have hnone : ∀ e ∈ sb1.RS_.store, e.ready = false := by
      intro e1 he1
      rw [h2] at he1
      obtain ⟨e, _, rfl⟩ := List.mem_map.mp he1
      by_cases hr : e.ready = true
      · simp only [hr, if_true]
        exact entry_t.not_ready_of_running _ rfl
      · simp [hr]
    have hloop := executeLoop_of_none_ready sb1.RS_.store 0 sb1.FUs_ hnone
    simp only [execute, hloop]

/-- Witness for C14: in `sbIssued` slots 0 and 2 are ready; `execute` dispatches them, and
the theorem then gives that `execute` in the resulting state, where they are running,
dispatches nothing. -/
theorem execute_no_redispatch_witness :
    execute sbIssued = some ([instrA, instrC],
      ⟨sbIssued.RAT_, ⟨[⟨true, true, 0, -1, -1, instrA⟩, ⟨true, false, 1, 0, -1, instrB⟩,
        ⟨true, true, 2, -1, -1, instrC⟩]⟩, sbIssued.RST_, sbIssued.ROB_,
        [⟨[⟨instrA, 0, 0⟩], []⟩, ⟨[⟨instrC, 2, 2⟩], []⟩]⟩) ∧
    execute (⟨sbIssued.RAT_, ⟨[⟨true, true, 0, -1, -1, instrA⟩,
        ⟨true, false, 1, 0, -1, instrB⟩, ⟨true, true, 2, -1, -1, instrC⟩]⟩, sbIssued.RST_,
        sbIssued.ROB_, [⟨[⟨instrA, 0, 0⟩], []⟩, ⟨[⟨instrC, 2, 2⟩], []⟩]⟩ : Scoreboard Ring) =
      some ([], ⟨sbIssued.RAT_, ⟨[⟨true, true, 0, -1, -1, instrA⟩,
        ⟨true, false, 1, 0, -1, instrB⟩, ⟨true, true, 2, -1, -1, instrC⟩]⟩, sbIssued.RST_,
        sbIssued.ROB_, [⟨[⟨instrA, 0, 0⟩], []⟩, ⟨[⟨instrC, 2, 2⟩], []⟩]⟩) :=
  ⟨by decide, (execute_no_redispatch sbIssued _ [instrA, instrC] (by decide)).2.2.2⟩

/-! ### C13: running entries have no pending waits -/

theorem runningClean_init (NUM_REGS num_RSs rob_size numFUs : Nat) (rob : ρ) :
    RunningClean (Scoreboard.init NUM_REGS num_RSs rob_size numFUs rob) := by
  intro e he hv
  simp only [Scoreboard.init] at he
  have := List.eq_of_mem_replicate he
  subst this
  cases hv

theorem runningClean_step {R : ReorderBufferOps ρ} {sb sb1 : Scoreboard ρ} {c : Call ρ}
    (hc : RunningClean sb) (h : step R sb c = some sb1) : RunningClean sb1 := by
  cases c with
  | issue trace =>
    rcases step_issue_cases h with ⟨_, rfl⟩ | hadm
    · exact hc
    · obtain ⟨w1, w2, RAT, s, RST, _, _, _, _, _, rfl⟩ := issue_admitted hadm
      intro e he hv hrun
      rcases List.mem_or_eq_of_mem_set he with h1 | rfl
      · exact hc e h1 hv hrun
      · cases hrun
  | execute =>
    simp only [tinyrv.step, Option.map_eq_some', Prod.exists, exists_eq_right] at h
    obtain ⟨ts, hex⟩ := h
    obtain ⟨_, hstore, _⟩ := execute_eq_some hex
    intro e1 he1 hv hrun
    rw [hstore] at he1
    obtain ⟨e, he, rfl⟩ := List.mem_map.mp he1
    by_cases hr : e.ready = true
    · have := (entry_t.ready_iff e).mp hr
      simp only [hr, if_true, entry_t.started]
      exact ⟨this.2.2.1, this.2.2.2⟩
    · simp only [hr, Bool.false_eq_true, if_false] at hv hrun ⊢
      exact hc e he hv hrun
  | writeback =>
    simp only [tinyrv.step, Option.map_eq_some', Prod.exists, exists_eq_right] at h
    obtain ⟨r, hwb⟩ := h
    cases hout : firstOutput 0 sb.FUs_ with
    | none =>
      simp only [writeback, hout, Option.some.injEq, Prod.mk.injEq] at hwb
      rw [← hwb.2]
      exact hc
    | some kf =>
      obtain ⟨k, f⟩ := kf
      obtain ⟨_, _, hlen, hstore⟩ := writeback_store hout hwb
      intro e1 he1 hv hrun
      obtain ⟨i, hi⟩ := List.mem_iff_getElem?.mp he1
      have hi1 : i < sb.RS_.store.length := by
        rw [← hlen]
        exact (List.getElem?_eq_some_iff.mp hi).1
      have h1 := hstore i _ (List.getElem?_eq_getElem hi1)
      rw [hi] at h1
      have h2 := Option.some.inj h1
      by_cases hik : i = f.rs_index.toNat
      · rw [if_pos hik] at h2
        rw [h2] at hv
        simp [entry_t.freed] at hv
      · rw [if_neg hik] at h2
        have hfr := broadcast_frame f.rs_index (sb.RS_.store[i])
        rw [h2, hfr.1] at hv
        rw [h2, hfr.2.1] at hrun
        obtain ⟨ha, hb⟩ := hc _ (List.getElem_mem hi1) hv hrun
        obtain ⟨hw1, hw2⟩ := broadcast_waits f.rs_index _ hv
        rw [h2, hw1, hw2, ha, hb]
        simp
  | commit =>
    simp only [tinyrv.step, Option.some.injEq] at h
    subst h
    intro e he
    rw [(commit_frame sb).2.1] at he
    exact hc e he
  | complete k n =>
    simp only [tinyrv.step, Option.map_eq_some'] at h
    obtain ⟨FUs, _, rfl⟩ := h
    exact hc
  | sequencer move =>
    simp only [tinyrv.step, Option.some.injEq] at h
    subst h
    exact hc

/-- C13 (running-entry invariant).  In every state reachable from a freshly constructed
scoreboard by stage calls (and moves of the units and of the reorder buffer), every valid
reservation-station entry whose running flag is set has `rs1_index = -1` and
`rs2_index = -1`. -/
theorem running_entries_have_no_waits (R : ReorderBufferOps ρ) (sb : Scoreboard ρ)
    (hreach : Reachable R sb) :
    ∀ (i : Nat) (e : entry_t), sb.RS_.store[i]? = some e → e.valid = true →
      e.running = true → e.rs1_index = -1 ∧ e.rs2_index = -1 := by
  have hclean : RunningClean sb := by
    induction hreach with
    | init NUM_REGS num_RSs rob_size numFUs rob =>
      exact runningClean_init NUM_REGS num_RSs rob_size numFUs rob
    | step sb sb1 c _ hstep ih => exact runningClean_step ih hstep
  intro i e hi hv hrun
  exact hclean e (List.getElem?_mem hi) hv hrun

/-- The state `sbRun` is reachable: issue `A`, issue `B`, `execute`. -/
theorem sbRun_reachable : Reachable Ring.ops sbRun :=
  Reachable.step sbAB sbRun Call.execute
    (Reachable.step sbA sbAB (Call.issue instrB) sbA_reachable (by decide)) (by decide)

/-- Witness for C13: the reachable state `sbRun`, in which `A` is running in slot 0. -/
theorem running_entries_have_no_waits_witness :
    Reachable Ring.ops sbRun ∧
    ∀ (i : Nat) (e : entry_t), sbRun.RS_.store[i]? = some e → e.valid = true →
      e.running = true → e.rs1_index = -1 ∧ e.rs2_index = -1 :=
  ⟨sbRun_reachable, running_entries_have_no_waits Ring.ops sbRun sbRun_reachable⟩

/-! ### C19: no dangling and no self waits -/

theorem waitsLive_init (NUM_REGS num_RSs rob_size numFUs : Nat) (rob : ρ) :
    WaitsLive (Scoreboard.init NUM_REGS num_RSs rob_size numFUs rob) := by
  intro i e hi hv
  simp only [Scoreboard.init] at hi
  have := List.eq_of_mem_replicate (List.getElem?_mem hi)
  subst this
  cases hv

/-- Pushing into a free slot keeps every valid entry where it is. -/
theorem ReservationStation.entry_set_of_valid {rs : ReservationStation} {s : Nat}
    {e0 new : entry_t} (he0 : rs.store[s]? = some e0) (hv0 : e0.valid = false)
    {x : Int} {e : entry_t} (hx : rs.entry x = some e) (hv : e.valid = true) :
    x ≠ (s : Int) ∧ (ReservationStation.mk (rs.store.set s new)).entry x = some e := by
  rw [ReservationStation.entry_eq_some] at hx
  have hne : s ≠ x.toNat := by
    intro heq
    rw [← heq, he0] at hx
    have := Option.some.inj hx.2
    rw [this] at hv0
    rw [hv0] at hv
    cases hv
  refine ⟨fun h => hne (by omega), ?_⟩
  rw [ReservationStation.entry_eq_some]
  exact ⟨hx.1, by rw [List.getElem?_set_ne hne]; exact hx.2⟩

theorem waitsLive_step {R : ReorderBufferOps ρ} {sb sb1 : Scoreboard ρ} {c : Call ρ}
    (hcons : Consistent sb) (hc : WaitsLive sb) (h : step R sb c = some sb1) :
    WaitsLive sb1 := by
  cases c with
  | issue trace =>
    rcases step_issue_cases h with ⟨_, rfl⟩ | hadm
    · exact hc
    · obtain ⟨w1, w2, RAT, s, RST, hw1, hw2, _, hs, _, rfl⟩ := issue_admitted hadm
      obtain ⟨e0, he0, hv0⟩ := ReservationStation.freeSlot_spec hs
      have hlt := ReservationStation.freeSlot_lt hs
      have hold : ∀ (i : Nat) (w : Int), liveWait sb i w → i ≠ s →
          liveWait (⟨RAT, ⟨sb.RS_.store.set s
            ⟨true, false, (R.allocate sb.ROB_.state trace).1, w1, w2, trace⟩⟩, RST,
            ⟨(R.allocate sb.ROB_.state trace).2, sb.ROB_.Completed, sb.ROB_.Committed⟩,
            sb.FUs_⟩ : Scoreboard ρ) i w := by
        intro i w hw _
        rcases hw with hw | ⟨hwi, e, hx, hv⟩
        · exact Or.inl hw
        · exact Or.inr ⟨hwi, e, (ReservationStation.entry_set_of_valid he0 hv0 hx hv).2, hv⟩
      have hnew : ∀ (reg : Nat) (w : Int), resolve sb reg = some w →
          liveWait (⟨RAT, ⟨sb.RS_.store.set s
            ⟨true, false, (R.allocate sb.ROB_.state trace).1, w1, w2, trace⟩⟩, RST,
            ⟨(R.allocate sb.ROB_.state trace).2, sb.ROB_.Completed, sb.ROB_.Committed⟩,
            sb.FUs_⟩ : Scoreboard ρ) s w := by
        intro reg w hw
        by_cases hw1 : w = -1
        · exact Or.inl hw1
        · obtain ⟨r, _, h1, h2⟩ := resolve_spec hw
          have hr : r ≠ -1 := fun hr => hw1 (h1 hr)
          have h3 := h2 hr
          unfold vecGet at h3
          split at h3
          · obtain ⟨e, hx, hv, _⟩ := hcons.rst r.toNat w h3 hw1
            obtain ⟨hne, hx1⟩ := ReservationStation.entry_set_of_valid he0 hv0 hx hv
            exact Or.inr ⟨hne, e, hx1, hv⟩
          · cases h3
      intro i e hi hv
      by_cases his : i = s
      · subst his
        simp only [List.getElem?_set_self hlt, Option.some.injEq] at hi
        subst hi
        exact ⟨hnew _ _ hw1, hnew _ _ hw2⟩
      · simp only [List.getElem?_set_ne (Ne.symm his)] at hi
        obtain ⟨ha, hb⟩ := hc i e hi hv
        exact ⟨hold i _ ha his, hold i _ hb his⟩
  | execute =>
    simp only [tinyrv.step, Option.map_eq_some', Prod.exists, exists_eq_right] at h
    obtain ⟨ts, hex⟩ := h
    obtain ⟨_, hstore, _⟩ := execute_eq_some hex
    have hF : ∀ e : entry_t, (if e.ready then e.started else e).valid = e.valid ∧
        (if e.ready then e.started else e).rs1_index = e.rs1_index ∧
        (if e.ready then e.started else e).rs2_index = e.rs2_index := by
      intro e
      by_cases hr : e.ready = true
      · simp [hr, entry_t.started]
      · simp [hr]
    have hlive : ∀ (i : Nat) (w : Int), liveWait sb i w → liveWait sb1 i w := by
      intro i w hw
      rcases hw with hw | ⟨hwi, e, hx, hv⟩
      · exact Or.inl hw
      · refine Or.inr ⟨hwi, (if e.ready then e.started else e), ?_, ?_⟩
        · rw [ReservationStation.entry_eq_some] at hx ⊢
          refine ⟨hx.1, ?_⟩
          rw [hstore, List.getElem?_map, hx.2]
          rfl
        · rw [(hF e).1]
          exact hv
    intro i e1 hi hv
    rw [hstore, List.getElem?_map] at hi
    simp only [Option.map_eq_some'] at hi
    obtain ⟨e, he, rfl⟩ := hi
    rw [(hF e).1] at hv
    rw [(hF e).2.1, (hF e).2.2]
    obtain ⟨ha, hb⟩ := hc i e he hv
    exact ⟨hlive i _ ha, hlive i _ hb⟩
  | writeback =>
    simp only [tinyrv.step, Option.map_eq_some', Prod.exists, exists_eq_right] at h
    obtain ⟨r, hwb⟩ := h
    cases hout : firstOutput 0 sb.FUs_ with
    | none =>
      simp only [writeback, hout, Option.some.injEq, Prod.mk.injEq] at hwb
      rw [← hwb.2]
      exact hc
    | some kf =>
      obtain ⟨k, f⟩ := kf
      obtain ⟨h0, _, hlen, hstore⟩ := writeback_store hout hwb
      have hlive : ∀ (i : Nat) (w : Int), liveWait sb i w → w ≠ f.rs_index →
          liveWait sb1 i w := by
        intro i w hw hne
        rcases hw with hw | ⟨hwi, e, hx, hv⟩
        · exact Or.inl hw
        · refine Or.inr ⟨hwi, broadcast f.rs_index e, ?_, ?_⟩
          · rw [ReservationStation.entry_eq_some] at hx ⊢
            refine ⟨hx.1, ?_⟩
            have hne1 : w.toNat ≠ f.rs_index.toNat := by
              have := hx.1
              omega
            rw [hstore w.toNat e hx.2, if_neg hne1]
          · rw [(broadcast_frame f.rs_index e).1]
            exact hv
      intro i e1 hi hv
      have hi1 : i < sb.RS_.store.length := by
        rw [← hlen]
        exact (List.getElem?_eq_some_iff.mp hi).1
      have h1 := hstore i _ (List.getElem?_eq_getElem hi1)
      rw [hi] at h1
      have h2 := Option.some.inj h1
      by_cases hik : i = f.rs_index.toNat
      · rw [if_pos hik] at h2
        rw [h2] at hv
        simp [entry_t.freed] at hv
      · rw [if_neg hik] at h2
        have hfr := broadcast_frame f.rs_index (sb.RS_.store[i])
        rw [h2, hfr.1] at hv
        obtain ⟨ha, hb⟩ := hc i _ (List.getElem?_eq_getElem hi1) hv
        obtain ⟨hw1, hw2⟩ := broadcast_waits f.rs_index _ hv
        rw [h2, hw1, hw2]
        constructor
        · by_cases hs1 : (sb.RS_.store[i]).rs1_index = f.rs_index
          · rw [if_pos hs1]
            exact Or.inl rfl
          · rw [if_neg hs1]
            exact hlive i _ ha hs1
        · by_cases hs2 : (sb.RS_.store[i]).rs2_index = f.rs_index
          · rw [if_pos hs2]
            exact Or.inl rfl
          · rw [if_neg hs2]
            exact hlive i _ hb hs2
  | commit =>
    simp only [tinyrv.step, Option.some.injEq] at h
    subst h
    have hRS := (commit_frame sb).2.1
    intro i e hi hv
    rw [hRS] at hi
    obtain ⟨ha, hb⟩ := hc i e hi hv
    unfold liveWait at ha hb ⊢
    rw [hRS]
    exact ⟨ha, hb⟩
  | complete k n =>
    simp only [tinyrv.step, Option.map_eq_some'] at h
    obtain ⟨FUs, _, rfl⟩ := h
    exact hc
  | sequencer move =>
    simp only [tinyrv.step, Option.some.injEq] at h
    subst h
    exact hc

/-- C19 (no dangling or self waits).  In every state reachable from a freshly constructed
scoreboard, where functional units hand completion entries on unchanged: each RST entry
that is not `-1` names a valid reservation-station entry whose producer slot is the index
of that RST entry, and each wait of each valid reservation-station entry is `-1` or the
index of a valid entry in another slot.  No assumption on the producer slots handed out by
the reorder buffer is needed. -/
theorem rst_and_waits_live (R : ReorderBufferOps ρ) (sb : Scoreboard ρ)
    (hreach : Reachable R sb) :
    (∀ (q : Nat) (s : Int), sb.RST_[q]? = some s → s ≠ -1 →
      ∃ e, sb.RS_.entry s = some e ∧ e.valid = true ∧ e.rob_index = (q : Int)) ∧
    (∀ (i : Nat) (e : entry_t), sb.RS_.store[i]? = some e → e.valid = true →
      (e.rs1_index = -1 ∨ (e.rs1_index ≠ (i : Int) ∧
        ∃ e1, sb.RS_.entry e.rs1_index = some e1 ∧ e1.valid = true)) ∧
      (e.rs2_index = -1 ∨ (e.rs2_index ≠ (i : Int) ∧
        ∃ e2, sb.RS_.entry e.rs2_index = some e2 ∧ e2.valid = true))) := by
  have hboth : Consistent sb ∧ WaitsLive sb := by
    induction hreach with
    | init NUM_REGS num_RSs rob_size numFUs rob =>
      exact ⟨Consistent.init NUM_REGS num_RSs rob_size numFUs rob,
        waitsLive_init NUM_REGS num_RSs rob_size numFUs rob⟩
    | step sb sb1 c _ hstep ih => exact ⟨ih.1.step hstep, waitsLive_step ih.1 ih.2 hstep⟩
  exact ⟨hboth.1.rst, hboth.2⟩

/-- The state `sbAB` is reachable: issue `A`, issue `B`. -/
theorem sbAB_reachable : Reachable Ring.ops sbAB :=
  Reachable.step sbA sbAB (Call.issue instrB) sbA_reachable (by decide)

/-- Witness for C19: the reachable state `sbAB`, in which `B` in slot 1 waits for slot 0
and the RST maps producer slots 0 and 1 to slots 0 and 1. -/
theorem rst_and_waits_live_witness :
    Reachable Ring.ops sbAB ∧
    (∀ (q : Nat) (s : Int), sbAB.RST_[q]? = some s → s ≠ -1 →
      ∃ e, sbAB.RS_.entry s = some e ∧ e.valid = true ∧ e.rob_index = (q : Int)) ∧
    (∀ (i : Nat) (e : entry_t), sbAB.RS_.store[i]? = some e → e.valid = true →
      (e.rs1_index = -1 ∨ (e.rs1_index ≠ (i : Int) ∧
        ∃ e1, sbAB.RS_.entry e.rs1_index = some e1 ∧ e1.valid = true)) ∧
      (e.rs2_index = -1 ∨ (e.rs2_index ≠ (i : Int) ∧
        ∃ e2, sbAB.RS_.entry e.rs2_index = some e2 ∧ e2.valid = true))) :=
  ⟨sbAB_reachable, rst_and_waits_live Ring.ops sbAB sbAB_reachable⟩

/-! ### C20: the RST is indexed within its bounds -/

theorem sizedFor_init (NUM_REGS num_RSs rob_size numFUs : Nat) (rob : ρ) :
    SizedFor rob_size (Scoreboard.init NUM_REGS num_RSs rob_size numFUs rob) := by
  refine ⟨by simp [Scoreboard.init], ?_⟩
  intro r hr
  simp only [Scoreboard.init] at hr
  exact Or.inl (List.eq_of_mem_replicate hr)

theorem sizedFor_step {R : ReorderBufferOps ρ} {sb sb1 : Scoreboard ρ} {c : Call ρ}
    {rob_size : Nat} (hc : SizedFor rob_size sb) (h : step R sb c = some sb1) :
    SizedFor rob_size sb1 := by
  cases c with
  | issue trace =>
    rcases step_issue_cases h with ⟨_, rfl⟩ | hadm
    · exact hc
    · obtain ⟨w1, w2, RAT, s, RST, _, _, hRAT, _, hRST, rfl⟩ := issue_admitted hadm
      obtain ⟨hp0, hplt, _⟩ := vecSet_bounds hRST
      refine ⟨by rw [← hc.size]; exact length_of_vecSet hRST, ?_⟩
      intro r hr
      by_cases hwb : trace.wb = true
      · rw [if_pos hwb] at hRAT
        unfold RegisterAliasTable.set at hRAT
        split at hRAT
        · cases hRAT
          rcases List.mem_or_eq_of_mem_set hr with h1 | rfl
          · exact hc.rat r h1
          · exact Or.inr ⟨hp0, by rw [← hc.size]; exact hplt⟩
        · cases hRAT
      · rw [if_neg hwb] at hRAT
        cases hRAT
        exact hc.rat r hr
  | execute =>
    simp only [tinyrv.step, Option.map_eq_some', Prod.exists, exists_eq_right] at h
    obtain ⟨ts, hex⟩ := h
    obtain ⟨_, _, h3, h4, _⟩ := execute_eq_some hex
    exact ⟨by rw [h4]; exact hc.size, by rw [h3]; exact hc.rat⟩
  | writeback =>
    simp only [tinyrv.step, Option.map_eq_some', Prod.exists, exists_eq_right] at h
    obtain ⟨r, hwb⟩ := h
    cases hout : firstOutput 0 sb.FUs_ with
    | none =>
      simp only [writeback, hout, Option.some.injEq, Prod.mk.injEq] at hwb
      rw [← hwb.2]
      exact hc
    | some kf =>
      obtain ⟨k, f⟩ := kf
      obtain ⟨_, RST, RS, hRST, _, rfl⟩ := writeback_some hout hwb
      exact ⟨by rw [← hc.size]; exact length_of_vecSet hRST, hc.rat⟩
  | commit =>
    simp only [tinyrv.step, Option.some.injEq] at h
    subst h
    obtain ⟨h1, _, h3, _⟩ := commit_frame sb
    exact ⟨by rw [h3]; exact hc.size, by rw [h1]; exact hc.rat⟩
  | complete k n =>
    simp only [tinyrv.step, Option.map_eq_some'] at h
    obtain ⟨FUs, _, rfl⟩ := h
    exact ⟨hc.size, hc.rat⟩
  | sequencer move =>
    simp only [tinyrv.step, Option.some.injEq] at h
    subst h
    exact ⟨hc.size, hc.rat⟩

theorem sizedFor_run {R : ReorderBufferOps ρ} {rob_size : Nat} :
    ∀ (cs : List (Call ρ)) (sb sb1 : Scoreboard ρ), SizedFor rob_size sb →
      tinyrv.run R sb cs = some sb1 → SizedFor rob_size sb1
  | [], sb, sb1, hc, h => by
    simp only [tinyrv.run, Option.some.injEq] at h
    subst h
    exact hc
  | c :: cs, sb, sb1, hc, h => by
    cases hstep : tinyrv.step R sb c with
    | none => simp [tinyrv.run, hstep] at h
    | some sb2 =>
      simp only [tinyrv.run, hstep] at h
      exact sizedFor_run cs sb2 sb1 (sizedFor_step hc hstep) h

theorem Reachable.of_run {R : ReorderBufferOps ρ} :
    ∀ (cs : List (Call ρ)) (sb sb1 : Scoreboard ρ), Reachable R sb →
      tinyrv.run R sb cs = some sb1 → Reachable R sb1
  | [], sb, sb1, hc, h => by
    simp only [tinyrv.run, Option.some.injEq] at h
    subst h
    exact hc
  | c :: cs, sb, sb1, hc, h => by
    cases hstep : tinyrv.step R sb c with
    | none => simp [tinyrv.run, hstep] at h
    | some sb2 =>
      simp only [tinyrv.run, hstep] at h
      exact Reachable.of_run cs sb2 sb1 (Reachable.step sb sb2 c hc hstep) h

/-- The RST reads of `issue` for a register of the RAT stay inside the RST. -/
theorem resolve_defined {sb : Scoreboard ρ} {rob_size : Nat} (hc : SizedFor rob_size sb)
    {reg : Nat} (hreg : reg < sb.RAT_.store.length) :
    ∃ r w, sb.RAT_.get reg = some r ∧ resolve sb reg = some w ∧
      (r ≠ -1 → vecGet sb.RST_ r = some w) := by
  have hget : sb.RAT_.get reg = some (sb.RAT_.store[reg]) := by
    simp [RegisterAliasTable.get, List.getElem?_eq_getElem hreg]
  rcases hc.rat _ (List.getElem_mem hreg) with hr | ⟨h0, hlt⟩
  · refine ⟨_, -1, hget, ?_, fun h => absurd hr h⟩
    simp [resolve, hget, hr]
  · have hlt1 : (sb.RAT_.store[reg]).toNat < sb.RST_.length := by
      rw [hc.size]
      exact hlt
    have hne : sb.RAT_.store[reg] ≠ -1 := by omega
    have hv : vecGet sb.RST_ (sb.RAT_.store[reg]) =
        some (sb.RST_[(sb.RAT_.store[reg]).toNat]) := by
      simp [vecGet, h0, List.getElem?_eq_getElem hlt1]
    refine ⟨_, _, hget, ?_, fun _ => hv⟩
    simp [resolve, hget, hne, hv]

/-- An `issue` that passes the structural-hazard check runs to its end when its registers
index the RAT and the allocated producer slot indexes the RST. -/
theorem issue_defined {R : ReorderBufferOps ρ} {sb : Scoreboard ρ} {rob_size : Nat}
    (hc : SizedFor rob_size sb) (trace : pipeline_trace_t)
    (h1 : trace.rs1 < sb.RAT_.store.length) (h2 : trace.rs2 < sb.RAT_.store.length)
    (hd : trace.wb = true → trace.rd < sb.RAT_.store.length)
    (hfull : sb.RS_.is_full = false) (hrob : R.is_full sb.ROB_.state = false)
    (hp0 : 0 ≤ (R.allocate sb.ROB_.state trace).1)
    (hp1 : (R.allocate sb.ROB_.state trace).1.toNat < rob_size) :
    ∃ sb1, issue R sb trace = some (true, sb1) := by
  obtain ⟨_, w1, _, hw1, _⟩ := resolve_defined hc h1
  obtain ⟨_, w2, _, hw2, _⟩ := resolve_defined hc h2
  obtain ⟨s, hs⟩ := firstFree_isSome sb.RS_.store 0 hfull
  have hs1 : sb.RS_.freeSlot = some s := hs
  have hRST := vecSet_isSome (s : Int) hp0 (by rw [hc.size]; exact hp1)
  unfold issue
  simp only [hfull, hrob, Bool.or_self, Bool.false_eq_true, if_false, Option.bind_eq_bind,
    hw1, hw2, Option.some_bind, ReservationStation.push, hs1, hRST]
  by_cases hwb : trace.wb = true
  · simp [hwb, RegisterAliasTable.set, hd hwb]
  · simp [hwb]

/-- C20 (RST index safety).  Let `sb` be reached from a scoreboard constructed with an RST
of `rob_size` entries by a run whose calls all ran to their end (so every producer slot
handed out so far indexed the RST).  Then the RST still has `rob_size` entries; every RAT
entry is `-1` or in `[0, rob_size)`; for every register of the RAT the reads of `issue`
(`RAT[reg]`, then `RST[RAT[reg]]`) are inside their vectors; an `issue` that is not
rejected and is given a producer slot in `[0, rob_size)` runs to its end, its RST write
included; and `writeback` runs to its end, its RST write included. -/
theorem rst_index_safety (R : ReorderBufferOps ρ) (NUM_REGS num_RSs rob_size numFUs : Nat)
    (rob : ρ) (cs : List (Call ρ)) (sb : Scoreboard ρ)
    (hrun : run R (Scoreboard.init NUM_REGS num_RSs rob_size numFUs rob) cs = some sb) :
    sb.RST_.length = rob_size ∧
    (∀ (reg : Nat) (r : Int), sb.RAT_.get reg = some r →
      r = -1 ∨ (0 ≤ r ∧ r < (rob_size : Int))) ∧
    (∀ reg, reg < sb.RAT_.store.length →
      ∃ r w, sb.RAT_.get reg = some r ∧ resolve sb reg = some w ∧
        (r ≠ -1 → vecGet sb.RST_ r = some w)) ∧
    (∀ trace : pipeline_trace_t,
      trace.rs1 < sb.RAT_.store.length → trace.rs2 < sb.RAT_.store.length →
      (trace.wb = true → trace.rd < sb.RAT_.store.length) →
      sb.RS_.is_full = false → R.is_full sb.ROB_.state = false →
      0 ≤ (R.allocate sb.ROB_.state trace).1 →
      (R.allocate sb.ROB_.state trace).1 < (rob_size : Int) →
      ∃ sb1, issue R sb trace = some (true, sb1) ∧
        vecGet sb1.RST_ (R.allocate sb.ROB_.state trace).1 ≠ none) ∧
    (∃ r sb1, writeback sb = some (r, sb1)) := by
  have hsized : SizedFor rob_size sb :=
    sizedFor_run cs _ sb (sizedFor_init NUM_REGS num_RSs rob_size numFUs rob) hrun
  have hreach : Reachable R sb :=
    Reachable.of_run cs _ sb (Reachable.init NUM_REGS num_RSs rob_size numFUs rob) hrun
  refine ⟨hsized.size, ?_, fun reg hreg => resolve_defined hsized hreg, ?_, ?_⟩
  · intro reg r hr
    rcases hsized.rat r (List.getElem?_mem hr) with h | ⟨h0, h1⟩
    · exact Or.inl h
    · exact Or.inr ⟨h0, by omega⟩
  · intro trace h1 h2 hd hfull hrob hp0 hp1
    obtain ⟨sb1, hsb1⟩ := issue_defined hsized trace h1 h2 hd hfull hrob hp0 (by omega)
    refine ⟨sb1, hsb1, ?_⟩
    obtain ⟨_, _, _, _, RST, _, _, _, _, hRST, rfl⟩ := issue_admitted hsb1
    rw [vecGet_of_vecSet hRST]
    simp
  · cases hout : firstOutput 0 sb.FUs_ with
    | none => exact ⟨none, sb, by simp [writeback, hout]⟩
    | some kf =>
      obtain ⟨k, f⟩ := kf
      obtain ⟨⟨fuk, hk, restk, hOk⟩, _⟩ := firstOutput_zero hout
      have hb := hreach.outputsInBounds fuk (List.getElem?_mem hk) f
        (by rw [hOk]; exact List.mem_cons_self _ _)
      obtain ⟨sb1, hwb⟩ := writeback_defined hout hb.1 hb.2
      exact ⟨_, sb1, hwb⟩

/-- Witness for C20: `sbAB` is the state after issuing `A` and `B` into the freshly
constructed scoreboard with an RST of 2 entries. -/
theorem rst_index_safety_witness :
    run Ring.ops (Scoreboard.init 4 2 2 2 (Ring.mk 2 0 []))
      [Call.issue instrA, Call.issue instrB] = some sbAB ∧
    sbAB.RST_.length = 2 ∧
    (∀ (reg : Nat) (r : Int), sbAB.RAT_.get reg = some r →
      r = -1 ∨ (0 ≤ r ∧ r < ((2 : Nat) : Int))) ∧
    (∀ reg, reg < sbAB.RAT_.store.length →
      ∃ r w, sbAB.RAT_.get reg = some r ∧ resolve sbAB reg = some w ∧
        (r ≠ -1 → vecGet sbAB.RST_ r = some w)) ∧
    (∀ trace : pipeline_trace_t,
      trace.rs1 < sbAB.RAT_.store.length → trace.rs2 < sbAB.RAT_.store.length →
      (trace.wb = true → trace.rd < sbAB.RAT_.store.length) →
      sbAB.RS_.is_full = false → Ring.ops.is_full sbAB.ROB_.state = false →
      0 ≤ (Ring.ops.allocate sbAB.ROB_.state trace).1 →
      (Ring.ops.allocate sbAB.ROB_.state trace).1 < ((2 : Nat) : Int) →
      ∃ sb1, issue Ring.ops sbAB trace = some (true, sb1) ∧
        vecGet sb1.RST_ (Ring.ops.allocate sbAB.ROB_.state trace).1 ≠ none) ∧
    (∃ r sb1, writeback sbAB = some (r, sb1)) :=
  ⟨by decide,
    rst_index_safety Ring.ops 4 2 2 2 (Ring.mk 2 0 []) [Call.issue instrA, Call.issue instrB]
      sbAB (by decide)⟩

/-! ### C16: retirement in issue order (circular reorder buffer) -/

theorem Ring.pending_tick (rob : ReorderBuffer Ring) :
    Ring.pending (Ring.tick rob) = Ring.pending rob := by
  have hmap : (rob.state.inflight.map fun x =>
      (x.1, x.2.1, x.2.2 || rob.Completed.contains x.2.1)).map (fun x => x.1) =
      rob.state.inflight.map fun x => x.1 := by
    simp [List.map_map]
  unfold Ring.tick Ring.pending
  simp only
  cases hfl : (rob.state.inflight.map fun x =>
      (x.1, x.2.1, x.2.2 || rob.Completed.contains x.2.1)) with
  | nil =>
    rw [hfl] at hmap
    simp only [List.map_nil] at hmap ⊢
    rw [← hmap]
  | cons x rest =>
    rw [hfl] at hmap
    obtain ⟨t, p, b⟩ := x
    cases b with
    | true =>
      simp only [List.map_cons] at hmap
      rw [← hmap]
      simp
    | false =>
      simp only
      rw [hmap]

/-- One event conserves the instructions: what `commit` returns, followed by what the
reorder buffer holds afterwards, is what it held before followed by what `issue`
admitted. -/
theorem step_conserves {sb sb1 : Scoreboard Ring} {c : Call Ring}
    (hc : ∀ move, c = Call.sequencer move → move = Ring.tick)
    (h : step Ring.ops sb c = some sb1) :
    (Call.retired sb c).toList ++ Ring.pending sb1.ROB_ =
      Ring.pending sb.ROB_ ++ (Call.admitted Ring.ops sb c).toList := by
  cases c with
  | issue trace =>
    rcases step_issue_cases h with ⟨hrej, rfl⟩ | hadm
    · simp [Call.retired, Call.admitted, hrej]
    · obtain ⟨w1, w2, RAT, s, RST, _, _, _, _, _, rfl⟩ := issue_admitted hadm
      simp only [Call.retired, Call.admitted, hadm, Option.toList, List.nil_append]
      simp [Ring.pending, Ring.ops]
  | execute =>
    simp only [step, Option.map_eq_some', Prod.exists, exists_eq_right] at h
    obtain ⟨ts, hex⟩ := h
    obtain ⟨_, _, _, _, h5, _⟩ := execute_eq_some hex
    simp [Call.retired, Call.admitted, h5]
  | writeback =>
    simp only [step, Option.map_eq_some', Prod.exists, exists_eq_right] at h
    obtain ⟨r, hwb⟩ := h
    cases hout : firstOutput 0 sb.FUs_ with
    | none =>
      simp only [writeback, hout, Option.some.injEq, Prod.mk.injEq] at hwb
      rw [← hwb.2]
      simp [Call.retired, Call.admitted]
    | some kf =>
      obtain ⟨k, f⟩ := kf
      obtain ⟨_, RST, RS, _, _, rfl⟩ := writeback_some hout hwb
      simp [Call.retired, Call.admitted, Ring.pending]
  | commit =>
    simp only [step, Option.some.injEq] at h
    subst h
    simp only [Call.retired, Call.admitted, Option.toList, List.append_nil]
    unfold commit Ring.pending
    cases hC : sb.ROB_.Committed with
    | nil => simp [hC]
    | cons t rest => simp [hC]
  | complete k n =>
    simp only [step, Option.map_eq_some'] at h
    obtain ⟨FUs, _, rfl⟩ := h
    simp [Call.retired, Call.admitted]
  | sequencer move =>
    have hm := hc move rfl
    subst hm
    simp only [step, Option.some.injEq] at h
    subst h
    simp [Call.retired, Call.admitted, Ring.pending_tick]

/-- Along a run driven by `Ring.tick`, the instructions returned by `commit`, followed by
those the reorder buffer still holds, are those it held at the start followed by those
admitted by `issue`. -/
theorem run_conserves : ∀ (cs : List (Call Ring)) (sb sb1 : Scoreboard Ring),
    ringDriven cs → run Ring.ops sb cs = some sb1 →
    committedIn Ring.ops sb cs ++ Ring.pending sb1.ROB_ =
      Ring.pending sb.ROB_ ++ issuedIn Ring.ops sb cs
  | [], sb, sb1, _, h => by
    simp only [run, Option.some.injEq] at h
    subst h
    simp [committedIn, issuedIn, collect]
  | c :: cs, sb, sb1, hd, h => by
    cases hstep : step Ring.ops sb c with
    | none => simp [run, hstep] at h
    | some sb2 =>
      simp only [run, hstep] at h
      have hc := step_conserves (hd c (List.mem_cons_self _ _)) hstep
      have ih := run_conserves cs sb2 sb1
        (fun c1 hc1 => hd c1 (List.mem_cons_of_mem _ hc1)) h
      simp only [committedIn, issuedIn] at ih ⊢
      simp only [collect, hstep, List.append_assoc]
      rw [ih, ← List.append_assoc, hc, List.append_assoc]

theorem mod_window_inj {cap head i j : Nat} (hij : i ≤ j) (hlt : j - i < cap)
    (h : (head + i) % cap = (head + j) % cap) : i = j := by
  have hmod : (head + i) ≡ (head + j) [MOD cap] := h
  have hdvd : cap ∣ (head + j) - (head + i) := (Nat.modEq_iff_dvd' (by omega)).mp hmod
  have hsub : (head + j) - (head + i) = j - i := by omega
  rw [hsub] at hdvd
  have := Nat.eq_zero_of_dvd_of_lt hdvd hlt
  omega

/-- In a circular reorder buffer of the stated shape, in-flight entries with the same
producer slot are the same entry. -/
theorem ring_shape_unique {r : Ring} {head : Nat}
    (hs : ∀ (i : Nat) (x : pipeline_trace_t × Int × Bool), r.inflight[i]? = some x →
      x.2.1 = (((head + i) % r.capacity : Nat) : Int))
    (hl : r.inflight.length ≤ r.capacity) :
    ∀ x ∈ r.inflight, ∀ y ∈ r.inflight, x.2.1 = y.2.1 → x = y := by
  intro x hx y hy hxy
  obtain ⟨i, hi⟩ := List.mem_iff_getElem?.mp hx
  obtain ⟨j, hj⟩ := List.mem_iff_getElem?.mp hy
  have hil := (List.getElem?_eq_some_iff.mp hi).1
  have hjl := (List.getElem?_eq_some_iff.mp hj).1
  have h1 := hs i x hi
  have h2 := hs j y hj
  rw [h1, h2] at hxy
  have hxy1 : (head + i) % r.capacity = (head + j) % r.capacity := by exact_mod_cast hxy
  have hij : i = j := by
    rcases Nat.le_total i j with h | h
    · exact mod_window_inj h (by omega) hxy1
    · exact (mod_window_inj h (by omega) hxy1.symm).symm
  subst hij
  rw [hi] at hj
  exact Option.some.inj hj

/-- In a circular reorder buffer of the stated shape that is not full, no in-flight entry
holds the producer slot `tail`. -/
theorem ring_shape_fresh {r : Ring} {head : Nat}
    (hs : ∀ (i : Nat) (x : pipeline_trace_t × Int × Bool), r.inflight[i]? = some x →
      x.2.1 = (((head + i) % r.capacity : Nat) : Int))
    (ht : r.tail = (head + r.inflight.length) % r.capacity)
    (hl : r.inflight.length < r.capacity) :
    ∀ x ∈ r.inflight, x.2.1 ≠ (r.tail : Int) := by
  intro x hx hxt
  obtain ⟨i, hi⟩ := List.mem_iff_getElem?.mp hx
  have hil := (List.getElem?_eq_some_iff.mp hi).1
  rw [hs i x hi, ht] at hxt
  have h1 : (head + i) % r.capacity = (head + r.inflight.length) % r.capacity := by
    exact_mod_cast hxt
  have := mod_window_inj (Nat.le_of_lt hil) (by omega) h1
  omega

theorem RingLinked.congr {W : List pipeline_trace_t} {sb sb1 : Scoreboard Ring}
    (hl : RingLinked W sb) (hRS : sb1.RS_.store = sb.RS_.store) (hROB : sb1.ROB_ = sb.ROB_) :
    RingLinked W sb1 := by
  refine ⟨?_, ?_, ?_, ?_, ?_, ?_, ?_⟩
  · rw [hROB]; exact hl.shape
  · rw [hROB, hRS]; exact hl.link
  · rw [hRS]; exact hl.distinct
  · rw [hROB]; exact hl.sentLive
  · rw [hROB]; exact hl.sent
  · rw [hROB]; exact hl.flagged
  · rw [hROB]; exact hl.retired

theorem RingLinked.mono {W W1 : List pipeline_trace_t} {sb : Scoreboard Ring}
    (hl : RingLinked W sb) (hW : ∀ t ∈ W, t ∈ W1) : RingLinked W1 sb :=
  ⟨hl.shape, hl.link, hl.distinct, hl.sentLive,
    fun p hp x hx hxp => hW _ (hl.sent p hp x hx hxp),
    fun x hx hf => hW _ (hl.flagged x hx hf),
    fun t ht => hW _ (hl.retired t ht)⟩

theorem ringLinked_init (NUM_REGS num_RSs rob_size numFUs capacity : Nat) :
    RingLinked [] (Scoreboard.init NUM_REGS num_RSs rob_size numFUs (Ring.mk capacity 0 [])) := by
  refine ⟨⟨0, ?_, ?_, ?_⟩, ?_, ?_, ?_, ?_, ?_, ?_⟩
  · intro i x hx
    simp [Scoreboard.init] at hx
  · simp [Scoreboard.init]
  · simp [Scoreboard.init]
  · intro i e hi hv
    simp only [Scoreboard.init] at hi
    have := List.eq_of_mem_replicate (List.getElem?_mem hi)
    subst this
    cases hv
  · intro i j e1 e2 hi _ hv
    simp only [Scoreboard.init] at hi
    have := List.eq_of_mem_replicate (List.getElem?_mem hi)
    subst this
    cases hv
  · intro p hp
    simp [Scoreboard.init] at hp
  · intro p hp
    simp [Scoreboard.init] at hp
  · intro x hx
    simp [Scoreboard.init] at hx
  · intro t ht
    simp [Scoreboard.init] at ht

theorem ringLinked_issue {W : List pipeline_trace_t} {sb sb1 : Scoreboard Ring}
    {trace : pipeline_trace_t} (hl : RingLinked W sb)
    (h : issue Ring.ops sb trace = some (true, sb1)) : RingLinked W sb1 := by
  have hnf := (issue_admitted_not_full h).2
  have hlt : sb.ROB_.state.inflight.length < sb.ROB_.state.capacity := by
    simpa [Ring.ops] using hnf
  obtain ⟨w1, w2, RAT, s, RST, _, _, _, hs, _, rfl⟩ := issue_admitted h
  have hslt := ReservationStation.freeSlot_lt hs
  obtain ⟨head, hshape, htail, _⟩ := hl.shape
  have hfresh := ring_shape_fresh hshape htail hlt
  have hnew : ∀ x : pipeline_trace_t × Int × Bool,
      x ∈ sb.ROB_.state.inflight ++ [(trace, (sb.ROB_.state.tail : Int), false)] →
      x ∈ sb.ROB_.state.inflight ∨ x = (trace, (sb.ROB_.state.tail : Int), false) := by
    intro x hx
    simpa using hx
  have hnotsent : (sb.ROB_.state.tail : Int) ∉ sb.ROB_.Completed := by
    intro hp
    obtain ⟨x, hx, hxp⟩ := hl.sentLive _ hp
    exact hfresh x hx hxp
  have holdslot : ∀ (j : Nat) (e : entry_t), sb.RS_.store[j]? = some e → e.valid = true →
      e.rob_index ≠ (sb.ROB_.state.tail : Int) := by
    intro j e hj hv
    exact hfresh _ (hl.link j e hj hv).1
  refine ⟨⟨head, ?_, ?_, ?_⟩, ?_, ?_, ?_, ?_, ?_, ?_⟩
  · intro i x hi
    simp only [Ring.ops] at hi
    by_cases hil : i < sb.ROB_.state.inflight.length
    · rw [List.getElem?_append_left hil] at hi
      exact hshape i x hi
    · have hie : i = sb.ROB_.state.inflight.length := by
        have := (List.getElem?_eq_some_iff.mp hi).1
        simp only [List.length_append, List.length_singleton] at this
        omega
      subst hie
      simp only [List.getElem?_concat_length, Option.some.injEq] at hi
      subst hi
      simp only [Ring.ops]
      rw [htail]
  · simp only [Ring.ops, List.length_append, List.length_singleton]
    rw [htail, Nat.mod_add_mod]
    congr 1
  · simp only [Ring.ops, List.length_append, List.length_singleton]
    omega
  · intro i e hi hv
    simp only [Ring.ops]
    by_cases his : i = s
    · subst his
      simp only [List.getElem?_set_self hslt, Option.some.injEq] at hi
      subst hi
      exact ⟨by simp [Ring.ops], hnotsent⟩
    · simp only [List.getElem?_set_ne (Ne.symm his)] at hi
      obtain ⟨h1, h2⟩ := hl.link i e hi hv
      exact ⟨List.mem_append_left _ h1, h2⟩
  · intro i j e1 e2 hi hj hv1 hv2 hrob
    by_cases his : i = s
    · by_cases hjs : j = s
      · rw [his, hjs]
      · exfalso
        subst his
        simp only [List.getElem?_set_self hslt, Option.some.injEq] at hi
        subst hi
        simp only [List.getElem?_set_ne (Ne.symm hjs)] at hj
        exact holdslot j e2 hj hv2 hrob.symm
    · by_cases hjs : j = s
      · exfalso
        subst hjs
        simp only [List.getElem?_set_self hslt, Option.some.injEq] at hj
        subst hj
        simp only [List.getElem?_set_ne (Ne.symm his)] at hi
        exact holdslot i e1 hi hv1 hrob
      · simp only [List.getElem?_set_ne (Ne.symm his)] at hi
        simp only [List.getElem?_set_ne (Ne.symm hjs)] at hj
        exact hl.distinct i j e1 e2 hi hj hv1 hv2 hrob
  · intro p hp
    obtain ⟨x, hx, hxp⟩ := hl.sentLive p hp
    exact ⟨x, by simp only [Ring.ops]; exact List.mem_append_left _ hx, hxp⟩
  · intro p hp x hx hxp
    simp only [Ring.ops] at hx
    rcases hnew x hx with h1 | rfl
    · exact hl.sent p hp x h1 hxp
    · exfalso
      apply hnotsent
      simp only at hxp
      rw [hxp]
      exact hp
  · intro x hx hf
    simp only [Ring.ops] at hx
    rcases hnew x hx with h1 | rfl
    · exact hl.flagged x h1 hf
    · cases hf
  · exact hl.retired

theorem ringLinked_execute {W : List pipeline_trace_t} {sb sb1 : Scoreboard Ring}
    {traces : List pipeline_trace_t} (hl : RingLinked W sb)
    (h : execute sb = some (traces, sb1)) : RingLinked W sb1 := by
  obtain ⟨_, hstore, _, _, hROB, _⟩ := execute_eq_some h
  have hF : ∀ e : entry_t, (if e.ready then e.started else e).valid = e.valid ∧
      (if e.ready then e.started else e).rob_index = e.rob_index ∧
      (if e.ready then e.started else e).trace = e.trace := by
    intro e
    by_cases hr : e.ready = true
    · simp [hr, entry_t.started]
    · simp [hr]
  have hold : ∀ (i : Nat) (e1 : entry_t), sb1.RS_.store[i]? = some e1 →
      ∃ e, sb.RS_.store[i]? = some e ∧ e1.valid = e.valid ∧ e1.rob_index = e.rob_index ∧
        e1.trace = e.trace := by
    intro i e1 hi
    rw [hstore, List.getElem?_map] at hi
    simp only [Option.map_eq_some'] at hi
    obtain ⟨e, he, rfl⟩ := hi
    exact ⟨e, he, hF e⟩
  refine ⟨?_, ?_, ?_, ?_, ?_, ?_, ?_⟩
  · rw [hROB]; exact hl.shape
  · intro i e1 hi hv
    obtain ⟨e, he, h1, h2, h3⟩ := hold i e1 hi
    rw [h1] at hv
    rw [hROB, h2, h3]
    exact hl.link i e he hv
  · intro i j e1 e2 hi hj hv1 hv2 hrob
    obtain ⟨ea, hea, ha1, ha2, _⟩ := hold i e1 hi
    obtain ⟨eb, heb, hb1, hb2, _⟩ := hold j e2 hj
    rw [ha1] at hv1
    rw [hb1] at hv2
    rw [ha2, hb2] at hrob
    exact hl.distinct i j ea eb hea heb hv1 hv2 hrob
  · rw [hROB]; exact hl.sentLive
  · rw [hROB]; exact hl.sent
  · rw [hROB]; exact hl.flagged
  · rw [hROB]; exact hl.retired

theorem ringLinked_writeback {W : List pipeline_trace_t} {sb sb1 : Scoreboard Ring}
    {k : Nat} {f : fu_entry_t} {r : Option pipeline_trace_t}
    (hcons : Consistent sb) (hl : RingLinked W sb)
    (hout : firstOutput 0 sb.FUs_ = some (k, f)) (h : writeback sb = some (r, sb1)) :
    RingLinked (W ++ [f.trace]) sb1 := by
  obtain ⟨h0, hlt, hlen, hstore⟩ := writeback_store hout h
  obtain ⟨_, RST, RS, _, _, hsb⟩ := writeback_some hout h
  obtain ⟨⟨fuk, hk, restk, hOk⟩, _⟩ := firstOutput_zero hout
  have hROB : sb1.ROB_ =
      ⟨sb.ROB_.state, sb.ROB_.Completed ++ [f.rob_index], sb.ROB_.Committed⟩ := by rw [hsb]
  have hfmem : f ∈ fuk.Input ++ fuk.Output := by
    rw [hOk]
    simp
  obtain ⟨ef, hef1, hef2, _, hef4, hef5⟩ := hcons.inflight fuk (List.getElem?_mem hk) f hfmem
  rw [ReservationStation.entry_eq_some] at hef1
  obtain ⟨hfin, hfnot⟩ := hl.link _ ef hef1.2 hef2
  rw [hef4, hef5] at hfin
  obtain ⟨head, hshape, htail, hcap⟩ := hl.shape
  have huniq := ring_shape_unique hshape hcap
  have hold : ∀ (i : Nat) (e1 : entry_t), sb1.RS_.store[i]? = some e1 → e1.valid = true →
      i ≠ f.rs_index.toNat ∧
      ∃ e, sb.RS_.store[i]? = some e ∧ e.valid = true ∧ e1.rob_index = e.rob_index ∧
        e1.trace = e.trace := by
    intro i e1 hi hv
    have hi1 : i < sb.RS_.store.length := by
      rw [← hlen]
      exact (List.getElem?_eq_some_iff.mp hi).1
    have h1 := hstore i _ (List.getElem?_eq_getElem hi1)
    rw [hi] at h1
    have h2 := Option.some.inj h1
    by_cases hik : i = f.rs_index.toNat
    · rw [if_pos hik] at h2
      rw [h2] at hv
      simp [entry_t.freed] at hv
    · rw [if_neg hik] at h2
      have hfr := broadcast_frame f.rs_index (sb.RS_.store[i])
      rw [h2, hfr.1] at hv
      refine ⟨hik, _, List.getElem?_eq_getElem hi1, hv, ?_, ?_⟩
      · rw [h2, hfr.2.2.1]
      · rw [h2, hfr.2.2.2]
  have hW : ∀ t ∈ W, t ∈ W ++ [f.trace] := fun t ht => List.mem_append_left _ ht
  refine ⟨?_, ?_, ?_, ?_, ?_, ?_, ?_⟩
  · rw [hROB]
    exact ⟨head, hshape, htail, hcap⟩
  · intro i e1 hi hv
    obtain ⟨hik, e, he, hve, h2, h3⟩ := hold i e1 hi hv
    obtain ⟨ha, hb⟩ := hl.link i e he hve
    rw [hROB, h2, h3]
    refine ⟨ha, ?_⟩
    simp only [List.mem_append, List.mem_singleton, not_or]
    refine ⟨hb, ?_⟩
    intro heq
    apply hik
    exact hl.distinct i _ e ef he hef1.2 hve hef2 (heq.trans hef4.symm)
  · intro i j e1 e2 hi hj hv1 hv2 hrob
    obtain ⟨_, ea, hea, hva, ha2, _⟩ := hold i e1 hi hv1
    obtain ⟨_, eb, heb, hvb, hb2, _⟩ := hold j e2 hj hv2
    rw [ha2, hb2] at hrob
    exact hl.distinct i j ea eb hea heb hva hvb hrob
  · intro p hp
    rw [hROB] at hp ⊢
    simp only [List.mem_append, List.mem_singleton] at hp
    rcases hp with hp | rfl
    · exact hl.sentLive p hp
    · exact ⟨_, hfin, rfl⟩
  · intro p hp x hx hxp
    rw [hROB] at hp hx
    simp only [List.mem_append, List.mem_singleton] at hp
    rcases hp with hp | rfl
    · exact hW _ (hl.sent p hp x hx hxp)
    · have := huniq x hx _ hfin hxp
      rw [this]
      simp
  · intro x hx hf
    rw [hROB] at hx
    exact hW _ (hl.flagged x hx hf)
  · intro t ht
    rw [hROB] at ht
    exact hW _ (hl.retired t ht)

theorem Ring.tick_eq (rob : ReorderBuffer Ring) :
    (∃ t p rest, rob.state.inflight.map (Ring.flag rob) = (t, p, true) :: rest ∧
      Ring.tick rob = ⟨⟨rob.state.capacity, rob.state.tail, rest⟩, [], rob.Committed ++ [t]⟩) ∨
    ((∀ t p rest, rob.state.inflight.map (Ring.flag rob) ≠ (t, p, true) :: rest) ∧
      Ring.tick rob = ⟨⟨rob.state.capacity, rob.state.tail,
        rob.state.inflight.map (Ring.flag rob)⟩, [], rob.Committed⟩) := by
  have hdef : (rob.state.inflight.map fun x =>
      (x.1, x.2.1, x.2.2 || rob.Completed.contains x.2.1)) =
      rob.state.inflight.map (Ring.flag rob) := rfl
  unfold Ring.tick
  simp only
  rw [hdef]
  cases hfl : rob.state.inflight.map (Ring.flag rob) with
  | nil =>
    right
    exact ⟨fun t p rest h => (by cases h), rfl⟩
  | cons x rest =>
    obtain ⟨t, p, b⟩ := x
    cases b with
    | true =>
      left
      exact ⟨t, p, rest, rfl, rfl⟩
    | false =>
      right
      refine ⟨fun t1 p1 rest1 h => ?_, rfl⟩
      simp at h

theorem ringLinked_tick {W : List pipeline_trace_t} {sb : Scoreboard Ring}
    (hl : RingLinked W sb) :
    RingLinked W ⟨sb.RAT_, sb.RS_, sb.RST_, Ring.tick sb.ROB_, sb.FUs_⟩ := by
  obtain ⟨head, hshape, htail, hcap⟩ := hl.shape
  have hget : ∀ (i : Nat) (y : pipeline_trace_t × Int × Bool),
      (sb.ROB_.state.inflight.map (Ring.flag sb.ROB_))[i]? = some y →
      ∃ x, sb.ROB_.state.inflight[i]? = some x ∧ y = Ring.flag sb.ROB_ x := by
    intro i y hy
    rw [List.getElem?_map] at hy
    simp only [Option.map_eq_some'] at hy
    obtain ⟨x, hx, rfl⟩ := hy
    exact ⟨x, hx, rfl⟩
  have hflagW : ∀ y ∈ sb.ROB_.state.inflight.map (Ring.flag sb.ROB_), y.2.2 = true →
      y.1 ∈ W := by
    intro y hy hf
    obtain ⟨x, hx, rfl⟩ := List.mem_map.mp hy
    simp only [Ring.flag, Bool.or_eq_true] at hf ⊢
    rcases hf with hf | hf
    · exact hl.flagged x hx hf
    · have hmem : x.2.1 ∈ sb.ROB_.Completed := by simpa using hf
      exact hl.sent _ hmem x hx rfl
  have hkeep : ∀ (i : Nat) (e : entry_t), sb.RS_.store[i]? = some e → e.valid = true →
      (e.trace, e.rob_index, false) ∈ sb.ROB_.state.inflight.map (Ring.flag sb.ROB_) := by
    intro i e hi hv
    obtain ⟨h1, h2⟩ := hl.link i e hi hv
    refine List.mem_map.mpr ⟨_, h1, ?_⟩
    simp [Ring.flag, h2]
  rcases Ring.tick_eq sb.ROB_ with ⟨t, p, rest, hfl, htick⟩ | ⟨_, htick⟩
  · rw [htick]
    have hlenfl : rest.length + 1 = sb.ROB_.state.inflight.length := by
      have := congrArg List.length hfl
      simpa using this.symm
    refine ⟨⟨head + 1, ?_, ?_, ?_⟩, ?_, hl.distinct, ?_, ?_, ?_, ?_⟩
    · intro i y hy
      have hy1 : (sb.ROB_.state.inflight.map (Ring.flag sb.ROB_))[i + 1]? = some y := by
        rw [hfl]
        simpa using hy
      obtain ⟨x, hx, rfl⟩ := hget (i + 1) y hy1
      have := hshape (i + 1) x hx
      simp only [Ring.flag]
      rw [this]
      congr 2
      omega
    · simp only
      rw [htail, ← hlenfl]
      congr 1
      omega
    · simp only
      omega
    · intro i e hi hv
      have := hkeep i e hi hv
      rw [hfl] at this
      simp only [List.mem_cons, Prod.mk.injEq, Bool.false_eq_true, and_false, false_or] at this
      exact ⟨this, by simp⟩
    · intro q hq
      simp at hq
    · intro q hq
      simp at hq
    · intro y hy hf
      apply hflagW y _ hf
      rw [hfl]
      exact List.mem_cons_of_mem _ hy
    · intro t1 ht1
      simp only [List.mem_append, List.mem_singleton] at ht1
      rcases ht1 with h1 | rfl
      · exact hl.retired t1 h1
      · exact hflagW (t1, p, true) (by rw [hfl]; exact List.mem_cons_self _ _) rfl
  · rw [htick]
    refine ⟨⟨head, ?_, ?_, ?_⟩, ?_, hl.distinct, ?_, ?_, ?_, hl.retired⟩
    · intro i y hy
      obtain ⟨x, hx, rfl⟩ := hget i y hy
      simp only [Ring.flag]
      exact hshape i x hx
    · simp only [List.length_map]
      exact htail
    · simp only [List.length_map]
      exact hcap
    · intro i e hi hv
      exact ⟨hkeep i e hi hv, by simp⟩
    · intro q hq
      simp at hq
    · intro q hq
      simp at hq
    · intro y hy hf
      exact hflagW y hy hf

theorem ringLinked_commit {W : List pipeline_trace_t} {sb : Scoreboard Ring}
    (hl : RingLinked W sb) :
    RingLinked W (commit sb).2 ∧ ∀ t, (commit sb).1 = some t → t ∈ W := by
  unfold commit
  cases hC : sb.ROB_.Committed with
  | nil =>
    simp only
    exact ⟨hl, fun t ht => by cases ht⟩
  | cons t0 rest =>
    simp only
    refine ⟨⟨hl.shape, hl.link, hl.distinct, hl.sentLive, hl.sent, hl.flagged, ?_⟩, ?_⟩
    · intro t ht
      apply hl.retired
      rw [hC]
      exact List.mem_cons_of_mem _ ht
    · intro t ht
      apply hl.retired
      rw [hC]
      simp only [Option.some.injEq] at ht
      rw [← ht]
      exact List.mem_cons_self _ _

/-- One event of a run driven by `Ring.tick` keeps the link between the scoreboard and the
reorder buffer, the list of written-back instructions growing by what `writeback`
returned; an instruction returned by `commit` was written back before. -/
theorem ringLinked_event {W : List pipeline_trace_t} {sb sb1 : Scoreboard Ring}
    {c : Call Ring} (hcons : Consistent sb) (hl : RingLinked W sb)
    (hc : ∀ move, c = Call.sequencer move → move = Ring.tick)
    (h : tinyrv.step Ring.ops sb c = some sb1) :
    RingLinked (W ++ (Call.finished sb c).toList) sb1 ∧
      ∀ t, Call.retired sb c = some t → t ∈ W := by
  cases c with
  | issue trace =>
    refine ⟨?_, fun t ht => by simp [Call.retired] at ht⟩
    simp only [Call.finished, Option.toList, List.append_nil]
    rcases step_issue_cases h with ⟨_, rfl⟩ | hadm
    · exact hl
    · exact ringLinked_issue hl hadm
  | execute =>
    refine ⟨?_, fun t ht => by simp [Call.retired] at ht⟩
    simp only [Call.finished, Option.toList, List.append_nil]
    simp only [tinyrv.step, Option.map_eq_some', Prod.exists, exists_eq_right] at h
    obtain ⟨ts, hex⟩ := h
    exact ringLinked_execute hl hex
  | writeback =>
    refine ⟨?_, fun t ht => by simp [Call.retired] at ht⟩
    simp only [tinyrv.step, Option.map_eq_some', Prod.exists, exists_eq_right] at h
    obtain ⟨r, hwb⟩ := h
    cases hout : firstOutput 0 sb.FUs_ with
    | none =>
      have hwb1 := hwb
      simp only [tinyrv.writeback, hout, Option.some.injEq, Prod.mk.injEq] at hwb1
      obtain ⟨hr, hsb⟩ := hwb1
      subst hr
      subst hsb
      simp only [Call.finished, hwb, Option.toList, List.append_nil]
      exact hl
    | some kf =>
      obtain ⟨k, f⟩ := kf
      have hr := (writeback_some hout hwb).1
      subst hr
      simp only [Call.finished, hwb, Option.toList]
      exact ringLinked_writeback hcons hl hout hwb
  | commit =>
    simp only [tinyrv.step, Option.some.injEq] at h
    subst h
    simp only [Call.finished, Call.retired, Option.toList, List.append_nil]
    exact ringLinked_commit hl
  | complete k n =>
    refine ⟨?_, fun t ht => by simp [Call.retired] at ht⟩
    simp only [Call.finished, Option.toList, List.append_nil]
    simp only [tinyrv.step, Option.map_eq_some'] at h
    obtain ⟨FUs, _, rfl⟩ := h
    exact hl.congr rfl rfl
  | sequencer move =>
    refine ⟨?_, fun t ht => by simp [Call.retired] at ht⟩
    simp only [Call.finished, Option.toList, List.append_nil]
    have hm := hc move rfl
    subst hm
    simp only [tinyrv.step, Option.some.injEq] at h
    subst h
    exact ringLinked_tick hl

/-- Along a run driven by `Ring.tick`, the link between the scoreboard and the reorder
buffer is kept, and every instruction returned by `commit` has been written back. -/
theorem ringLinked_run : ∀ (cs : List (Call Ring)) (W : List pipeline_trace_t)
    (sb sb1 : Scoreboard Ring), Consistent sb → RingLinked W sb → ringDriven cs →
    tinyrv.run Ring.ops sb cs = some sb1 →
    RingLinked (W ++ writtenBackIn Ring.ops sb cs) sb1 ∧
      ∀ t ∈ committedIn Ring.ops sb cs, t ∈ W ++ writtenBackIn Ring.ops sb cs
  | [], W, sb, sb1, _, hl, _, h => by
    simp only [tinyrv.run, Option.some.injEq] at h
    subst h
    simp only [writtenBackIn, committedIn, collect, List.append_nil]
    exact ⟨hl, fun t ht => by cases ht⟩
  | c :: cs, W, sb, sb1, hcons, hl, hd, h => by
    cases hstep : tinyrv.step Ring.ops sb c with
    | none => simp [tinyrv.run, hstep] at h
    | some sb2 =>
      simp only [tinyrv.run, hstep] at h
      obtain ⟨hl2, hret⟩ := ringLinked_event hcons hl (hd c (List.mem_cons_self _ _)) hstep
      obtain ⟨ih1, ih2⟩ := ringLinked_run cs (W ++ (Call.finished sb c).toList) sb2 sb1
        (hcons.step hstep) hl2 (fun c1 hc1 => hd c1 (List.mem_cons_of_mem _ hc1)) h
      simp only [writtenBackIn, committedIn] at ih1 ih2 ⊢
      simp only [collect, hstep]
      rw [← List.append_assoc]
      refine ⟨ih1, ?_⟩
      intro t ht
      rcases List.mem_append.mp ht with h1 | h2
      · have : Call.retired sb c = some t := by
          cases hr : Call.retired sb c with
          | none => simp [hr] at h1
          | some t1 =>
            simp only [hr, Option.toList, List.mem_singleton] at h1
            rw [h1]
        exact List.mem_append_left _ (List.mem_append_left _ (hret t this))
      · exact ih2 t h2

theorem ringDriven_of_forall {cs : List (Call Ring)}
    (h : ∀ c ∈ cs, c = Call.sequencer Ring.tick ∨ ∀ move, c ≠ Call.sequencer move) :
    ringDriven cs := by
  intro c hc move hm
  rcases h c hc with h1 | h2
  · rw [h1] at hm
    injection hm with hm
    exact hm.symm
  · exact absurd hm (h2 move)

theorem youngerFirstRun_ringDriven : ringDriven youngerFirstRun := by
  apply ringDriven_of_forall
  intro c hc
  simp only [youngerFirstRun, List.mem_cons, List.mem_singleton, List.not_mem_nil,
    or_false] at hc
  rcases hc with rfl | rfl | rfl | rfl | rfl | rfl | rfl
  all_goals first
    | exact Or.inl rfl
    | exact Or.inr (fun move hm => by cases hm)

theorem reverseOrderRun_ringDriven : ringDriven reverseOrderRun := by
  apply ringDriven_of_forall
  intro c hc
  simp only [reverseOrderRun, List.mem_cons, List.mem_singleton, List.not_mem_nil,
    or_false] at hc
  rcases hc with rfl | rfl | rfl | rfl | rfl | rfl | rfl | rfl | rfl | rfl | rfl
  all_goals first
    | exact Or.inl rfl
    | exact Or.inr (fun move hm => by cases hm)

/-- Counterexample to C16 as stated.  From the freshly constructed `sbEmpty`, `A` and then
`C` are admitted and dispatched; unit 1 completes `C` and `writeback` returns it while `A`
is still executing; the reorder buffer ticks and `commit` is called.  The issue-order
subsequence of the completed instructions is `[C]`, but `commit` has returned nothing: the
younger `C` waits behind the older `A`.  Hence the commit sequence is not always exactly
the issue-order subsequence of the completed instructions. -/
theorem commit_waits_for_older :
    ((run Ring.ops sbEmpty youngerFirstRun).isSome = true ∧
      issuedIn Ring.ops sbEmpty youngerFirstRun = [instrA, instrC] ∧
      writtenBackIn Ring.ops sbEmpty youngerFirstRun = [instrC] ∧
      completedInIssueOrder youngerFirstRun sbEmpty = [instrC] ∧
      committedIn Ring.ops sbEmpty youngerFirstRun = []) ∧
    ¬ ∀ (NUM_REGS num_RSs rob_size numFUs capacity : Nat) (cs : List (Call Ring))
        (sb : Scoreboard Ring), ringDriven cs →
      run Ring.ops (Scoreboard.init NUM_REGS num_RSs rob_size numFUs (Ring.mk capacity 0 []))
        cs = some sb →
      committedIn Ring.ops
          (Scoreboard.init NUM_REGS num_RSs rob_size numFUs (Ring.mk capacity 0 [])) cs =
        completedInIssueOrder cs
          (Scoreboard.init NUM_REGS num_RSs rob_size numFUs (Ring.mk capacity 0 [])) := by
  refine ⟨by decide, ?_⟩
  intro h
  have hsome : (run Ring.ops (Scoreboard.init 4 2 2 2 (Ring.mk 2 0 [])) youngerFirstRun).isSome
      = true := by decide
  obtain ⟨sb, hsb⟩ := Option.isSome_iff_exists.mp hsome
  have h1 := h 4 2 2 2 2 youngerFirstRun sb youngerFirstRun_ringDriven hsb
  have h2 : committedIn Ring.ops (Scoreboard.init 4 2 2 2 (Ring.mk 2 0 [])) youngerFirstRun
      = [] := by decide
  have h3 : completedInIssueOrder youngerFirstRun (Scoreboard.init 4 2 2 2 (Ring.mk 2 0 []))
      = [instrC] := by decide
  rw [h2, h3] at h1
  cases h1

/-- C16 (amended): along every run from a freshly constructed scoreboard whose reorder
buffer is the circular buffer `Ring` advanced by `Ring.tick`, the sequence of instructions
returned by the successive `commit` calls, followed by the instructions the reorder buffer
still holds, is the sequence of admitted instructions in issue order; every instruction
`commit` returned was returned by a `writeback` call of the run; hence the commit sequence
is a prefix of the issue-order subsequence of the instructions that have completed,
whatever the order of dispatch and writeback. -/
theorem commit_program_order (NUM_REGS num_RSs rob_size numFUs capacity : Nat)
    (cs : List (Call Ring)) (sb : Scoreboard Ring) (hdriven : ringDriven cs)
    (hrun : run Ring.ops
      (Scoreboard.init NUM_REGS num_RSs rob_size numFUs (Ring.mk capacity 0 [])) cs = some sb) :
    committedIn Ring.ops
        (Scoreboard.init NUM_REGS num_RSs rob_size numFUs (Ring.mk capacity 0 [])) cs ++
          Ring.pending sb.ROB_ =
      issuedIn Ring.ops
        (Scoreboard.init NUM_REGS num_RSs rob_size numFUs (Ring.mk capacity 0 [])) cs ∧
    (∀ t ∈ committedIn Ring.ops
        (Scoreboard.init NUM_REGS num_RSs rob_size numFUs (Ring.mk capacity 0 [])) cs,
      t ∈ writtenBackIn Ring.ops
        (Scoreboard.init NUM_REGS num_RSs rob_size numFUs (Ring.mk capacity 0 [])) cs) ∧
    committedIn Ring.ops
        (Scoreboard.init NUM_REGS num_RSs rob_size numFUs (Ring.mk capacity 0 [])) cs <+:
      completedInIssueOrder cs
        (Scoreboard.init NUM_REGS num_RSs rob_size numFUs (Ring.mk capacity 0 [])) := by
  have hcons := run_conserves cs _ sb hdriven hrun
  have hpend : Ring.pending (Scoreboard.init NUM_REGS num_RSs rob_size numFUs
      (Ring.mk capacity 0 [])).ROB_ = [] := by
    simp [Ring.pending, Scoreboard.init]
  rw [hpend, List.nil_append] at hcons
  have hwb := (ringLinked_run cs [] _ sb (Consistent.init NUM_REGS num_RSs rob_size numFUs _)
    (ringLinked_init NUM_REGS num_RSs rob_size numFUs capacity) hdriven hrun).2
  simp only [List.nil_append] at hwb
  refine ⟨hcons, hwb, ?_⟩
  unfold completedInIssueOrder
  rw [← hcons, List.filter_append]
  have hfil : List.filter (fun t => decide (t ∈ writtenBackIn Ring.ops
      (Scoreboard.init NUM_REGS num_RSs rob_size numFUs (Ring.mk capacity 0 [])) cs))
      (committedIn Ring.ops
        (Scoreboard.init NUM_REGS num_RSs rob_size numFUs (Ring.mk capacity 0 [])) cs) =
      committedIn Ring.ops
        (Scoreboard.init NUM_REGS num_RSs rob_size numFUs (Ring.mk capacity 0 [])) cs := by
    rw [List.filter_eq_self]
    intro t ht
    simpa using hwb t ht
  rw [hfil]
  exact List.prefix_append _ _

theorem commit_program_order_witness :
    ringDriven reverseOrderRun ∧
    run Ring.ops (Scoreboard.init 4 2 2 2 (Ring.mk 2 0 [])) reverseOrderRun = some sbReversed ∧
    writtenBackIn Ring.ops (Scoreboard.init 4 2 2 2 (Ring.mk 2 0 [])) reverseOrderRun =
      [instrC, instrA] ∧
    issuedIn Ring.ops (Scoreboard.init 4 2 2 2 (Ring.mk 2 0 [])) reverseOrderRun =
      [instrA, instrC] ∧
    committedIn Ring.ops (Scoreboard.init 4 2 2 2 (Ring.mk 2 0 [])) reverseOrderRun =
      [instrA, instrC] ∧
    (committedIn Ring.ops (Scoreboard.init 4 2 2 2 (Ring.mk 2 0 [])) reverseOrderRun ++
          Ring.pending sbReversed.ROB_ =
        issuedIn Ring.ops (Scoreboard.init 4 2 2 2 (Ring.mk 2 0 [])) reverseOrderRun ∧
      (∀ t ∈ committedIn Ring.ops (Scoreboard.init 4 2 2 2 (Ring.mk 2 0 [])) reverseOrderRun,
        t ∈ writtenBackIn Ring.ops (Scoreboard.init 4 2 2 2 (Ring.mk 2 0 []))
          reverseOrderRun) ∧
      committedIn Ring.ops (Scoreboard.init 4 2 2 2 (Ring.mk 2 0 [])) reverseOrderRun <+:
        completedInIssueOrder reverseOrderRun
          (Scoreboard.init 4 2 2 2 (Ring.mk 2 0 []))) :=
  ⟨reverseOrderRun_ringDriven, by decide, by decide, by decide, by decide,
    commit_program_order 4 2 2 2 2 reverseOrderRun sbReversed reverseOrderRun_ringDriven
      (by decide)⟩

/-! ### C3: renaming along a run in which the reorder buffer releases the RAT -/

theorem RegisterAliasTable.release_keeps {r : RegisterAliasTable} {t : pipeline_trace_t}
    {reg : Nat} {q v : Int} (h : r.get reg = some v) (hne : t.rd = reg → v ≠ q) :
    (r.release t q).get reg = some v := by
  unfold RegisterAliasTable.release
  split
  · rename_i hc
    simp only [Bool.and_eq_true, beq_iff_eq] at hc
    by_cases hreg : t.rd = reg
    · rw [hreg, h] at hc
      exact absurd (Option.some.inj hc.2) (hne hreg)
    · simp only [RegisterAliasTable.get] at h ⊢
      rw [List.getElem?_set_ne hreg]
      exact h
  · exact h

theorem RegisterAliasTable.release_available {r : RegisterAliasTable} {t : pipeline_trace_t}
    {reg : Nat} {q : Int} (h : r.get reg = some (-1)) :
    (r.release t q).get reg = some (-1) := by
  unfold RegisterAliasTable.release
  split
  · by_cases hreg : t.rd = reg
    · simp only [RegisterAliasTable.get] at h ⊢
      have hlt := (List.getElem?_eq_some_iff.mp h).1
      rw [hreg, List.getElem?_set_self hlt]
    · simp only [RegisterAliasTable.get] at h ⊢
      rw [List.getElem?_set_ne hreg]
      exact h
  · exact h

theorem RegisterAliasTable.release_self {r : RegisterAliasTable} {t : pipeline_trace_t}
    {p : Int} (h : r.get t.rd = some p) (hwb : t.wb = true) :
    (r.release t p).get t.rd = some (-1) := by
  unfold RegisterAliasTable.release
  simp only [hwb, h, beq_self_eq_true, Bool.and_self, if_true]
  simp only [RegisterAliasTable.get] at h ⊢
  have hlt := (List.getElem?_eq_some_iff.mp h).1
  rw [List.getElem?_set_self hlt]

/-- The two outcomes of a tick seen from the scoreboard: the oldest instruction has
completed, it retires and its RAT entry is released; or nothing retires and the RAT is
left alone. -/
theorem Ring.retire_eq (sb : Scoreboard Ring) :
    (∃ x rest, sb.ROB_.state.inflight = x :: rest ∧
      (x.2.2 || sb.ROB_.Completed.contains x.2.1) = true ∧
      Ring.retire sb = ⟨sb.RAT_.release x.1 x.2.1, sb.RS_, sb.RST_,
        ⟨⟨sb.ROB_.state.capacity, sb.ROB_.state.tail, rest.map (Ring.flag sb.ROB_)⟩, [],
          sb.ROB_.Committed ++ [x.1]⟩, sb.FUs_⟩) ∨
    ((∀ x rest, sb.ROB_.state.inflight = x :: rest →
        (x.2.2 || sb.ROB_.Completed.contains x.2.1) = false) ∧
      Ring.retire sb = ⟨sb.RAT_, sb.RS_, sb.RST_,
        ⟨⟨sb.ROB_.state.capacity, sb.ROB_.state.tail,
          sb.ROB_.state.inflight.map (Ring.flag sb.ROB_)⟩, [], sb.ROB_.Committed⟩,
        sb.FUs_⟩) := by
  cases hin : sb.ROB_.state.inflight with
  | nil =>
    right
    refine ⟨fun x rest h => (by cases h), ?_⟩
    simp [Ring.retire, Ring.tick, hin]
  | cons x rest =>
    cases hb : (x.2.2 || sb.ROB_.Completed.contains x.2.1) with
    | true =>
      left
      refine ⟨x, rest, rfl, hb, ?_⟩
      simp only [Ring.retire, hin, hb, if_true, Ring.tick, List.map_cons]
      rfl
    | false =>
      right
      refine ⟨fun x1 rest1 h => ?_, ?_⟩
      · injection h with h1 h2
        subst h1
        exact hb
      · simp only [Ring.retire, hin, hb, Bool.false_eq_true, if_false, Ring.tick,
          List.map_cons]
        simp only [Ring.flag, hb]
        rfl

theorem ringStep_cases {sb sb1 : Scoreboard Ring} {c : RingCall}
    (h : ringStep sb c = some sb1) :
    (c = RingCall.tick ∧ sb1 = Ring.retire sb) ∨
      (tinyrv.step Ring.ops sb c.toCall = some sb1 ∧
        ∀ move, c.toCall ≠ Call.sequencer move) := by
  cases c with
  | tick =>
    left
    simp only [ringStep, Option.some.injEq] at h
    exact ⟨rfl, h.symm⟩
  | issue trace => exact Or.inr ⟨h, fun move hm => by cases hm⟩
  | execute => exact Or.inr ⟨h, fun move hm => by cases hm⟩
  | writeback => exact Or.inr ⟨h, fun move hm => by cases hm⟩
  | commit => exact Or.inr ⟨h, fun move hm => by cases hm⟩
  | complete k n => exact Or.inr ⟨h, fun move hm => by cases hm⟩

/-- An event of the scoreboard that is not an admitted issue writing `reg` keeps the RAT
entry of `reg`. -/
theorem step_keeps_rat {R : ReorderBufferOps ρ} {sb sb1 : Scoreboard ρ} {c : Call ρ}
    {reg : Nat} (hstep : tinyrv.step R sb c = some sb1) (hw : c.writes R reg sb = false) :
    sb1.RAT_.get reg = sb.RAT_.get reg := by
  cases c with
  | issue trace =>
    rcases step_issue_cases hstep with ⟨_, rfl⟩ | hadm
    · rfl
    · simp only [Call.writes, hadm, Bool.and_eq_false_imp, beq_eq_false_iff_ne] at hw
      obtain ⟨w1, w2, RAT, s, RST, _, _, hRAT1, _, _, rfl⟩ := issue_admitted hadm
      by_cases hwb : trace.wb = true
      · rw [if_pos hwb] at hRAT1
        exact RegisterAliasTable.get_of_set_ne hRAT1 reg (fun h => hw hwb h.symm)
      · rw [if_neg hwb] at hRAT1
        cases hRAT1
        rfl
  | execute =>
    simp only [tinyrv.step, Option.map_eq_some', Prod.exists, exists_eq_right] at hstep
    obtain ⟨ts, hex⟩ := hstep
    obtain ⟨_, _, h3, _⟩ := execute_eq_some hex
    rw [h3]
  | writeback =>
    simp only [tinyrv.step, Option.map_eq_some', Prod.exists, exists_eq_right] at hstep
    obtain ⟨r, hwb⟩ := hstep
    cases hout : firstOutput 0 sb.FUs_ with
    | none =>
      simp only [writeback, hout, Option.some.injEq, Prod.mk.injEq] at hwb
      rw [← hwb.2]
    | some kf =>
      obtain ⟨k, f⟩ := kf
      obtain ⟨_, RST, RS, _, _, rfl⟩ := writeback_some hout hwb
      rfl
  | commit =>
    simp only [tinyrv.step, Option.some.injEq] at hstep
    subst hstep
    rw [(commit_frame sb).1]
  | complete k n =>
    simp only [tinyrv.step, Option.map_eq_some'] at hstep
    obtain ⟨FUs, _, rfl⟩ := hstep
    rfl
  | sequencer move =>
    simp only [tinyrv.step, Option.some.injEq] at hstep
    subst hstep
    rfl

/-- A stage call or a unit completing an entry keeps every instruction in flight in the
reorder buffer, and adds to `Completed` only the producer slot whose completion a
`writeback` processes. -/
theorem step_keeps_inflight {sb sb1 : Scoreboard Ring} {c : Call Ring}
    (hstep : tinyrv.step Ring.ops sb c = some sb1)
    (hseq : ∀ move, c ≠ Call.sequencer move) :
    (∀ x ∈ sb.ROB_.state.inflight, x ∈ sb1.ROB_.state.inflight) ∧
      ∀ q ∈ sb1.ROB_.Completed, q ∈ sb.ROB_.Completed ∨ c.completes q sb = true := by
  cases c with
  | issue trace =>
    rcases step_issue_cases hstep with ⟨_, rfl⟩ | hadm
    · exact ⟨fun x hx => hx, fun q hq => Or.inl hq⟩
    · obtain ⟨w1, w2, RAT, s, RST, _, _, _, _, _, rfl⟩ := issue_admitted hadm
      refine ⟨fun x hx => ?_, fun q hq => Or.inl hq⟩
      simp only [Ring.ops]
      exact List.mem_append_left _ hx
  | execute =>
    simp only [tinyrv.step, Option.map_eq_some', Prod.exists, exists_eq_right] at hstep
    obtain ⟨ts, hex⟩ := hstep
    obtain ⟨_, _, _, _, h5, _⟩ := execute_eq_some hex
    rw [h5]
    exact ⟨fun x hx => hx, fun q hq => Or.inl hq⟩
  | writeback =>
    simp only [tinyrv.step, Option.map_eq_some', Prod.exists, exists_eq_right] at hstep
    obtain ⟨r, hwb⟩ := hstep
    cases hout : firstOutput 0 sb.FUs_ with
    | none =>
      simp only [writeback, hout, Option.some.injEq, Prod.mk.injEq] at hwb
      rw [← hwb.2]
      exact ⟨fun x hx => hx, fun q hq => Or.inl hq⟩
    | some kf =>
      obtain ⟨k, f⟩ := kf
      obtain ⟨_, RST, RS, _, _, rfl⟩ := writeback_some hout hwb
      refine ⟨fun x hx => hx, fun q hq => ?_⟩
      simp only [List.mem_append, List.mem_singleton] at hq
      rcases hq with hq | hq
      · exact Or.inl hq
      · right
        simp only [Call.completes, hout, beq_iff_eq]
        exact hq.symm
  | commit =>
    simp only [tinyrv.step, Option.some.injEq] at hstep
    subst hstep
    unfold commit
    split
    · exact ⟨fun x hx => hx, fun q hq => Or.inl hq⟩
    · exact ⟨fun x hx => hx, fun q hq => Or.inl hq⟩
  | complete k n =>
    simp only [tinyrv.step, Option.map_eq_some'] at hstep
    obtain ⟨FUs, _, rfl⟩ := hstep
    exact ⟨fun x hx => hx, fun q hq => Or.inl hq⟩
  | sequencer move => exact absurd rfl (hseq move)

/-- The circular reorder buffer gives no admitted issue a producer slot that is in
flight. -/
theorem allocates_in_flight {Wl : List pipeline_trace_t} {sb : Scoreboard Ring}
    {c : Call Ring} {p : Int} (hl : RingLinked Wl sb)
    (hin : ∃ x ∈ sb.ROB_.state.inflight, x.2.1 = p) :
    c.allocates Ring.ops p sb = false := by
  cases c with
  | issue trace =>
    simp only [Call.allocates]
    cases hiss : tinyrv.issue Ring.ops sb trace with
    | none => rfl
    | some r =>
      obtain ⟨b, sb1⟩ := r
      cases b with
      | false => rfl
      | true =>
        simp only [beq_eq_false_iff_ne]
        have hnf := (issue_admitted_not_full hiss).2
        have hlt : sb.ROB_.state.inflight.length < sb.ROB_.state.capacity := by
          simpa [Ring.ops] using hnf
        obtain ⟨head, hshape, htail, _⟩ := hl.shape
        obtain ⟨x, hx, hxp⟩ := hin
        have := ring_shape_fresh hshape htail hlt x hx
        intro heq
        apply this
        rw [hxp, ← heq]
        rfl
  | execute => rfl
  | writeback => rfl
  | commit => rfl
  | complete k n => rfl
  | sequencer move => rfl

/-- One event of a run with the circular reorder buffer keeps the bookkeeping consistent
and the scoreboard linked to the reorder buffer. -/
theorem ringSound_step {Wl : List pipeline_trace_t} {sb sb1 : Scoreboard Ring}
    {c : RingCall} (hcons : Consistent sb) (hl : RingLinked Wl sb)
    (h : ringStep sb c = some sb1) :
    Consistent sb1 ∧ ∃ Wl1, RingLinked Wl1 sb1 := by
  rcases ringStep_cases h with ⟨_, rfl⟩ | ⟨hstep, hseq⟩
  · have hc1 : Consistent (Ring.retire sb) := by
      unfold Ring.retire
      split
      · split
        · exact ⟨hcons.rst, hcons.inflight, hcons.unique, hcons.robs⟩
        · exact ⟨hcons.rst, hcons.inflight, hcons.unique, hcons.robs⟩
      · exact ⟨hcons.rst, hcons.inflight, hcons.unique, hcons.robs⟩
    have hl1 : RingLinked Wl (Ring.retire sb) := by
      apply (ringLinked_tick hl).congr
      · unfold Ring.retire
        split
        · split <;> rfl
        · rfl
      · unfold Ring.retire
        split
        · split <;> rfl
        · rfl
    exact ⟨hc1, Wl, hl1⟩
  · exact ⟨hcons.step hstep,
      _, (ringLinked_event hcons hl (fun move hm => absurd hm (hseq move)) hstep).1⟩

theorem ringSound_run : ∀ (cs : List RingCall) (Wl : List pipeline_trace_t)
    (sb sb1 : Scoreboard Ring), Consistent sb → RingLinked Wl sb →
    ringRun sb cs = some sb1 → Consistent sb1 ∧ ∃ Wl1, RingLinked Wl1 sb1
  | [], Wl, sb, sb1, hcons, hl, h => by
    simp only [ringRun, Option.some.injEq] at h
    subst h
    exact ⟨hcons, Wl, hl⟩
  | c :: cs, Wl, sb, sb1, hcons, hl, h => by
    cases hstep : ringStep sb c with
    | none => simp [ringRun, hstep] at h
    | some sb2 =>
      simp only [ringRun, hstep] at h
      obtain ⟨hc2, Wl2, hl2⟩ := ringSound_step hcons hl hstep
      exact ringSound_run cs Wl2 sb2 sb1 hc2 hl2 h

/-- One event that is not an admitted issue writing `W.rd` keeps track of the writer `W`:
the completion flag grows by the writeback of its producer slot. -/
theorem tracked_step {Wl : List pipeline_trace_t} {sb sb1 : Scoreboard Ring} {c : RingCall}
    {W : pipeline_trace_t} {p s : Int} {done : Bool}
    (hl : RingLinked Wl sb) (hwb : W.wb = true) (ht : Tracked W p s done sb)
    (h : ringStep sb c = some sb1)
    (hw : Call.writes Ring.ops W.rd sb c.toCall = false) :
    Tracked W p s (done || Call.completes p sb c.toCall) sb1 := by
  rcases ringStep_cases h with ⟨rfl, rfl⟩ | ⟨hstep, hseq⟩
  · simp only [RingCall.toCall, Call.completes, Bool.or_false]
    rcases ht with ⟨hRAT, hRST, ⟨b, hb, hbd⟩, hcd⟩ | ⟨hRAT, hd⟩
    · have hflag : ∀ rest : List (pipeline_trace_t × Int × Bool), (W, p, b) ∈ rest →
          ∃ b1 : Bool, (W, p, b1) ∈ rest.map (Ring.flag sb.ROB_) ∧ (b1 = true → done = true) := by
        intro rest hmem
        refine ⟨b || sb.ROB_.Completed.contains p, List.mem_map.mpr ⟨_, hmem, rfl⟩, ?_⟩
        intro hb1
        simp only [Bool.or_eq_true] at hb1
        rcases hb1 with hb1 | hb1
        · exact hbd hb1
        · exact hcd (by simpa using hb1)
      rcases Ring.retire_eq sb with ⟨x, rest, hin, hfl, heq⟩ | ⟨_, heq⟩
      · rw [heq]
        by_cases hq : x.2.1 = p
        · obtain ⟨head, hshape, _, hcap⟩ := hl.shape
          have hx : x ∈ sb.ROB_.state.inflight := by
            rw [hin]
            exact List.mem_cons_self _ _
          have hxW := ring_shape_unique hshape hcap x hx (W, p, b) hb hq
          subst hxW
          have hd : done = true := by
            simp only [Bool.or_eq_true] at hfl
            rcases hfl with hfl | hfl
            · exact hbd hfl
            · exact hcd (by simpa using hfl)
          exact Or.inr ⟨RegisterAliasTable.release_self hRAT hwb, hd⟩
        · left
          refine ⟨RegisterAliasTable.release_keeps hRAT (fun _ hpq => hq hpq.symm), hRST,
            ?_, ?_⟩
          · apply hflag
            rw [hin] at hb
            rcases List.mem_cons.mp hb with hb1 | hb1
            · exact absurd (by rw [← hb1]) hq
            · exact hb1
          · intro hmem
            simp at hmem
      · rw [heq]
        left
        refine ⟨hRAT, hRST, hflag _ hb, ?_⟩
        intro hmem
        simp at hmem
    · right
      refine ⟨?_, hd⟩
      rcases Ring.retire_eq sb with ⟨x, rest, _, _, heq⟩ | ⟨_, heq⟩
      · rw [heq]
        exact RegisterAliasTable.release_available hRAT
      · rw [heq]
        exact hRAT
  · rcases ht with ⟨hRAT, hRST, ⟨b, hb, hbd⟩, hcd⟩ | ⟨hRAT, hd⟩
    · left
      have ha := allocates_in_flight (c := c.toCall) hl ⟨(W, p, b), hb, rfl⟩
      obtain ⟨h1, h2⟩ := step_tracks hRAT hRST hstep hw ha
      obtain ⟨h3, h4⟩ := step_keeps_inflight hstep hseq
      refine ⟨h1, ?_, ⟨b, h3 _ hb, fun hb1 => by simp [hbd hb1]⟩, ?_⟩
      · rw [h2]
        cases done <;> cases Call.completes p sb c.toCall <;> simp
      · intro hmem
        rcases h4 p hmem with h5 | h5
        · simp [hcd h5]
        · simp [h5]
    · right
      refine ⟨?_, by simp [hd]⟩
      rw [step_keeps_rat hstep hw]
      exact hRAT

/-- A run in which no admitted issue writes `W.rd` keeps track of the writer `W`. -/
theorem tracked_run {W : pipeline_trace_t} {p s : Int} (hwb : W.wb = true) :
    ∀ (cs : List RingCall) (Wl : List pipeline_trace_t) (sb sb2 : Scoreboard Ring)
      (done : Bool), Consistent sb → RingLinked Wl sb → Tracked W p s done sb →
      ringRun sb cs = some sb2 → ringWritesIn W.rd sb cs = false →
      Tracked W p s (done || ringCompletesIn p sb cs) sb2
  | [], Wl, sb, sb2, done, _, _, ht, hrun, _ => by
    simp only [ringRun, Option.some.injEq] at hrun
    subst hrun
    simpa [ringCompletesIn, anyRingCall] using ht
  | c :: cs, Wl, sb, sb2, done, hcons, hl, ht, hrun, hwr => by
    cases hstep : ringStep sb c with
    | none => simp [ringRun, hstep] at hrun
    | some sb1 =>
      simp only [ringRun, hstep] at hrun
      simp only [ringWritesIn, anyRingCall, hstep, Bool.or_eq_false_iff] at hwr
      obtain ⟨hc1, Wl1, hl1⟩ := ringSound_step hcons hl hstep
      have ht1 := tracked_step hl hwb ht hstep hwr.1
      have ih := tracked_run hwb cs Wl1 sb1 sb2 _ hc1 hl1 ht1 hrun hwr.2
      simp only [ringCompletesIn, anyRingCall, hstep] at ih ⊢
      rw [Bool.or_assoc] at ih
      exact ih

/-- An admitted issue of a writing instruction `W` starts the tracking of `W`: producer
slot and reservation-station slot as recorded, no writeback of the slot yet. -/
theorem tracked_issue {Wl : List pipeline_trace_t} {sb0 sb1 : Scoreboard Ring}
    {W : pipeline_trace_t} {s : Nat} (hl : RingLinked Wl sb0) (hwb : W.wb = true)
    (hW : issue Ring.ops sb0 W = some (true, sb1)) (hs : sb0.RS_.freeSlot = some s) :
    Tracked W (Ring.ops.allocate sb0.ROB_.state W).1 (s : Int) false sb1 := by
  have hnf := (issue_admitted_not_full hW).2
  have hlt : sb0.ROB_.state.inflight.length < sb0.ROB_.state.capacity := by
    simpa [Ring.ops] using hnf
  obtain ⟨head, hshape, htail, _⟩ := hl.shape
  have hfresh := ring_shape_fresh hshape htail hlt
  obtain ⟨_, _, RAT, s1, RST, _, _, hRAT, hs1, hRST, rfl⟩ := issue_admitted hW
  rw [hs] at hs1
  cases hs1
  rw [if_pos hwb] at hRAT
  left
  refine ⟨RegisterAliasTable.get_of_set hRAT, ?_, ⟨false, ?_, fun hb => by cases hb⟩, ?_⟩
  · simpa using vecGet_of_vecSet hRST
  · simp [Ring.ops]
  · intro hmem
    obtain ⟨x, hx, hxp⟩ := hl.sentLive _ hmem
    exact absurd hxp (hfresh x hx)

/-- C3 (renaming correctness).  Take a run from the constructor with the circular reorder
buffer, whose ticks release the RAT entry of the instruction they retire.  Let `W`, which
writes register `W.rd`, be admitted (producer slot `p`, reservation-station slot `s`), and
let a run follow in which no admitted issue writes `W.rd`.  Then an instruction `Y`
admitted after that run records, for each source register equal to `W.rd`, the wait `s`
(the slot of `W`, the most recently issued writer) when no writeback of the run processed
the completion of `p`, and `-1` (available) when one did: never the slot of an older
writer or of another instruction. -/
theorem issue_reads_most_recent_writer (NUM_REGS num_RSs rob_size numFUs capacity : Nat)
    (cs0 cs : List RingCall) (sb0 sb1 sb2 sb3 : Scoreboard Ring) (W Y : pipeline_trace_t)
    (hreach : ringRun
      (Scoreboard.init NUM_REGS num_RSs rob_size numFUs (Ring.mk capacity 0 [])) cs0 = some sb0)
    (hW : issue Ring.ops sb0 W = some (true, sb1)) (hwb : W.wb = true)
    (hrun : ringRun sb1 cs = some sb2)
    (hwr : ringWritesIn W.rd sb1 cs = false)
    (hY : issue Ring.ops sb2 Y = some (true, sb3)) :
    ∃ (s sY : Nat) (e : entry_t),
      sb0.RS_.freeSlot = some s ∧ sb2.RS_.freeSlot = some sY ∧
      sb3.RS_.entry (sY : Int) = some e ∧ e.trace = Y ∧
      (Y.rs1 = W.rd → e.rs1_index =
        if ringCompletesIn (Ring.ops.allocate sb0.ROB_.state W).1 sb1 cs = true
          then -1 else (s : Int)) ∧
      (Y.rs2 = W.rd → e.rs2_index =
        if ringCompletesIn (Ring.ops.allocate sb0.ROB_.state W).1 sb1 cs = true
          then -1 else (s : Int)) := by
  obtain ⟨hc0, Wl0, hl0⟩ := ringSound_run cs0 [] _ sb0
    (Consistent.init NUM_REGS num_RSs rob_size numFUs _)
    (ringLinked_init NUM_REGS num_RSs rob_size numFUs capacity) hreach
  obtain ⟨_, _, RAT, s, RST, _, _, _, hs, hRST, hsb1⟩ := issue_admitted hW
  have hp : (Ring.ops.allocate sb0.ROB_.state W).1 ≠ -1 := by
    have := (vecSet_bounds hRST).1
    omega
  have ht1 := tracked_issue hl0 hwb hW hs
  have hc1 : Consistent sb1 := hc0.issue hW
  have hl1 : RingLinked Wl0 sb1 := ringLinked_issue hl0 hW
  have ht2 := tracked_run hwb cs Wl0 sb1 sb2 false hc1 hl1 ht1 hrun hwr
  simp only [Bool.false_or] at ht2
  have hres : ∀ (reg : Nat) (w : Int), resolve sb2 reg = some w → reg = W.rd →
      w = if ringCompletesIn (Ring.ops.allocate sb0.ROB_.state W).1 sb1 cs = true
        then -1 else (s : Int) := by
    intro reg w hw hreg
    obtain ⟨r, hr, hr1, hr2⟩ := resolve_spec hw
    rw [hreg] at hr
    rcases ht2 with ⟨hRAT2, hRST2, _, _⟩ | ⟨hRAT2, hd⟩
    · rw [hRAT2] at hr
      cases hr
      have := hr2 hp
      rw [hRST2] at this
      exact (Option.some.inj this).symm
    · rw [hRAT2] at hr
      cases hr
      rw [hr1 rfl, if_pos hd]
  obtain ⟨w1, w2, RAT2, sY, RST2, hw1, hw2, _, hsY, _, rfl⟩ := issue_admitted hY
  have hlt := ReservationStation.freeSlot_lt hsY
  refine ⟨s, sY, ⟨true, false, (Ring.ops.allocate sb2.ROB_.state Y).1, w1, w2, Y⟩, hs, hsY,
    ?_, rfl, ?_, ?_⟩
  · simp [ReservationStation.entry, hlt]
  · intro hreg
    exact hres _ _ hw1 hreg
  · intro hreg
    exact hres _ _ hw2 hreg

/-- Witness for C3: `A` is issued into the freshly constructed `sbWide`; in `releaseRun`
it completes and retires, and its producer slot 0 is handed to `E`; then `N`, which reads
register 1, is issued and records `-1`. -/
theorem issue_reads_most_recent_writer_witness :
    (ringRun (Scoreboard.init 4 3 3 2 (Ring.mk 3 0 [])) [] = some sbWide ∧
      issue Ring.ops sbWide instrA = some (true, sbWideA) ∧ instrA.wb = true ∧
      ringRun sbWideA releaseRun = some sbReleased ∧
      ringWritesIn instrA.rd sbWideA releaseRun = false ∧
      ringCompletesIn 0 sbWideA releaseRun = true ∧
      issue Ring.ops sbReleased instrN = some (true, sbReleasedN) ∧
      sbReleasedN.RS_.entry 2 = some ⟨true, false, 1, -1, -1, instrN⟩) ∧
    ∃ (s sY : Nat) (e : entry_t),
      sbWide.RS_.freeSlot = some s ∧ sbReleased.RS_.freeSlot = some sY ∧
      sbReleasedN.RS_.entry (sY : Int) = some e ∧ e.trace = instrN ∧
      (instrN.rs1 = instrA.rd → e.rs1_index =
        if ringCompletesIn (Ring.ops.allocate sbWide.ROB_.state instrA).1 sbWideA
          releaseRun = true then -1 else (s : Int)) ∧
      (instrN.rs2 = instrA.rd → e.rs2_index =
        if ringCompletesIn (Ring.ops.allocate sbWide.ROB_.state instrA).1 sbWideA
          releaseRun = true then -1 else (s : Int)) :=
  ⟨by decide,
    issue_reads_most_recent_writer 4 3 3 2 3 [] releaseRun sbWide sbWideA sbReleased
      sbReleasedN instrA instrN (by decide) (by decide) (by decide) (by decide) (by decide)
      (by decide)⟩

end Proofs

end tinyrv
